import Mathlib

/-!
# Verification of the stepwise maze-search core

A shallow embedding of the search-algorithm service (`createAlgorithmGenerator`
and the seven generator-based strategies) of the maze-visualisation repository,
together with proofs about the claims of its specification.

Modelling conventions:

* JS numbers used as grid coordinates are modelled as `Int` (they are produced
  only by integer arithmetic in the source).
* The string key `"x,y"` of a coordinate is invertible (`toKey`/`fromKey` are
  mutually inverse on integer coordinates), so keys are modelled as the
  coordinates themselves.  The empty-string sentinel parent used by the
  bidirectional search (`""`, which is falsy and therefore terminates the
  `while (curr)` loop of `reconstructPath` exactly like an absent key) is
  modelled as an `Option Coordinate` value `none`.
* JS `Map`/`Set` iteration order is insertion order; maps and sets are
  modelled as association lists / lists kept in insertion order.
* Each generator function is modelled as a fuelled function returning the
  list of frames it yields; a `none` result means the computation did not
  finish within the given fuel, so genuine divergence is expressible as
  "`none` for every fuel".
-/

namespace MazeSearch

/-- `Coordinate` from types.ts: an integer pair. -/
structure Coordinate where
  x : Int
  y : Int
deriving DecidableEq, Repr

/-- `CellType` from types.ts. -/
inductive CellType where
  | WALL
  | EMPTY
  | START
  | END
deriving DecidableEq, Repr

/-- The only field of `CellData` the search algorithms ever read is `type`
(the remaining fields x, y, isVisited, isFrontier, isPath, distance, parent
are write-only render state and are omitted). -/
structure CellData where
  type : CellType
deriving DecidableEq, Repr

/-- The grid consumed by the algorithms: `CellData[][]`, indexed `grid[y][x]`. -/
abbrev Grid := List (List CellData)

/-- The four direction offsets of `getNeighbors`, in source order
(up, down, left, right). -/
def dirs : List Coordinate := [⟨0, -1⟩, ⟨0, 1⟩, ⟨-1, 0⟩, ⟨1, 0⟩]

/-- `getNeighbors` from the source: in-bounds, non-wall neighbours of
`current` in the fixed order up, down, left, right.  `rows` is
`grid.length`, `cols` is `grid[0].length`; the element access
`grid[ny][nx]` is total here via defaults, which agrees with the source on
rectangular grids (the only grids the source indexes). -/
def getNeighbors (grid : Grid) (current : Coordinate) : List Coordinate :=
  let rows : Int := grid.length
  let cols : Int := (grid.headD []).length
  dirs.filterMap (fun d =>
    let nx := current.x + d.x
    let ny := current.y + d.y
    if 0 ≤ nx ∧ nx < cols ∧ 0 ≤ ny ∧ ny < rows then
      if ((grid.getD ny.toNat []).getD nx.toNat ⟨CellType.WALL⟩).type ≠ CellType.WALL then
        some ⟨nx, ny⟩
      else none
    else none)

/-- `heuristic` from the source: Manhattan distance. -/
def heuristic (a b : Coordinate) : Nat :=
  (a.x - b.x).natAbs + (a.y - b.y).natAbs

/-- A parent map `Map<string, string>`: association list in which an entry
`(k, some p)` maps the key of `k` to the key of `p` and `(k, none)` maps it
to the empty-string sentinel used for the roots of the bidirectional
search.  Updates prepend (the newest binding wins, as with `Map.set`). -/
abbrev ParentMap := List (Coordinate × Option Coordinate)

/-- `Map.get`: the value of the newest binding of `k`, if any. -/
def pmFind (pm : ParentMap) (k : Coordinate) : Option (Option Coordinate) :=
  (pm.find? (fun e => decide (e.1 = k))).map (fun e => e.2)

/-- `reconstructPath` from the source:
`while (curr) { path.unshift(fromKey(curr)); curr = parentMap.get(curr) }`.
The loop ends when the lookup gives an absent key (`undefined`) or the
falsy empty-string sentinel; both are the fall-through branch here.  The
function is fuelled by the number of loop iterations allowed; `none` means
the loop did not finish within the fuel. -/
def reconstructPath (fuel : Nat) (pm : ParentMap) (k : Coordinate) :
    Option (List Coordinate) :=
  match fuel with
  | 0 => none
  | fuel + 1 =>
    match pmFind pm k with
    | some (some p) => (reconstructPath fuel pm p).map (fun l => l ++ [k])
    | _ => some [k]

/-- `AnimationStep` from types.ts. -/
structure Frame where
  visited : List Coordinate
  frontier : List Coordinate
  path : List Coordinate
  current : Option Coordinate
deriving DecidableEq, Repr

/-- Stable insertion of `a` into `l`, placing `a` before the first element
whose key is strictly greater. -/
def stableInsert (key : α → Nat) (a : α) : List α → List α
  | [] => [a]
  | b :: l => if key b ≤ key a then b :: stableInsert key a l else a :: b :: l

/-- Stable sort by a `Nat` key.  JS `Array.prototype.sort` is stable, and a
stable sort by a comparator is unique, so this models both
`pq.sort((a, b) => a.priority - b.priority)` and
`neighbors.sort((a, b) => heuristic(a, end) - heuristic(b, end))`. -/
def stableSortBy (key : α → Nat) : List α → List α
  | [] => []
  | a :: l => stableInsert key a (stableSortBy key l)

/-! ## BFS generator -/

/-- The loop state of `bfsGenerator`: the FIFO `queue`, the insertion-ordered
`visitedSet` and the `parentMap`. -/
structure BfsState where
  queue : List Coordinate
  visitedSet : List Coordinate
  parentMap : ParentMap
deriving Repr

/-- The `Set.add` of an insertion-ordered set. -/
def setAdd (s : List Coordinate) (c : Coordinate) : List Coordinate :=
  if c ∈ s then s else s ++ [c]

/-- The neighbour loop of `bfsGenerator`: for each unvisited neighbour in
canonical order, mark visited, record the parent, enqueue. -/
def bfsExpand (current : Coordinate) (σ : BfsState) :
    List Coordinate → BfsState
  | [] => σ
  | n :: ns =>
    if n ∈ σ.visitedSet then bfsExpand current σ ns
    else bfsExpand current
      { queue := σ.queue ++ [n]
        visitedSet := σ.visitedSet ++ [n]
        parentMap := (n, some current) :: σ.parentMap } ns

/-- The `while (queue.length > 0)` loop of `bfsGenerator`, fuelled by loop
iterations; returns the list of frames the generator yields from state `σ`
onwards, or `none` if the fuel runs out. -/
def bfsRun (fuel : Nat) (grid : Grid) (en : Coordinate) (σ : BfsState) :
    Option (List Frame) :=
  match fuel with
  | 0 => none
  | fuel + 1 =>
    match σ.queue with
    | [] => some []
    | current :: rest =>
      if current = en then
        (reconstructPath (σ.parentMap.length + 1) σ.parentMap current).map
          (fun p => [⟨σ.visitedSet, [], p, none⟩])
      else
        let σ' := bfsExpand current { σ with queue := rest } (getNeighbors grid current)
        (bfsRun fuel grid en σ').map
          (fun fs => ⟨σ.visitedSet, rest, [], some current⟩ :: fs)

/-- `bfsGenerator`: the full frame sequence from the seeded initial state. -/
def bfsFrames (fuel : Nat) (grid : Grid) (s en : Coordinate) : Option (List Frame) :=
  bfsRun fuel grid en ⟨[s], [s], []⟩

/-! ## DFS generator -/

/-- The loop state of `dfsGenerator`.  The stack is kept in JS array order
(bottom of the stack first; `pop` takes the last element, `push` appends). -/
structure DfsState where
  stack : List Coordinate
  visitedSet : List Coordinate
  parentMap : ParentMap
deriving Repr

/-- The neighbour loop of `dfsGenerator`: iterated in reverse order, pushing
each unvisited neighbour after marking it visited and parented. -/
def dfsExpand (current : Coordinate) (σ : DfsState) :
    List Coordinate → DfsState
  | [] => σ
  | n :: ns =>
    if n ∈ σ.visitedSet then dfsExpand current σ ns
    else dfsExpand current
      { stack := σ.stack ++ [n]
        visitedSet := σ.visitedSet ++ [n]
        parentMap := (n, some current) :: σ.parentMap } ns

/-- The `while (stack.length > 0)` loop of `dfsGenerator`.  A progress frame
shows the reconstruction of the current branch as its path. -/
def dfsRun (fuel : Nat) (grid : Grid) (en : Coordinate) (σ : DfsState) :
    Option (List Frame) :=
  match fuel with
  | 0 => none
  | fuel + 1 =>
    match σ.stack.getLast? with
    | none => some []
    | some current =>
      let rest := σ.stack.dropLast
      if current = en then
        (reconstructPath (σ.parentMap.length + 1) σ.parentMap current).map
          (fun p => [⟨σ.visitedSet, [], p, none⟩])
      else
        match reconstructPath (σ.parentMap.length + 1) σ.parentMap current with
        | none => none
        | some branch =>
          let σ' := dfsExpand current { σ with stack := rest }
            (getNeighbors grid current).reverse
          (dfsRun fuel grid en σ').map
            (fun fs => ⟨σ.visitedSet, rest, branch, some current⟩ :: fs)

/-- `dfsGenerator`: the full frame sequence from the seeded initial state. -/
def dfsFrames (fuel : Nat) (grid : Grid) (s en : Coordinate) : Option (List Frame) :=
  dfsRun fuel grid en ⟨[s], [s], []⟩

/-! ## Generalized weighted search (Dijkstra / A* / Greedy) -/

/-- `WeightedConfig` from the source.  The two weights the factory ever
passes are 0 and 1, so the weight is modelled as a `Nat`. -/
structure WeightedConfig where
  usePathCost : Bool
  heuristicWeight : Nat
deriving Repr

/-- A priority-queue element `{ coord, priority, g }`. -/
structure PQEntry where
  coord : Coordinate
  priority : Nat
  g : Nat
deriving DecidableEq, Repr

/-- The loop state of `weightedSearchGenerator`. -/
structure WState where
  pq : List PQEntry
  distMap : List (Coordinate × Nat)
  parentMap : ParentMap
  visitedSet : List Coordinate
deriving Repr

/-- `distMap.get(k)`, newest binding first. -/
def distFind (dm : List (Coordinate × Nat)) (k : Coordinate) : Option Nat :=
  (dm.find? (fun e => decide (e.1 = k))).map (fun e => e.2)

/-- The relaxation loop of `weightedSearchGenerator`: for each non-closed
neighbour whose tentative cost `g + 1` beats the best known cost
(`Infinity` when absent), update the cost and parent and push a fresh
priority entry. -/
def wRelax (grid : Grid) (en : Coordinate) (config : WeightedConfig)
    (current : Coordinate) (currentG : Nat) (σ : WState) :
    List Coordinate → WState
  | [] => σ
  | n :: ns =>
    if n ∈ σ.visitedSet then wRelax grid en config current currentG σ ns
    else
      let newG := currentG + 1
      let improves := match distFind σ.distMap n with
        | none => true
        | some existingG => decide (newG < existingG)
      if improves then
        let h := heuristic n en
        let priority := (if config.usePathCost then newG else 0) + config.heuristicWeight * h
        wRelax grid en config current currentG
          { σ with
            distMap := (n, newG) :: σ.distMap
            parentMap := (n, some current) :: σ.parentMap
            pq := σ.pq ++ [⟨n, priority, newG⟩] } ns
      else wRelax grid en config current currentG σ ns

/-- The `while (pq.length > 0)` loop of `weightedSearchGenerator`: sort the
queue stably by priority, shift the head; a closed head is skipped without
a frame (lazy deletion), otherwise the head is closed, the goal test runs,
a progress frame is yielded (before the relaxation loop, so its frontier
is the post-shift queue), and the neighbours are relaxed. -/
def wRun (fuel : Nat) (grid : Grid) (en : Coordinate) (config : WeightedConfig)
    (σ : WState) : Option (List Frame) :=
  match fuel with
  | 0 => none
  | fuel + 1 =>
    match stableSortBy (fun e => e.priority) σ.pq with
    | [] => some []
    | top :: rest =>
      if top.coord ∈ σ.visitedSet then
        wRun fuel grid en config { σ with pq := rest }
      else
        let σ₁ := { σ with pq := rest, visitedSet := σ.visitedSet ++ [top.coord] }
        if top.coord = en then
          (reconstructPath (σ₁.parentMap.length + 1) σ₁.parentMap top.coord).map
            (fun p => [⟨σ₁.visitedSet, [], p, none⟩])
        else
          let σ₂ := wRelax grid en config top.coord top.g σ₁
            (getNeighbors grid top.coord)
          (wRun fuel grid en config σ₂).map
            (fun fs =>
              ⟨σ₁.visitedSet, rest.map (fun e => e.coord), [], some top.coord⟩ :: fs)

/-- `weightedSearchGenerator`: the full frame sequence from the seeded
initial state (`dist(start) = 0`, one zero-priority entry). -/
def weightedFrames (fuel : Nat) (grid : Grid) (s en : Coordinate)
    (config : WeightedConfig) : Option (List Frame) :=
  wRun fuel grid en config ⟨[⟨s, 0, 0⟩], [(s, 0)], [], []⟩

/-! ## Bidirectional BFS generator -/

/-- The loop state of `bidirectionalGenerator`: two queues and two
insertion-ordered visited maps (`key -> parentKey`; the roots carry the
empty-string sentinel, modelled as `none`). -/
structure BiState where
  startQueue : List Coordinate
  endQueue : List Coordinate
  startVisited : ParentMap
  endVisited : ParentMap
deriving Repr

/-- One side's neighbour expansion: record the parent and enqueue every
neighbour not yet in this side's visited map.  The map is appended to
(each key is written once, so insertion order is append order). -/
def biExpand (curr : Coordinate) (vis : ParentMap) (q : List Coordinate) :
    List Coordinate → ParentMap × List Coordinate
  | [] => (vis, q)
  | n :: ns =>
    if (pmFind vis n).isSome then biExpand curr vis q ns
    else biExpand curr (vis ++ [(n, some curr)]) (q ++ [n]) ns

/-- The keys of a visited map in insertion order
(`Array.from(m.keys()).map(fromKey)`). -/
def biKeys (pm : ParentMap) : List Coordinate := pm.map (fun e => e.1)

/-- The final frame yielded on a meet at key `k`:
`fullPath = [...pathStart, ...pathEnd.slice(1).reverse()]` where
`pathStart = reconstructPath(startVisited, k)` and
`pathEnd = reconstructPath(endVisited, k)`. -/
def biMeetFrame (sv ev : ParentMap) (k : Coordinate) : Option Frame :=
  match reconstructPath (sv.length + 1) sv k, reconstructPath (ev.length + 1) ev k with
  | some pathStart, some pathEnd =>
    some ⟨biKeys sv ++ biKeys ev, [], pathStart ++ (pathEnd.drop 1).reverse, none⟩
  | _, _ => none

/-- The `while (startQueue.length > 0 && endQueue.length > 0)` loop of
`bidirectionalGenerator`: expand one node from the start side (returning
the merged final frame on a meet against the end side's visited map), then
one from the end side (a meet is checked against the start side's visited
map as already extended this iteration), then yield a progress frame. -/
def biRun (fuel : Nat) (grid : Grid) (σ : BiState) : Option (List Frame) :=
  match fuel with
  | 0 => none
  | fuel + 1 =>
    match σ.startQueue, σ.endQueue with
    | [], _ => some []
    | _, [] => some []
    | currStart :: sRest, currEnd :: eRest =>
      if (pmFind σ.endVisited currStart).isSome then
        (biMeetFrame σ.startVisited σ.endVisited currStart).map (fun f => [f])
      else
        let p1 := biExpand currStart σ.startVisited sRest (getNeighbors grid currStart)
        if (pmFind p1.1 currEnd).isSome then
          (biMeetFrame p1.1 σ.endVisited currEnd).map (fun f => [f])
        else
          let p2 := biExpand currEnd σ.endVisited eRest (getNeighbors grid currEnd)
          let frame : Frame := ⟨biKeys p1.1 ++ biKeys p2.1, p1.2 ++ p2.2, [], none⟩
          (biRun fuel grid ⟨p1.2, p2.2, p1.1, p2.1⟩).map (fun fs => frame :: fs)

/-- `bidirectionalGenerator`: both roots seeded with the sentinel parent. -/
def biFrames (fuel : Nat) (grid : Grid) (s en : Coordinate) : Option (List Frame) :=
  biRun fuel grid ⟨[s], [en], [(s, none)], [(en, none)]⟩

/-! ## IDA* generator -/

/-- The value threaded through the inner `search` of `idaStarGenerator`:
the frames yielded so far, the `{found, cost}` result (`cost = none`
models `Infinity`), and the current `pathStack` and `visitedKeys`. -/
structure IdaInner where
  frames : List Frame
  found : Bool
  cost : Option Nat
  pathStack : List Coordinate
  visitedKeys : List Coordinate
deriving Repr

/-- `if (res.cost < min) min = res.cost`, with `none` as `Infinity`. -/
def costMin (c minv : Option Nat) : Option Nat :=
  match c, minv with
  | none, _ => minv
  | some c, none => some c
  | some c, some m => if c < m then some c else some m

/-- The `for (const n of neighbors)` loop of the inner `search`,
parametrized by the recursive call `searchF` at one greater depth:
skip nodes on the current path stack; otherwise push, mark visited,
yield a frame, recurse; on success return immediately (keeping the
stack), otherwise fold the returned cost into the running minimum and
backtrack (`pathStack.pop()`). -/
def idaChildren
    (searchF : Coordinate → Nat → List Coordinate → List Coordinate → Option IdaInner)
    (g : Nat) :
    List Coordinate → Option Nat → List Coordinate → List Coordinate → Option IdaInner
  | [], minv, stack, visited => some ⟨[], false, minv, stack, visited⟩
  | n :: ns, minv, stack, visited =>
    if n ∈ stack then idaChildren searchF g ns minv stack visited
    else
      let stack' := stack ++ [n]
      let visited' := setAdd visited n
      let frame : Frame := ⟨visited', [n], stack', some n⟩
      match searchF n (g + 1) stack' visited' with
      | none => none
      | some r =>
        if r.found then some ⟨frame :: r.frames, true, r.cost, r.pathStack, r.visitedKeys⟩
        else
          match idaChildren searchF g ns (costMin r.cost minv)
              r.pathStack.dropLast r.visitedKeys with
          | none => none
          | some r2 =>
            some ⟨frame :: r.frames ++ r2.frames, r2.found, r2.cost,
              r2.pathStack, r2.visitedKeys⟩

/-- The inner `search(node, g)` of `idaStarGenerator`, fuelled by recursion
depth: compute `f = g + h(node)`; prune if `f` exceeds the bound
(reporting `f` upward), succeed on the goal, otherwise iterate over the
neighbours sorted (stably) by heuristic. -/
def idaSearch (grid : Grid) (en : Coordinate) (bound : Nat) :
    Nat → Coordinate → Nat → List Coordinate → List Coordinate → Option IdaInner
  | 0, _, _, _, _ => none
  | fuel + 1, node, g, stack, visited =>
    let f := g + heuristic node en
    if bound < f then some ⟨[], false, some f, stack, visited⟩
    else if node = en then some ⟨[], true, some f, stack, visited⟩
    else
      idaChildren (idaSearch grid en bound fuel) g
        (stableSortBy (fun c => heuristic c en) (getNeighbors grid node))
        none stack visited

/-- The outer `while (true)` loop of `idaStarGenerator`: run the bounded
search; on success append the final frame (the current path stack); if the
returned cost is `Infinity` finish with no further frame; otherwise raise
the bound to the returned cost and repeat.  Fuelled by outer iterations. -/
def idaOuter (grid : Grid) (s en : Coordinate) (innerFuel : Nat) :
    Nat → Nat → List Coordinate → List Coordinate → Option (List Frame)
  | 0, _, _, _ => none
  | ofuel + 1, bound, stack, visited =>
    match idaSearch grid en bound innerFuel s 0 stack visited with
    | none => none
    | some r =>
      if r.found then some (r.frames ++ [(⟨r.visitedKeys, [], r.pathStack, none⟩ : Frame)])
      else
        match r.cost with
        | none => some r.frames
        | some c =>
          (idaOuter grid s en innerFuel ofuel c r.pathStack r.visitedKeys).map
            (fun fs => r.frames ++ fs)

/-- `idaStarGenerator`: `bound = heuristic(start, end)`, path stack and the
visualisation-only visited set seeded with the start.  The same fuel
bounds the inner recursion depth and the number of outer iterations. -/
def idaFrames (fuel : Nat) (grid : Grid) (s en : Coordinate) : Option (List Frame) :=
  idaOuter grid s en fuel fuel (heuristic s en) [s] [s]

/-! ## The factory -/

/-- `AlgorithmType` from types.ts. -/
inductive AlgorithmType where
  | BFS
  | DFS
  | DIJKSTRA
  | ASTAR
  | GREEDY
  | BIDIRECTIONAL
  | IDA_STAR
deriving DecidableEq, Repr

/-- `createAlgorithmGenerator` from the source: a plain switch mapping the
selector to a constructed, not-yet-advanced generator (here: its fuelled
frame sequence).  The body performs no validation of `start` or `end`. -/
def createAlgorithmGenerator (t : AlgorithmType) (grid : Grid) (s en : Coordinate) :
    Nat → Option (List Frame) :=
  fun fuel =>
    match t with
    | .BFS => bfsFrames fuel grid s en
    | .DFS => dfsFrames fuel grid s en
    | .DIJKSTRA => weightedFrames fuel grid s en ⟨true, 0⟩
    | .ASTAR => weightedFrames fuel grid s en ⟨true, 1⟩
    | .GREEDY => weightedFrames fuel grid s en ⟨false, 1⟩
    | .BIDIRECTIONAL => biFrames fuel grid s en
    | .IDA_STAR => idaFrames fuel grid s en

/-- The error taxonomy named by the specification's boundary contract. -/
inductive SearchError where
  | InvalidCoordinate
  | BrokenChain
  | AlreadyFinished
deriving DecidableEq, Repr

/-- The construction boundary `create(algorithm, grid, start, goal)`,
modelling the JS call's throw-or-return outcome as an `Except`: the source
factory is a plain dispatch with no validation, so construction always
returns the instance and never an error. -/
def createResult (t : AlgorithmType) (grid : Grid) (s en : Coordinate) :
    Except SearchError (Nat → Option (List Frame)) :=
  Except.ok (createAlgorithmGenerator t grid s en)

/-- Whether an `Except` is a success. -/
def exceptOk : Except SearchError (Nat → Option (List Frame)) → Bool
  | Except.ok _ => true
  | Except.error _ => false

/-- The JS iterator protocol over a generator's yield sequence, as consumed
by the driver's `generatorRef.current.next()`: while yields remain,
`next()` returns `{value: frame, done: false}`; once the generator body
has returned, every further `next()` returns `{value: undefined, done:
true}`. -/
def genNext : List Frame → (Option Frame × Bool) × List Frame
  | [] => ((none, true), [])
  | f :: rest => ((some f, false), rest)

/-- The remaining yield sequence after `n` calls to `next()`. -/
def genStateAfter : Nat → List Frame → List Frame
  | 0, l => l
  | n + 1, l => genStateAfter n (genNext l).2

/-! ## Concrete grids used in the claim instances -/

/-- An open cell. -/
def oc : CellData := ⟨CellType.EMPTY⟩

/-- A wall cell. -/
def wc : CellData := ⟨CellType.WALL⟩

/-- A 1×3 open corridor. -/
def corridorGrid : Grid := [[oc, oc, oc]]

/-- A 1×1 open grid. -/
def unitGrid : Grid := [[oc]]

/-- A 5×5 grid, all open except `(1,1)`, which is a wall. -/
def wallStartGrid : Grid :=
  [[oc, oc, oc, oc, oc],
   [oc, wc, oc, oc, oc],
   [oc, oc, oc, oc, oc],
   [oc, oc, oc, oc, oc],
   [oc, oc, oc, oc, oc]]

/-- A 1×5 corridor with a wall at `(1,0)`: the component of `(0,0)` has one
cell, the component of `(4,0)` has three. -/
def splitGrid : Grid := [[oc, wc, oc, oc, oc]]

/-- The single frame BFS yields on the 1×1 grid with start = goal. -/
def unitFinalFrame : Frame := ⟨[⟨0, 0⟩], [], [⟨0, 0⟩], none⟩

/-- The `n`-fold parent iterate of a key: `none` once the walk leaves the
map (or hits the sentinel). -/
def pmIterate (pm : ParentMap) (k : Coordinate) : Nat → Option Coordinate
  | 0 => some k
  | n + 1 =>
    match pmIterate pm k n with
    | some c =>
      match pmFind pm c with
      | some (some p) => some p
      | _ => none
    | none => none

/-- A two-element cyclic parent map: `(0,0) ↦ (1,0) ↦ (0,0)`. -/
def cycMap : ParentMap := [(⟨0, 0⟩, some ⟨1, 0⟩), (⟨1, 0⟩, some ⟨0, 0⟩)]

/-- Set-and-size growth between two coordinate lists: the first is contained
in the second and no longer than it. -/
def listLe (a b : List Coordinate) : Prop := a ⊆ b ∧ a.length ≤ b.length

/-- The visited data of frame `a` is contained in (and no larger than) that
of frame `b`. -/
def frameLe (a b : Frame) : Prop := listLe a.visited b.visited

/-- The invariant bundle carried through the IDA* inner search: the yielded
frames are `frameLe`-monotone, the visited set only grows from `vs` to the
returned `visitedKeys`, every frame's visited list sits between the two,
and every inner frame carries a `current` coordinate. -/
def idaBundle (vs : List Coordinate) (r : IdaInner) : Prop :=
  List.Chain' frameLe r.frames ∧ listLe vs r.visitedKeys ∧
  (∀ f ∈ r.frames, listLe vs f.visited ∧ listLe f.visited r.visitedKeys) ∧
  (∀ f ∈ r.frames, f.current.isSome = true)

/-! ## Grid paths and reachability -/

/-- `b` is one of `a`'s in-bounds open neighbours (a single legal move). -/
def Adj (grid : Grid) (a b : Coordinate) : Prop := b ∈ getNeighbors grid a

instance (grid : Grid) : DecidableRel (Adj grid) :=
  fun a b => inferInstanceAs (Decidable (b ∈ getNeighbors grid a))

/-- Structurally recursive decision procedure for chains of legal moves
(kernel-reducible, unlike the generic instance). -/
def chainDec (grid : Grid) : (l : List Coordinate) → Decidable (List.Chain' (Adj grid) l)
  | [] => isTrue (by simp)
  | [_] => isTrue (by simp)
  | a :: b :: t =>
    match chainDec grid (b :: t) with
    | isTrue h =>
      if hab : Adj grid a b then isTrue (List.chain'_cons.mpr ⟨hab, h⟩)
      else isFalse (fun hc => hab (List.chain'_cons.mp hc).1)
    | isFalse h => isFalse (fun hc => h (List.chain'_cons.mp hc).2)

instance (grid : Grid) (l : List Coordinate) : Decidable (List.Chain' (Adj grid) l) :=
  chainDec grid l

/-- A path from `s` to `e`: a non-empty list of coordinates starting at `s`,
ending at `e`, each consecutive pair a legal move. -/
def IsPath (grid : Grid) (s e : Coordinate) (l : List Coordinate) : Prop :=
  l ≠ [] ∧ l.head? = some s ∧ l.getLast? = some e ∧ l.Chain' (Adj grid)

instance (grid : Grid) (s e : Coordinate) (l : List Coordinate) :
    Decidable (IsPath grid s e l) :=
  inferInstanceAs (Decidable (_ ∧ _ ∧ _ ∧ _))

/-- `e` can be reached from `s` by legal moves. -/
def Reachable (grid : Grid) (s e : Coordinate) : Prop := ∃ l, IsPath grid s e l

/-- A non-empty rectangular grid (the only shape the source ever indexes;
on ragged grids the source's `grid[ny][nx].type` would throw). -/
def Rect (grid : Grid) : Prop :=
  grid ≠ [] ∧ ∀ row ∈ grid, row.length = (grid.headD []).length

instance (grid : Grid) : Decidable (Rect grid) :=
  inferInstanceAs (Decidable (_ ∧ _))

/-- All in-bounds non-wall coordinates of the grid, with the same column
bound (`grid[0].length`) that `getNeighbors` uses. -/
def openCells (grid : Grid) : List Coordinate :=
  (List.range grid.length).flatMap (fun y =>
    (List.range (grid.headD []).length).filterMap (fun x =>
      if ((grid.getD y []).getD x ⟨CellType.WALL⟩).type ≠ CellType.WALL then
        some ⟨(x : Int), (y : Int)⟩
      else none))

/-- The BFS termination measure: queue length plus twice the undiscovered
capacity. -/
def bfsMeasure (grid : Grid) (σ : BfsState) : Nat :=
  σ.queue.length + 2 * ((openCells grid).length + 1 - σ.visitedSet.length)

/-- The BFS loop invariant, with `D` the ghost depth of each visited node
(its parent-chain length): parent chains reconstruct to genuine shortest
paths (`recon` + `minD`), the queue is sorted by depth and spans at most
two consecutive depths, fully processed nodes have all their neighbours
visited, and the goal — if discovered — is still queued. -/
structure BfsInv (grid : Grid) (s en : Coordinate) (σ : BfsState)
    (D : Coordinate → Nat) : Prop where
  sVis : s ∈ σ.visitedSet
  vNodup : σ.visitedSet.Nodup
  qSub : ∀ c ∈ σ.queue, c ∈ σ.visitedSet
  qNodup : σ.queue.Nodup
  pmKeys : ∀ x, (pmFind σ.parentMap x).isSome ↔ (x ∈ σ.visitedSet ∧ x ≠ s)
  recon : ∀ x ∈ σ.visitedSet,
    ∃ l, reconstructPath (σ.parentMap.length + 1) σ.parentMap x = some l ∧
      IsPath grid s x l ∧ l.length = D x + 1 ∧ ∀ c ∈ l, c ∈ σ.visitedSet
  minD : ∀ x ∈ σ.visitedSet, ∀ l, IsPath grid s x l → D x + 1 ≤ l.length
  qSorted : List.Pairwise (fun a b => D a ≤ D b ∧ D b ≤ D a + 1) σ.queue
  processed : ∀ x ∈ σ.visitedSet, x ∉ σ.queue →
    ∀ n ∈ getNeighbors grid x, n ∈ σ.visitedSet
  enQueue : en ∈ σ.visitedSet → en ∈ σ.queue
  vOpen : ∀ x ∈ σ.visitedSet, x = s ∨ x ∈ openCells grid

/-- The shape of the state in the middle of one `bfsExpand` neighbour loop:
`new` is the batch of fresh nodes appended so far to both the queue and the
visited set, each unvisited before, a neighbour of `c`, recorded in the
parent map with parent `c` (old bindings untouched). -/
structure BfsMid (grid : Grid) (s c : Coordinate) (v : List Coordinate)
    (pm : ParentMap) (rest : List Coordinate) (σ' : BfsState)
    (new : List Coordinate) : Prop where
  hv : σ'.visitedSet = v ++ new
  hq : σ'.queue = rest ++ new
  hfresh : ∀ n ∈ new, n ∉ v
  hadj : ∀ n ∈ new, Adj grid c n
  hnodup : new.Nodup
  hpmlen : σ'.parentMap.length = pm.length + new.length
  hpmold : ∀ x, x ∉ new → pmFind σ'.parentMap x = pmFind pm x
  hpmnew : ∀ n ∈ new, pmFind σ'.parentMap n = some (some c)

/-- The DFS loop invariant: the parent chains of visited nodes reconstruct
to genuine paths from the start, the stack holds visited nodes, and every
visited node is the start or an open cell. -/
structure DfsInv (grid : Grid) (s : Coordinate) (σ : DfsState) : Prop where
  sVis : s ∈ σ.visitedSet
  vNodup : σ.visitedSet.Nodup
  stackSub : ∀ c ∈ σ.stack, c ∈ σ.visitedSet
  recon : ∀ x ∈ σ.visitedSet,
    ∃ l, reconstructPath (σ.parentMap.length + 1) σ.parentMap x = some l ∧
      IsPath grid s x l ∧ ∀ c ∈ l, c ∈ σ.visitedSet
  vOpen : ∀ x ∈ σ.visitedSet, x = s ∨ x ∈ openCells grid

/-- The DFS termination measure. -/
def dfsMeasure (grid : Grid) (σ : DfsState) : Nat :=
  σ.stack.length + 2 * ((openCells grid).length + 1 - σ.visitedSet.length)

/-- The weighted-search invariant used for termination: the closed set is
duplicate-free and within bounds, and every queued entry's coordinate is
within bounds and reachable from the start. -/
structure WInv (grid : Grid) (s : Coordinate) (σ : WState) : Prop where
  vNodup : σ.visitedSet.Nodup
  vOpen : ∀ x ∈ σ.visitedSet, x = s ∨ x ∈ openCells grid
  pqOpen : ∀ e ∈ σ.pq, e.coord = s ∨ e.coord ∈ openCells grid
  pqReach : ∀ e ∈ σ.pq, Reachable grid s e.coord

/-- The weighted-search termination measure: each closing pop pushes at
most four entries, so five capacity units per closure dominate. -/
def wMeasure (grid : Grid) (σ : WState) : Nat :=
  σ.pq.length + 5 * ((openCells grid).length + 1 - σ.visitedSet.length)

/-- The bidirectional invariant: queued nodes are in their side's visited
map, start-side keys are reachable from the start, end-side keys are
endpoints of paths from the goal, and both key lists are duplicate-free
and within bounds. -/
structure BiInv (grid : Grid) (s en : Coordinate) (σ : BiState) : Prop where
  sqVis : ∀ c ∈ σ.startQueue, (pmFind σ.startVisited c).isSome = true
  eqVis : ∀ c ∈ σ.endQueue, (pmFind σ.endVisited c).isSome = true
  svReach : ∀ k, (pmFind σ.startVisited k).isSome = true → Reachable grid s k
  evPath : ∀ k, (pmFind σ.endVisited k).isSome = true → ∃ l, IsPath grid en k l
  svNodup : (biKeys σ.startVisited).Nodup
  evNodup : (biKeys σ.endVisited).Nodup
  svOpen : ∀ k ∈ biKeys σ.startVisited, k = s ∨ k ∈ openCells grid
  evOpen : ∀ k ∈ biKeys σ.endVisited, k = en ∨ k ∈ openCells grid

/-- The bidirectional termination measure. -/
def biMeasure (grid : Grid) (σ : BiState) : Nat :=
  σ.startQueue.length + σ.endQueue.length +
    2 * (((openCells grid).length + 1 - (biKeys σ.startVisited).length) +
      ((openCells grid).length + 1 - (biKeys σ.endVisited).length))

/-- An upper bound on the heuristic over the cells a search from `s` can
ever stand on. -/
def hBound (grid : Grid) (s en : Coordinate) : Nat :=
  ((s :: openCells grid).map (fun c => heuristic c en)).foldr max 0

/-- The optimality invariant core for the weighted search with
`usePathCost = true` and heuristic weight `w`: every queue entry's priority
is its cost plus the weighted heuristic, every `distMap` binding
reconstructs (through closed parents) to a genuine path of exactly that
cost, closed nodes carry minimal costs, every unclosed `distMap` key still
has a live queue entry at its current cost, queue entries never undercut
the map, and the start keeps cost zero while the goal stays unclosed. -/
structure WOCore (grid : Grid) (s en : Coordinate) (w : Nat) (σ : WState) :
    Prop where
  vNodup : σ.visitedSet.Nodup
  vOpen : ∀ x ∈ σ.visitedSet, x = s ∨ x ∈ openCells grid
  enV : en ∉ σ.visitedSet
  pqPrio : ∀ e ∈ σ.pq, e.priority = e.g + w * heuristic e.coord en
  pqOpen : ∀ e ∈ σ.pq, e.coord = s ∨ e.coord ∈ openCells grid
  dmLB : ∀ e ∈ σ.pq, ∃ ge, distFind σ.distMap e.coord = some ge ∧ ge ≤ e.g
  dmRecon : ∀ x gx, distFind σ.distMap x = some gx →
    ∃ l, reconstructPath (σ.parentMap.length + 1) σ.parentMap x = some l ∧
      IsPath grid s x l ∧ l.length = gx + 1 ∧ ∀ c ∈ l.dropLast, c ∈ σ.visitedSet
  closedMin : ∀ x ∈ σ.visitedSet, ∃ gx, distFind σ.distMap x = some gx ∧
    ∀ l, IsPath grid s x l → gx + 1 ≤ l.length
  dmEntry : ∀ y gy, distFind σ.distMap y = some gy → y ∉ σ.visitedSet →
    ∃ e ∈ σ.pq, e.coord = y ∧ e.g = gy
  dmS : distFind σ.distMap s = some 0

/-- Full frontier domination: every closed node's every neighbour has a
`distMap` cost at most one more than the closed node's. -/
def WDom (grid : Grid) (σ : WState) : Prop :=
  ∀ x ∈ σ.visitedSet, ∀ y ∈ getNeighbors grid x,
    ∃ gy gx, distFind σ.distMap y = some gy ∧ distFind σ.distMap x = some gx ∧
      gy ≤ gx + 1

/-! ## C1: the merged bidirectional path -/

/-- **C1** (code bug).  On the 1×3 open corridor with start `(0,0)` and goal
`(2,0)`, the two searches meet at `(1,0)` and the final frame's merged
path is `[(0,0), (1,0), (1,0)]`: `reconstructPath(endVisited, k)` returns
the end-rooted chain `[End, ..., Meeting]`, so `pathEnd.slice(1).reverse()`
removes the goal instead of the duplicated meeting node — contradicting
the inline comments (`pathEnd is [Meeting, ..., End]`,
`Merge: [Start ... Meeting ... End]`).  The yielded path repeats a
coordinate and does not end at the goal. -/
theorem bidirectional_merge_duplicates_meeting_node :
    ∃ f, (biFrames 4 corridorGrid ⟨0, 0⟩ ⟨2, 0⟩).bind List.getLast? = some f ∧
      f.path = [⟨0, 0⟩, ⟨1, 0⟩, ⟨1, 0⟩] ∧ ¬ f.path.Nodup ∧
      f.path.getLast? ≠ some ⟨2, 0⟩ := by
  refine ⟨⟨[⟨0, 0⟩, ⟨1, 0⟩, ⟨2, 0⟩, ⟨1, 0⟩], [], [⟨0, 0⟩, ⟨1, 0⟩, ⟨1, 0⟩], none⟩,
    by decide, rfl, by decide, by decide⟩

/-! ## C2: construction-time validation -/

/-- **C2** (corrected).  The factory is a plain dispatch: construction
succeeds for every algorithm selector, grid, start and goal — including a
start or goal outside the bounds or on a wall — and `InvalidCoordinate` is
never produced. -/
theorem createResult_never_fails (t : AlgorithmType) (grid : Grid) (s en : Coordinate) :
    exceptOk (createResult t grid s en) = true := rfl

/-- **C2**, counterexample to the claim as stated: on the specification's own
example (grid with `(1,1)` a wall, start `(1,1)`, goal `(3,3)`),
construction does not fail with `InvalidCoordinate`; the constructed BFS
instance even runs to completion. -/
theorem create_wall_start_accepted :
    createResult AlgorithmType.BFS wallStartGrid ⟨1, 1⟩ ⟨3, 3⟩ ≠
      Except.error SearchError.InvalidCoordinate ∧
    (createAlgorithmGenerator AlgorithmType.BFS wallStartGrid ⟨1, 1⟩ ⟨3, 3⟩ 40).isSome
      = true := by
  exact ⟨fun h => Except.noConfusion h, by decide⟩

/-! ## C3: advancing after termination -/

/-- **C3** (corrected).  Once a run's yield sequence is exhausted the
iterator state is empty and stays empty: the first advance that reports
`done = true` carries no frame (`value: undefined`), and every subsequent
advance is a no-op returning that same no-frame result — not the final
frame, which was yielded earlier with `done = false`. -/
theorem advance_after_done_is_noop (t : AlgorithmType) (grid : Grid) (s en : Coordinate)
    (fuel : Nat) (fs : List Frame)
    (_h : createAlgorithmGenerator t grid s en fuel = some fs) :
    genStateAfter fs.length fs = [] ∧
    ∀ n, fs.length ≤ n → genNext (genStateAfter n fs) = ((none, true), []) := by
  have key : ∀ m (l : List Frame), l.length ≤ m → genStateAfter m l = [] := by
    intro m
    induction m with
    | zero =>
      intro l hl
      match l, hl with
      | [], _ => rfl
    | succ k ih =>
      intro l hl
      match l with
      | [] =>
        show genStateAfter k [] = []
        exact ih [] (Nat.zero_le _)
      | f :: rest =>
        show genStateAfter k rest = []
        exact ih rest (Nat.le_of_succ_le_succ hl)
  refine ⟨key _ fs (Nat.le_refl _), fun n hn => ?_⟩
  rw [key n fs hn]
  rfl

/-- **C3**, witness: on the BFS run over the 1×1 grid, the third advance
(after the run's single frame and the `done` report) is the constant
no-frame result. -/
theorem advance_after_done_is_noop_witness :
    genNext (genStateAfter 2 [unitFinalFrame]) = ((none, true), []) :=
  (advance_after_done_is_noop AlgorithmType.BFS unitGrid ⟨0, 0⟩ ⟨0, 0⟩ 2
    [unitFinalFrame] (by decide)).2 2 (by decide)

/-- **C3**, counterexample to the claim as stated: for the BFS instance on
the 1×1 grid, the advance following the first `done = true` report does
not return the final frame — it returns no frame at all. -/
theorem advance_after_done_returns_no_frame :
    bfsFrames 2 unitGrid ⟨0, 0⟩ ⟨0, 0⟩ = some [unitFinalFrame] ∧
    (genNext (genStateAfter 1 [unitFinalFrame])).1 = (none, true) ∧
    (genNext (genStateAfter 2 [unitFinalFrame])).1 ≠ (some unitFinalFrame, true) := by
  exact ⟨by decide, rfl, by decide⟩

/-! ## C4: reconstruction on a cyclic parent chain -/

lemma cyc_find0 : pmFind cycMap ⟨0, 0⟩ = some (some ⟨1, 0⟩) := by decide

lemma cyc_find1 : pmFind cycMap ⟨1, 0⟩ = some (some ⟨0, 0⟩) := by decide

/-- On the cyclic map the parent walk from `(0,0)` alternates between the
two keys forever. -/
lemma cyc_alternates : ∀ n, pmIterate cycMap ⟨0, 0⟩ n = some ⟨0, 0⟩ ∨
    pmIterate cycMap ⟨0, 0⟩ n = some ⟨1, 0⟩ := by
  intro n
  induction n with
  | zero => exact Or.inl rfl
  | succ m ih =>
    rcases ih with h | h
    · right
      show (match pmIterate cycMap ⟨0, 0⟩ m with
        | some c =>
          match pmFind cycMap c with
          | some (some p) => some p
          | _ => none
        | none => none) = some ⟨1, 0⟩
      rw [h]
      decide
    · left
      show (match pmIterate cycMap ⟨0, 0⟩ m with
        | some c =>
          match pmFind cycMap c with
          | some (some p) => some p
          | _ => none
        | none => none) = some ⟨0, 0⟩
      rw [h]
      decide

/-- The parent walk from `(0,0)` on the cyclic map never ends. -/
lemma cyc_infinite : ∀ n, pmIterate cycMap ⟨0, 0⟩ n ≠ none := by
  intro n
  rcases cyc_alternates n with h | h <;> simp [h]

/-- On an infinite parent chain, shifting the start of the walk by one. -/
lemma pmIterate_shift (pm : ParentMap) (k p : Coordinate)
    (hp : pmFind pm k = some (some p)) :
    ∀ n, pmIterate pm k (n + 1) = pmIterate pm p n := by
  intro n
  induction n with
  | zero =>
    show (match pmFind pm k with
      | some (some q) => some q
      | _ => none) = some p
    rw [hp]
  | succ m ih =>
    show (match pmIterate pm k (m + 1) with
      | some c =>
        match pmFind pm c with
        | some (some q) => some q
        | _ => none
      | none => none) = pmIterate pm p (m + 1)
    rw [ih]
    show (match pmIterate pm p m with
      | some c =>
        match pmFind pm c with
        | some (some q) => some q
        | _ => none
      | none => none) = pmIterate pm p (m + 1)
    rfl

/-- **C4** (corrected).  `reconstructPath` walks parent pointers with no
cycle detection: on any parent chain that never reaches a parentless key —
in particular on a cyclic chain — the loop never terminates (the fuelled
model returns `none` for every fuel), instead of failing with
`BrokenChain`. -/
theorem reconstructPath_infinite_chain_diverges (pm : ParentMap) (k : Coordinate)
    (h : ∀ n, pmIterate pm k n ≠ none) (fuel : Nat) :
    reconstructPath fuel pm k = none := by
  induction fuel generalizing k with
  | zero => rfl
  | succ m ih =>
    have h1 := h 1
    show (match pmFind pm k with
      | some (some p) => (reconstructPath m pm p).map (fun l => l ++ [k])
      | _ => some [k]) = none
    match hf : pmFind pm k with
    | some (some p) =>
      have hrest : ∀ n, pmIterate pm p n ≠ none := by
        intro n
        rw [← pmIterate_shift pm k p hf n]
        exact h (n + 1)
      show (reconstructPath m pm p).map (fun l => l ++ [k]) = none
      rw [ih p hrest]
      rfl
    | some none =>
      exfalso
      apply h1
      show (match pmFind pm k with
        | some (some q) => some q
        | _ => none) = none
      rw [hf]
    | none =>
      exfalso
      apply h1
      show (match pmFind pm k with
        | some (some q) => some q
        | _ => none) = none
      rw [hf]

/-- **C4**, witness: the divergence theorem applied to the concrete cyclic
map at fuel 7. -/
theorem reconstructPath_infinite_chain_diverges_witness :
    reconstructPath 7 cycMap ⟨0, 0⟩ = none :=
  reconstructPath_infinite_chain_diverges cycMap ⟨0, 0⟩ cyc_infinite 7

/-- Divergence on the concrete cyclic map, proven directly (for the
counterexample). -/
lemma cyc_reconstruct_none : ∀ fuel, reconstructPath fuel cycMap ⟨0, 0⟩ = none ∧
    reconstructPath fuel cycMap ⟨1, 0⟩ = none := by
  intro fuel
  induction fuel with
  | zero => exact ⟨rfl, rfl⟩
  | succ m ih =>
    constructor
    · show (match pmFind cycMap ⟨0, 0⟩ with
        | some (some p) => (reconstructPath m cycMap p).map (fun l => l ++ [⟨0, 0⟩])
        | _ => some [⟨0, 0⟩]) = none
      rw [cyc_find0]
      show (reconstructPath m cycMap ⟨1, 0⟩).map (fun l => l ++ [⟨0, 0⟩]) = none
      rw [ih.2]
      rfl
    · show (match pmFind cycMap ⟨1, 0⟩ with
        | some (some p) => (reconstructPath m cycMap p).map (fun l => l ++ [⟨1, 0⟩])
        | _ => some [⟨1, 0⟩]) = none
      rw [cyc_find1]
      show (reconstructPath m cycMap ⟨0, 0⟩).map (fun l => l ++ [⟨1, 0⟩]) = none
      rw [ih.1]
      rfl

/-- **C4**, counterexample to the claim as stated: on the cyclic parent map
the reconstruction neither fails with `BrokenChain` nor returns any
result — it diverges (no fuel suffices). -/
theorem reconstructPath_cycle_never_returns :
    ¬ ∃ fuel l, reconstructPath fuel cycMap ⟨0, 0⟩ = some l := by
  rintro ⟨fuel, l, hl⟩
  rw [(cyc_reconstruct_none fuel).1] at hl
  exact Option.noConfusion hl

/-! ## C9: the bidirectional loop's frontier condition -/

/-- **C9**, counterexample to the claim as stated: on the 1×5 corridor with
a wall at `(1,0)`, start `(0,0)` and goal `(4,0)`, the run finishes (with
no path and no meeting) after a single progress frame whose frontier still
holds `(3,0)` — the end side's frontier is non-empty, but the loop stops
because the start side's frontier has emptied. -/
theorem bidi_finishes_with_nonempty_end_frontier :
    biFrames 20 splitGrid ⟨0, 0⟩ ⟨4, 0⟩ =
      some [⟨[⟨0, 0⟩, ⟨4, 0⟩, ⟨3, 0⟩], [⟨3, 0⟩], [], none⟩] := by
  decide

/-- **C9** (corrected).  The loop body runs only while *both* frontiers are
non-empty, so neither side's expansion is ever skipped: each iteration
expands one node from the start side and then one from the end side (or
finishes on a meet), and the search finishes with no path as soon as
*either* frontier is empty at a loop boundary, even if the other frontier
is non-empty and no meeting has occurred. -/
theorem biRun_step_shape (grid : Grid) (σ : BiState) (fuel : Nat) :
    ((σ.startQueue = [] ∨ σ.endQueue = []) → biRun (fuel + 1) grid σ = some []) ∧
    (∀ cs sr ce er, σ.startQueue = cs :: sr → σ.endQueue = ce :: er →
      (pmFind σ.endVisited cs).isSome = false →
      (pmFind (biExpand cs σ.startVisited sr (getNeighbors grid cs)).1 ce).isSome
        = false →
      biRun (fuel + 1) grid σ =
        (biRun fuel grid
          ⟨(biExpand cs σ.startVisited sr (getNeighbors grid cs)).2,
           (biExpand ce σ.endVisited er (getNeighbors grid ce)).2,
           (biExpand cs σ.startVisited sr (getNeighbors grid cs)).1,
           (biExpand ce σ.endVisited er (getNeighbors grid ce)).1⟩).map
          (fun fs =>
            ⟨biKeys (biExpand cs σ.startVisited sr (getNeighbors grid cs)).1 ++
               biKeys (biExpand ce σ.endVisited er (getNeighbors grid ce)).1,
             (biExpand cs σ.startVisited sr (getNeighbors grid cs)).2 ++
               (biExpand ce σ.endVisited er (getNeighbors grid ce)).2,
             [], none⟩ :: fs)) := by
  constructor
  · intro hempty
    show (match σ.startQueue, σ.endQueue with
      | [], _ => some []
      | _, [] => some []
      | currStart :: sRest, currEnd :: eRest =>
        if (pmFind σ.endVisited currStart).isSome then
          (biMeetFrame σ.startVisited σ.endVisited currStart).map (fun f => [f])
        else
          let p1 := biExpand currStart σ.startVisited sRest (getNeighbors grid currStart)
          if (pmFind p1.1 currEnd).isSome then
            (biMeetFrame p1.1 σ.endVisited currEnd).map (fun f => [f])
          else
            let p2 := biExpand currEnd σ.endVisited eRest (getNeighbors grid currEnd)
            let frame : Frame := ⟨biKeys p1.1 ++ biKeys p2.1, p1.2 ++ p2.2, [], none⟩
            (biRun fuel grid ⟨p1.2, p2.2, p1.1, p2.1⟩).map (fun fs => frame :: fs)) = some []
    rcases hempty with hs | he
    · rw [hs]
      match σ.endQueue with
      | [] => rfl
      | _ :: _ => rfl
    · rw [he]
      match σ.startQueue with
      | [] => rfl
      | _ :: _ => rfl
  · intro cs sr ce er hs he hm1 hm2
    show (match σ.startQueue, σ.endQueue with
      | [], _ => some []
      | _, [] => some []
      | currStart :: sRest, currEnd :: eRest =>
        if (pmFind σ.endVisited currStart).isSome then
          (biMeetFrame σ.startVisited σ.endVisited currStart).map (fun f => [f])
        else
          let p1 := biExpand currStart σ.startVisited sRest (getNeighbors grid currStart)
          if (pmFind p1.1 currEnd).isSome then
            (biMeetFrame p1.1 σ.endVisited currEnd).map (fun f => [f])
          else
            let p2 := biExpand currEnd σ.endVisited eRest (getNeighbors grid currEnd)
            let frame : Frame := ⟨biKeys p1.1 ++ biKeys p2.1, p1.2 ++ p2.2, [], none⟩
            (biRun fuel grid ⟨p1.2, p2.2, p1.1, p2.1⟩).map (fun fs => frame :: fs)) = _
    rw [hs, he]
    simp only [hm1, Bool.false_eq_true, if_false, hm2]

/-- **C9**, witness: the step-shape theorem applied to the initial state of
the 1×3 corridor instance, whose first iteration expands `(0,0)` and
`(2,0)` and continues with a progress frame. -/
theorem biRun_step_shape_witness :
    biRun 2 corridorGrid ⟨[⟨0, 0⟩], [⟨2, 0⟩], [(⟨0, 0⟩, none)], [(⟨2, 0⟩, none)]⟩ =
      (biRun 1 corridorGrid
        ⟨(biExpand ⟨0, 0⟩ [(⟨0, 0⟩, none)] [] (getNeighbors corridorGrid ⟨0, 0⟩)).2,
         (biExpand ⟨2, 0⟩ [(⟨2, 0⟩, none)] [] (getNeighbors corridorGrid ⟨2, 0⟩)).2,
         (biExpand ⟨0, 0⟩ [(⟨0, 0⟩, none)] [] (getNeighbors corridorGrid ⟨0, 0⟩)).1,
         (biExpand ⟨2, 0⟩ [(⟨2, 0⟩, none)] [] (getNeighbors corridorGrid ⟨2, 0⟩)).1⟩).map
        (fun fs =>
          ⟨biKeys (biExpand ⟨0, 0⟩ [(⟨0, 0⟩, none)] [] (getNeighbors corridorGrid ⟨0, 0⟩)).1 ++
             biKeys (biExpand ⟨2, 0⟩ [(⟨2, 0⟩, none)] [] (getNeighbors corridorGrid ⟨2, 0⟩)).1,
           (biExpand ⟨0, 0⟩ [(⟨0, 0⟩, none)] [] (getNeighbors corridorGrid ⟨0, 0⟩)).2 ++
             (biExpand ⟨2, 0⟩ [(⟨2, 0⟩, none)] [] (getNeighbors corridorGrid ⟨2, 0⟩)).2,
           [], none⟩ :: fs) :=
  (biRun_step_shape corridorGrid
    ⟨[⟨0, 0⟩], [⟨2, 0⟩], [(⟨0, 0⟩, none)], [(⟨2, 0⟩, none)]⟩ 1).2
    ⟨0, 0⟩ [] ⟨2, 0⟩ [] rfl rfl (by decide) (by decide)

/-! ## Frame-sequence machinery: visited growth and current fields -/

lemma listLe_refl (a : List Coordinate) : listLe a a := ⟨fun _ h => h, Nat.le_refl _⟩

lemma listLe_trans {a b c : List Coordinate} (h1 : listLe a b) (h2 : listLe b c) :
    listLe a c := ⟨fun _ hx => h2.1 (h1.1 hx), Nat.le_trans h1.2 h2.2⟩

lemma listLe_append (a e : List Coordinate) : listLe a (a ++ e) := by
  constructor
  · intro x hx
    exact List.mem_append_left _ hx
  · rw [List.length_append]
    exact Nat.le_add_right _ _

lemma mem_dropLast_cons {α : Type} {a f : α} {l : List α}
    (hf : f ∈ (a :: l).dropLast) : f = a ∨ f ∈ l.dropLast := by
  cases l with
  | nil => simp at hf
  | cons b t =>
    have hf' : f ∈ a :: (b :: t).dropLast := hf
    exact List.mem_cons.mp hf'

lemma mem_dropLast_append {α : Type} {f : α} {l1 l2 : List α}
    (hf : f ∈ (l1 ++ l2).dropLast) : f ∈ l1 ∨ f ∈ l2.dropLast := by
  induction l1 with
  | nil => exact Or.inr hf
  | cons a t ih =>
    rcases mem_dropLast_cons hf with h | h
    · exact Or.inl (h ▸ List.mem_cons_self a t)
    · rcases ih h with h' | h'
      · exact Or.inl (List.mem_cons_of_mem a h')
      · exact Or.inr h'

lemma mem_dropLast_self {α : Type} {f : α} {l : List α}
    (hf : f ∈ l.dropLast) : f ∈ l := List.dropLast_subset l hf

/-- `bfsExpand` only appends to the visited set. -/
lemma bfsExpand_visited (c : Coordinate) :
    ∀ (ns : List Coordinate) (σ : BfsState),
      ∃ e, (bfsExpand c σ ns).visitedSet = σ.visitedSet ++ e := by
  intro ns
  induction ns with
  | nil => exact fun σ => ⟨[], (List.append_nil _).symm⟩
  | cons n t ih =>
    intro σ
    show (∃ e, (if n ∈ σ.visitedSet then bfsExpand c σ t
      else bfsExpand c
        { queue := σ.queue ++ [n]
          visitedSet := σ.visitedSet ++ [n]
          parentMap := (n, some c) :: σ.parentMap } t).visitedSet = σ.visitedSet ++ e)
    by_cases hn : n ∈ σ.visitedSet
    · rw [if_pos hn]
      exact ih σ
    · rw [if_neg hn]
      obtain ⟨e, he⟩ := ih ⟨σ.queue ++ [n], σ.visitedSet ++ [n], (n, some c) :: σ.parentMap⟩
      exact ⟨[n] ++ e, by rw [he, List.append_assoc]⟩

/-- `dfsExpand` only appends to the visited set. -/
lemma dfsExpand_visited (c : Coordinate) :
    ∀ (ns : List Coordinate) (σ : DfsState),
      ∃ e, (dfsExpand c σ ns).visitedSet = σ.visitedSet ++ e := by
  intro ns
  induction ns with
  | nil => exact fun σ => ⟨[], (List.append_nil _).symm⟩
  | cons n t ih =>
    intro σ
    show (∃ e, (if n ∈ σ.visitedSet then dfsExpand c σ t
      else dfsExpand c
        { stack := σ.stack ++ [n]
          visitedSet := σ.visitedSet ++ [n]
          parentMap := (n, some c) :: σ.parentMap } t).visitedSet = σ.visitedSet ++ e)
    by_cases hn : n ∈ σ.visitedSet
    · rw [if_pos hn]
      exact ih σ
    · rw [if_neg hn]
      obtain ⟨e, he⟩ := ih ⟨σ.stack ++ [n], σ.visitedSet ++ [n], (n, some c) :: σ.parentMap⟩
      exact ⟨[n] ++ e, by rw [he, List.append_assoc]⟩

/-- The relaxation loop never touches the closed set. -/
lemma wRelax_visited (grid : Grid) (en : Coordinate) (config : WeightedConfig)
    (c : Coordinate) (cg : Nat) :
    ∀ (ns : List Coordinate) (σ : WState),
      (wRelax grid en config c cg σ ns).visitedSet = σ.visitedSet := by
  intro ns
  induction ns with
  | nil => exact fun σ => rfl
  | cons n t ih =>
    intro σ
    show (if n ∈ σ.visitedSet then wRelax grid en config c cg σ t
      else if (match distFind σ.distMap n with
          | none => true
          | some existingG => decide (cg + 1 < existingG)) = true then
        wRelax grid en config c cg
          { σ with
            distMap := (n, cg + 1) :: σ.distMap
            parentMap := (n, some c) :: σ.parentMap
            pq := σ.pq ++ [⟨n, (if config.usePathCost then cg + 1 else 0) +
              config.heuristicWeight * heuristic n en, cg + 1⟩] } t
      else wRelax grid en config c cg σ t).visitedSet = σ.visitedSet
    by_cases hn : n ∈ σ.visitedSet
    · rw [if_pos hn]
      exact ih σ
    · rw [if_neg hn]
      by_cases him : (match distFind σ.distMap n with
        | none => true
        | some existingG => decide (cg + 1 < existingG)) = true
      · rw [if_pos him]
        exact ih _
      · rw [if_neg him]
        exact ih σ

/-- `biExpand` only appends to a side's visited map and queue. -/
lemma biExpand_grow (c : Coordinate) :
    ∀ (ns : List Coordinate) (vis : ParentMap) (q : List Coordinate),
      (∃ e, (biExpand c vis q ns).1 = vis ++ e) ∧
      (∃ e, (biExpand c vis q ns).2 = q ++ e) := by
  intro ns
  induction ns with
  | nil =>
    exact fun vis q => ⟨⟨[], (List.append_nil _).symm⟩, ⟨[], (List.append_nil _).symm⟩⟩
  | cons n t ih =>
    intro vis q
    show ((∃ e, (if (pmFind vis n).isSome then biExpand c vis q t
        else biExpand c (vis ++ [(n, some c)]) (q ++ [n]) t).1 = vis ++ e) ∧
      (∃ e, (if (pmFind vis n).isSome then biExpand c vis q t
        else biExpand c (vis ++ [(n, some c)]) (q ++ [n]) t).2 = q ++ e))
    by_cases hn : (pmFind vis n).isSome = true
    · rw [if_pos hn]
      exact ih vis q
    · rw [if_neg hn]
      obtain ⟨⟨e1, he1⟩, ⟨e2, he2⟩⟩ := ih (vis ++ [(n, some c)]) (q ++ [n])
      exact ⟨⟨[(n, some c)] ++ e1, by rw [he1, List.append_assoc]⟩,
        ⟨[n] ++ e2, by rw [he2, List.append_assoc]⟩⟩

/-- `setAdd` only appends. -/
lemma setAdd_grow (s : List Coordinate) (c : Coordinate) :
    ∃ e, setAdd s c = s ++ e := by
  unfold setAdd
  by_cases hc : c ∈ s
  · rw [if_pos hc]
    exact ⟨[], (List.append_nil _).symm⟩
  · rw [if_neg hc]
    exact ⟨[c], rfl⟩

/-- BFS frame facts: the yield sequence from any state is `frameLe`-monotone,
every frame's visited set extends the state's, and every non-final frame
carries a `current` coordinate. -/
lemma bfsRun_facts :
    ∀ (fuel : Nat) (grid : Grid) (en : Coordinate) (σ : BfsState) (fs : List Frame),
      bfsRun fuel grid en σ = some fs →
      List.Chain' frameLe fs ∧ (∀ f ∈ fs, listLe σ.visitedSet f.visited) ∧
      (∀ f ∈ fs.dropLast, f.current.isSome = true) := by
  intro fuel
  induction fuel with
  | zero => intro grid en σ fs h; cases h
  | succ m ih =>
    intro grid en σ fs h
    obtain ⟨q, v, pm⟩ := σ
    match q with
    | [] =>
      have h' : (some [] : Option (List Frame)) = some fs := h
      cases h'
      exact ⟨List.chain'_nil, by simp, by simp⟩
    | c :: rest =>
      have h' : (if c = en then
          (reconstructPath (pm.length + 1) pm c).map
            (fun p => ([⟨v, [], p, none⟩] : List Frame))
        else
          (bfsRun m grid en (bfsExpand c ⟨rest, v, pm⟩ (getNeighbors grid c))).map
            (fun fs => (⟨v, rest, [], some c⟩ : Frame) :: fs)) = some fs := h
      by_cases hc : c = en
      · rw [if_pos hc] at h'
        match hr : reconstructPath (pm.length + 1) pm c with
        | none => rw [hr] at h'; cases h'
        | some p =>
          rw [hr] at h'
          have h'' : some ([⟨v, [], p, none⟩] : List Frame) = some fs := h'
          cases h''
          refine ⟨List.chain'_singleton _, ?_, by simp⟩
          intro f hf
          rcases List.mem_singleton.mp hf with rfl
          exact listLe_refl v
      · rw [if_neg hc] at h'
        match hb : bfsRun m grid en (bfsExpand c ⟨rest, v, pm⟩ (getNeighbors grid c)) with
        | none => rw [hb] at h'; cases h'
        | some fs' =>
          rw [hb] at h'
          have h'' : some ((⟨v, rest, [], some c⟩ : Frame) :: fs') = some fs := h'
          cases h''
          obtain ⟨hch, hmem, hcur⟩ := ih grid en _ fs' hb
          obtain ⟨e, he⟩ := bfsExpand_visited c (getNeighbors grid c) ⟨rest, v, pm⟩
          have hgrow : listLe v (bfsExpand c ⟨rest, v, pm⟩ (getNeighbors grid c)).visitedSet := by
            rw [he]
            exact listLe_append _ _
          refine ⟨?_, ?_, ?_⟩
          · rw [List.chain'_cons']
            refine ⟨?_, hch⟩
            intro hd hhd
            exact listLe_trans hgrow (hmem hd (List.mem_of_mem_head? hhd))
          · intro f hf
            rcases List.mem_cons.mp hf with rfl | hf'
            · exact listLe_refl v
            · exact listLe_trans hgrow (hmem f hf')
          · intro f hf
            rcases mem_dropLast_cons hf with rfl | hf'
            · rfl
            · exact hcur f hf'

lemma memGetLast {α : Type} {l : List α} {x : α} (h : l.getLast? = some x) : x ∈ l := by
  induction l with
  | nil => cases h
  | cons a t ih =>
    cases t with
    | nil =>
      cases h
      exact List.mem_singleton_self a
    | cons b t2 =>
      rw [List.getLast?_cons_cons] at h
      exact List.mem_cons_of_mem a (ih h)

lemma listLe_append_pair (a b e1 e2 : List Coordinate) :
    listLe (a ++ b) ((a ++ e1) ++ (b ++ e2)) := by
  constructor
  · intro x hx
    rcases List.mem_append.mp hx with hx | hx
    · exact List.mem_append_left _ (List.mem_append_left _ hx)
    · exact List.mem_append_right _ (List.mem_append_left _ hx)
  · simp only [List.length_append]
    omega

/-- DFS frame facts (mirror of `bfsRun_facts`). -/
lemma dfsRun_facts :
    ∀ (fuel : Nat) (grid : Grid) (en : Coordinate) (σ : DfsState) (fs : List Frame),
      dfsRun fuel grid en σ = some fs →
      List.Chain' frameLe fs ∧ (∀ f ∈ fs, listLe σ.visitedSet f.visited) ∧
      (∀ f ∈ fs.dropLast, f.current.isSome = true) := by
  intro fuel
  induction fuel with
  | zero => intro grid en σ fs h; cases h
  | succ m ih =>
    intro grid en σ fs h
    obtain ⟨st, v, pm⟩ := σ
    have h' : (match st.getLast? with
      | none => some []
      | some current =>
        if current = en then
          (reconstructPath (pm.length + 1) pm current).map
            (fun p => ([⟨v, [], p, none⟩] : List Frame))
        else
          match reconstructPath (pm.length + 1) pm current with
          | none => none
          | some branch =>
            (dfsRun m grid en
              (dfsExpand current ⟨st.dropLast, v, pm⟩ (getNeighbors grid current).reverse)).map
              (fun fs => (⟨v, st.dropLast, branch, some current⟩ : Frame) :: fs)) = some fs := h
    match hlast : st.getLast? with
    | none =>
      rw [hlast] at h'
      have h'' : (some [] : Option (List Frame)) = some fs := h'
      cases h''
      exact ⟨List.chain'_nil, by simp, by simp⟩
    | some c =>
      rw [hlast] at h'
      have h'' : (if c = en then
          (reconstructPath (pm.length + 1) pm c).map
            (fun p => ([⟨v, [], p, none⟩] : List Frame))
        else
          match reconstructPath (pm.length + 1) pm c with
          | none => none
          | some branch =>
            (dfsRun m grid en
              (dfsExpand c ⟨st.dropLast, v, pm⟩ (getNeighbors grid c).reverse)).map
              (fun fs => (⟨v, st.dropLast, branch, some c⟩ : Frame) :: fs)) = some fs := h'
      by_cases hc : c = en
      · rw [if_pos hc] at h''
        match hr : reconstructPath (pm.length + 1) pm c with
        | none => rw [hr] at h''; cases h''
        | some p =>
          rw [hr] at h''
          have h3 : some ([⟨v, [], p, none⟩] : List Frame) = some fs := h''
          cases h3
          refine ⟨List.chain'_singleton _, ?_, by simp⟩
          intro f hf
          rcases List.mem_singleton.mp hf with rfl
          exact listLe_refl v
      · rw [if_neg hc] at h''
        match hr : reconstructPath (pm.length + 1) pm c with
        | none => rw [hr] at h''; cases h''
        | some branch =>
          rw [hr] at h''
          match hb : dfsRun m grid en
              (dfsExpand c ⟨st.dropLast, v, pm⟩ (getNeighbors grid c).reverse) with
          | none => rw [hb] at h''; cases h''
          | some fs' =>
            rw [hb] at h''
            have h3 : some ((⟨v, st.dropLast, branch, some c⟩ : Frame) :: fs') = some fs := h''
            cases h3
            obtain ⟨hch, hmem, hcur⟩ := ih grid en _ fs' hb
            obtain ⟨e, he⟩ :=
              dfsExpand_visited c (getNeighbors grid c).reverse ⟨st.dropLast, v, pm⟩
            have hgrow : listLe v
                (dfsExpand c ⟨st.dropLast, v, pm⟩ (getNeighbors grid c).reverse).visitedSet := by
              rw [he]
              exact listLe_append _ _
            refine ⟨?_, ?_, ?_⟩
            · rw [List.chain'_cons']
              refine ⟨?_, hch⟩
              intro hd hhd
              exact listLe_trans hgrow (hmem hd (List.mem_of_mem_head? hhd))
            · intro f hf
              rcases List.mem_cons.mp hf with rfl | hf'
              · exact listLe_refl v
              · exact listLe_trans hgrow (hmem f hf')
            · intro f hf
              rcases mem_dropLast_cons hf with rfl | hf'
              · rfl
              · exact hcur f hf'

/-- Weighted-search frame facts (mirror of `bfsRun_facts`). -/
lemma wRun_facts :
    ∀ (fuel : Nat) (grid : Grid) (en : Coordinate) (config : WeightedConfig)
      (σ : WState) (fs : List Frame),
      wRun fuel grid en config σ = some fs →
      List.Chain' frameLe fs ∧ (∀ f ∈ fs, listLe σ.visitedSet f.visited) ∧
      (∀ f ∈ fs.dropLast, f.current.isSome = true) := by
  intro fuel
  induction fuel with
  | zero => intro grid en config σ fs h; cases h
  | succ m ih =>
    intro grid en config σ fs h
    obtain ⟨pq, dm, pm, v⟩ := σ
    have h' : (match stableSortBy (fun e => e.priority) pq with
      | [] => some []
      | top :: rest =>
        if top.coord ∈ v then
          wRun m grid en config ⟨rest, dm, pm, v⟩
        else
          if top.coord = en then
            (reconstructPath (pm.length + 1) pm top.coord).map
              (fun p => ([⟨v ++ [top.coord], [], p, none⟩] : List Frame))
          else
            (wRun m grid en config
              (wRelax grid en config top.coord top.g ⟨rest, dm, pm, v ++ [top.coord]⟩
                (getNeighbors grid top.coord))).map
              (fun fs =>
                (⟨v ++ [top.coord], rest.map (fun e => e.coord), [], some top.coord⟩ : Frame)
                  :: fs)) = some fs := h
    match hsort : stableSortBy (fun e => e.priority) pq with
    | [] =>
      rw [hsort] at h'
      have h'' : (some [] : Option (List Frame)) = some fs := h'
      cases h''
      exact ⟨List.chain'_nil, by simp, by simp⟩
    | top :: rest =>
      rw [hsort] at h'
      have h'' : (if top.coord ∈ v then
          wRun m grid en config ⟨rest, dm, pm, v⟩
        else
          if top.coord = en then
            (reconstructPath (pm.length + 1) pm top.coord).map
              (fun p => ([⟨v ++ [top.coord], [], p, none⟩] : List Frame))
          else
            (wRun m grid en config
              (wRelax grid en config top.coord top.g ⟨rest, dm, pm, v ++ [top.coord]⟩
                (getNeighbors grid top.coord))).map
              (fun fs =>
                (⟨v ++ [top.coord], rest.map (fun e => e.coord), [], some top.coord⟩ : Frame)
                  :: fs)) = some fs := h'
      by_cases hv : top.coord ∈ v
      · rw [if_pos hv] at h''
        exact ih grid en config ⟨rest, dm, pm, v⟩ fs h''
      · rw [if_neg hv] at h''
        by_cases hc : top.coord = en
        · rw [if_pos hc] at h''
          match hr : reconstructPath (pm.length + 1) pm top.coord with
          | none => rw [hr] at h''; cases h''
          | some p =>
            rw [hr] at h''
            have h3 : some ([⟨v ++ [top.coord], [], p, none⟩] : List Frame) = some fs := h''
            cases h3
            refine ⟨List.chain'_singleton _, ?_, by simp⟩
            intro f hf
            rcases List.mem_singleton.mp hf with rfl
            exact listLe_append _ _
        · rw [if_neg hc] at h''
          match hb : wRun m grid en config
              (wRelax grid en config top.coord top.g ⟨rest, dm, pm, v ++ [top.coord]⟩
                (getNeighbors grid top.coord)) with
          | none => rw [hb] at h''; cases h''
          | some fs' =>
            rw [hb] at h''
            have h3 : some
                ((⟨v ++ [top.coord], rest.map (fun e => e.coord), [], some top.coord⟩ : Frame)
                  :: fs') = some fs := h''
            cases h3
            obtain ⟨hch, hmem, hcur⟩ := ih grid en config _ fs' hb
            have hveq : (wRelax grid en config top.coord top.g
                ⟨rest, dm, pm, v ++ [top.coord]⟩ (getNeighbors grid top.coord)).visitedSet
                = v ++ [top.coord] :=
              wRelax_visited grid en config top.coord top.g (getNeighbors grid top.coord) _
            refine ⟨?_, ?_, ?_⟩
            · rw [List.chain'_cons']
              refine ⟨?_, hch⟩
              intro hd hhd
              have := hmem hd (List.mem_of_mem_head? hhd)
              rw [hveq] at this
              exact this
            · intro f hf
              rcases List.mem_cons.mp hf with rfl | hf'
              · exact listLe_append _ _
              · have := hmem f hf'
                rw [hveq] at this
                exact listLe_trans (listLe_append _ _) this
            · intro f hf
              rcases mem_dropLast_cons hf with rfl | hf'
              · rfl
              · exact hcur f hf'

/-- The merged final frame of the bidirectional search has no `current`, an
empty frontier, and the two visited maps' keys as its visited list. -/
lemma biMeetFrame_shape (sv ev : ParentMap) (k : Coordinate) (f : Frame)
    (h : biMeetFrame sv ev k = some f) :
    f.current = none ∧ f.visited = biKeys sv ++ biKeys ev := by
  unfold biMeetFrame at h
  match h1 : reconstructPath (sv.length + 1) sv k,
      h2 : reconstructPath (ev.length + 1) ev k with
  | some p1, some p2 =>
    rw [h1, h2] at h
    have h' : some (⟨biKeys sv ++ biKeys ev, [],
        p1 ++ (p2.drop 1).reverse, none⟩ : Frame) = some f := h
    cases h'
    exact ⟨rfl, rfl⟩
  | some p1, none =>
    rw [h1, h2] at h
    cases h
  | none, some p2 =>
    rw [h1, h2] at h
    cases h
  | none, none =>
    rw [h1, h2] at h
    cases h


lemma biKeys_append (a b : ParentMap) : biKeys (a ++ b) = biKeys a ++ biKeys b :=
  List.map_append _ _ _

/-- Bidirectional frame facts: monotone visited, every frame extends the
state's key lists, and no frame carries a `current` coordinate. -/
lemma biRun_facts :
    ∀ (fuel : Nat) (grid : Grid) (σ : BiState) (fs : List Frame),
      biRun fuel grid σ = some fs →
      List.Chain' frameLe fs ∧
      (∀ f ∈ fs, listLe (biKeys σ.startVisited ++ biKeys σ.endVisited) f.visited) ∧
      (∀ f ∈ fs, f.current = none) := by
  intro fuel
  induction fuel with
  | zero => intro grid σ fs h; cases h
  | succ m ih =>
    intro grid σ fs h
    obtain ⟨sq, eQ, sv, ev⟩ := σ
    match sq, eQ with
    | [], [] =>
      have h' : (some [] : Option (List Frame)) = some fs := h
      cases h'
      exact ⟨List.chain'_nil, by simp, by simp⟩
    | [], _ :: _ =>
      have h' : (some [] : Option (List Frame)) = some fs := h
      cases h'
      exact ⟨List.chain'_nil, by simp, by simp⟩
    | _ :: _, [] =>
      have h' : (some [] : Option (List Frame)) = some fs := h
      cases h'
      exact ⟨List.chain'_nil, by simp, by simp⟩
    | cs :: sr, ce :: er =>
      have h' : (if (pmFind ev cs).isSome then
          (biMeetFrame sv ev cs).map (fun f => [f])
        else
          if (pmFind (biExpand cs sv sr (getNeighbors grid cs)).1 ce).isSome then
            (biMeetFrame (biExpand cs sv sr (getNeighbors grid cs)).1 ev ce).map
              (fun f => [f])
          else
            (biRun m grid
              ⟨(biExpand cs sv sr (getNeighbors grid cs)).2,
               (biExpand ce ev er (getNeighbors grid ce)).2,
               (biExpand cs sv sr (getNeighbors grid cs)).1,
               (biExpand ce ev er (getNeighbors grid ce)).1⟩).map
              (fun fs =>
                (⟨biKeys (biExpand cs sv sr (getNeighbors grid cs)).1 ++
                    biKeys (biExpand ce ev er (getNeighbors grid ce)).1,
                  (biExpand cs sv sr (getNeighbors grid cs)).2 ++
                    (biExpand ce ev er (getNeighbors grid ce)).2,
                  [], none⟩ : Frame) :: fs)) = some fs := h
      show List.Chain' frameLe fs ∧
        (∀ f ∈ fs, listLe (biKeys sv ++ biKeys ev) f.visited) ∧
        (∀ f ∈ fs, f.current = none)
      by_cases hm1 : (pmFind ev cs).isSome = true
      · rw [if_pos hm1] at h'
        match hmf : biMeetFrame sv ev cs with
        | none => rw [hmf] at h'; cases h'
        | some fr =>
          rw [hmf] at h'
          have h3 : some [fr] = some fs := h'
          cases h3
          obtain ⟨hcur, hvis⟩ := biMeetFrame_shape sv ev cs fr hmf
          refine ⟨List.chain'_singleton _, ?_, ?_⟩
          · intro f hf
            rcases List.mem_singleton.mp hf with rfl
            rw [hvis]
            exact listLe_refl _
          · intro f hf
            rcases List.mem_singleton.mp hf with rfl
            exact hcur
      · rw [if_neg hm1] at h'
        obtain ⟨⟨e1, he1⟩, _⟩ := biExpand_grow cs (getNeighbors grid cs) sv sr
        by_cases hm2 : (pmFind (biExpand cs sv sr (getNeighbors grid cs)).1 ce).isSome = true
        · rw [if_pos hm2] at h'
          match hmf : biMeetFrame (biExpand cs sv sr (getNeighbors grid cs)).1 ev ce with
          | none => rw [hmf] at h'; cases h'
          | some fr =>
            rw [hmf] at h'
            have h3 : some [fr] = some fs := h'
            cases h3
            obtain ⟨hcur, hvis⟩ := biMeetFrame_shape _ ev ce fr hmf
            refine ⟨List.chain'_singleton _, ?_, ?_⟩
            · intro f hf
              rcases List.mem_singleton.mp hf with rfl
              rw [hvis, he1, biKeys_append]
              have hp := listLe_append_pair (biKeys sv) (biKeys ev) (biKeys e1) []
              rw [List.append_nil] at hp
              exact hp
            · intro f hf
              rcases List.mem_singleton.mp hf with rfl
              exact hcur
        · rw [if_neg hm2] at h'
          obtain ⟨⟨e2, he2⟩, _⟩ := biExpand_grow ce (getNeighbors grid ce) ev er
          match hb : biRun m grid
              ⟨(biExpand cs sv sr (getNeighbors grid cs)).2,
               (biExpand ce ev er (getNeighbors grid ce)).2,
               (biExpand cs sv sr (getNeighbors grid cs)).1,
               (biExpand ce ev er (getNeighbors grid ce)).1⟩ with
          | none => rw [hb] at h'; cases h'
          | some fs' =>
            rw [hb] at h'
            have h3 : some
                ((⟨biKeys (biExpand cs sv sr (getNeighbors grid cs)).1 ++
                    biKeys (biExpand ce ev er (getNeighbors grid ce)).1,
                  (biExpand cs sv sr (getNeighbors grid cs)).2 ++
                    (biExpand ce ev er (getNeighbors grid ce)).2,
                  [], none⟩ : Frame) :: fs') = some fs := h'
            cases h3
            obtain ⟨hch, hmem0, hcur⟩ := ih grid _ fs' hb
            have hmem : ∀ f ∈ fs', listLe
                (biKeys (biExpand cs sv sr (getNeighbors grid cs)).1 ++
                  biKeys (biExpand ce ev er (getNeighbors grid ce)).1) f.visited := hmem0
            have hgrow : listLe (biKeys sv ++ biKeys ev)
                (biKeys (biExpand cs sv sr (getNeighbors grid cs)).1 ++
                  biKeys (biExpand ce ev er (getNeighbors grid ce)).1) := by
              rw [he1, he2, biKeys_append, biKeys_append]
              exact listLe_append_pair _ _ _ _
            refine ⟨?_, ?_, ?_⟩
            · rw [List.chain'_cons']
              refine ⟨?_, hch⟩
              intro hd hhd
              exact hmem hd (List.mem_of_mem_head? hhd)
            · intro f hf
              rcases List.mem_cons.mp hf with rfl | hf'
              · exact hgrow
              · exact listLe_trans hgrow (hmem f hf')
            · intro f hf
              rcases List.mem_cons.mp hf with rfl | hf'
              · rfl
              · exact hcur f hf'

/-- IDA* neighbour-loop facts, parametrized by the facts of the recursive
call. -/
lemma idaChildren_facts
    (searchF : Coordinate → Nat → List Coordinate → List Coordinate → Option IdaInner)
    (hsf : ∀ n g st vs r, searchF n g st vs = some r → idaBundle vs r) :
    ∀ (ns : List Coordinate) (g : Nat) (minv : Option Nat)
      (stack visited : List Coordinate) (r : IdaInner),
      idaChildren searchF g ns minv stack visited = some r → idaBundle visited r := by
  intro ns
  induction ns with
  | nil =>
    intro g minv stack visited r h
    have h' : some (⟨[], false, minv, stack, visited⟩ : IdaInner) = some r := h
    cases h'
    exact ⟨List.chain'_nil, listLe_refl _, by simp, by simp⟩
  | cons n t ih =>
    intro g minv stack visited r h
    have h' : (if n ∈ stack then idaChildren searchF g t minv stack visited
      else
        match searchF n (g + 1) (stack ++ [n]) (setAdd visited n) with
        | none => none
        | some r1 =>
          if r1.found then
            some ⟨(⟨setAdd visited n, [n], stack ++ [n], some n⟩ : Frame) :: r1.frames,
              true, r1.cost, r1.pathStack, r1.visitedKeys⟩
          else
            match idaChildren searchF g t (costMin r1.cost minv)
                r1.pathStack.dropLast r1.visitedKeys with
            | none => none
            | some r2 =>
              some ⟨(⟨setAdd visited n, [n], stack ++ [n], some n⟩ : Frame) ::
                  r1.frames ++ r2.frames,
                r2.found, r2.cost, r2.pathStack, r2.visitedKeys⟩) = some r := h
    by_cases hn : n ∈ stack
    · rw [if_pos hn] at h'
      exact ih g minv stack visited r h'
    · rw [if_neg hn] at h'
      obtain ⟨ea, hea⟩ := setAdd_grow visited n
      have hvgrow : listLe visited (setAdd visited n) := by
        rw [hea]
        exact listLe_append _ _
      match hs1 : searchF n (g + 1) (stack ++ [n]) (setAdd visited n) with
      | none => rw [hs1] at h'; cases h'
      | some r1 =>
        rw [hs1] at h'
        have h'2 : (if r1.found = true then
            some (⟨(⟨setAdd visited n, [n], stack ++ [n], some n⟩ : Frame) :: r1.frames,
              true, r1.cost, r1.pathStack, r1.visitedKeys⟩ : IdaInner)
          else
            match idaChildren searchF g t (costMin r1.cost minv)
                r1.pathStack.dropLast r1.visitedKeys with
            | none => none
            | some r2 =>
              some ⟨(⟨setAdd visited n, [n], stack ++ [n], some n⟩ : Frame) ::
                  r1.frames ++ r2.frames,
                r2.found, r2.cost, r2.pathStack, r2.visitedKeys⟩) = some r := h'
        obtain ⟨b1ch, b1vk, b1f, b1cur⟩ := hsf n (g + 1) (stack ++ [n]) (setAdd visited n)
          r1 hs1
        by_cases hf1 : r1.found = true
        · rw [if_pos hf1] at h'2
          have h3 : some (⟨(⟨setAdd visited n, [n], stack ++ [n], some n⟩ : Frame) ::
              r1.frames, true, r1.cost, r1.pathStack, r1.visitedKeys⟩ : IdaInner) = some r := h'2
          cases h3
          dsimp only [idaBundle]
          refine ⟨?_, listLe_trans hvgrow b1vk, ?_, ?_⟩
          · rw [List.chain'_cons']
            refine ⟨?_, b1ch⟩
            intro hd hhd
            exact (b1f hd (List.mem_of_mem_head? hhd)).1
          · intro f hf
            rcases List.mem_cons.mp hf with rfl | hf'
            · exact ⟨hvgrow, b1vk⟩
            · exact ⟨listLe_trans hvgrow (b1f f hf').1, (b1f f hf').2⟩
          · intro f hf
            rcases List.mem_cons.mp hf with rfl | hf'
            · rfl
            · exact b1cur f hf'
        · rw [if_neg hf1] at h'2
          match hs2 : idaChildren searchF g t (costMin r1.cost minv)
              r1.pathStack.dropLast r1.visitedKeys with
          | none => rw [hs2] at h'2; cases h'2
          | some r2 =>
            rw [hs2] at h'2
            have h3 : some (⟨(⟨setAdd visited n, [n], stack ++ [n], some n⟩ : Frame) ::
                r1.frames ++ r2.frames, r2.found, r2.cost, r2.pathStack,
                r2.visitedKeys⟩ : IdaInner) = some r := h'2
            cases h3
            dsimp only [idaBundle]
            obtain ⟨b2ch, b2vk, b2f, b2cur⟩ := ih g (costMin r1.cost minv)
              r1.pathStack.dropLast r1.visitedKeys r2 hs2
            refine ⟨?_, listLe_trans hvgrow (listLe_trans b1vk b2vk), ?_, ?_⟩
            · rw [List.chain'_append]
              refine ⟨?_, b2ch, ?_⟩
              · rw [List.chain'_cons']
                refine ⟨?_, b1ch⟩
                intro hd hhd
                exact (b1f hd (List.mem_of_mem_head? hhd)).1
              · intro x hx y hy
                have hxv : listLe x.visited r1.visitedKeys := by
                  rcases List.mem_cons.mp (memGetLast hx) with rfl | hx'
                  · exact b1vk
                  · exact (b1f x hx').2
                exact listLe_trans hxv (b2f y (List.mem_of_mem_head? hy)).1
            · intro f hf
              rcases List.mem_append.mp hf with hfl | hf2'
              · rcases List.mem_cons.mp hfl with rfl | hf1'
                · exact ⟨hvgrow, listLe_trans b1vk b2vk⟩
                · exact ⟨listLe_trans hvgrow (b1f f hf1').1,
                    listLe_trans (b1f f hf1').2 b2vk⟩
              · exact ⟨listLe_trans hvgrow (listLe_trans b1vk (b2f f hf2').1),
                  (b2f f hf2').2⟩
            · intro f hf
              rcases List.mem_append.mp hf with hfl | hf2'
              · rcases List.mem_cons.mp hfl with rfl | hf1'
                · rfl
                · exact b1cur f hf1'
              · exact b2cur f hf2'

/-- IDA* inner-search facts. -/
lemma idaSearch_facts :
    ∀ (fuel : Nat) (grid : Grid) (en : Coordinate) (bound : Nat)
      (node : Coordinate) (g : Nat) (stack visited : List Coordinate) (r : IdaInner),
      idaSearch grid en bound fuel node g stack visited = some r → idaBundle visited r := by
  intro fuel
  induction fuel with
  | zero => intro grid en bound node g stack visited r h; cases h
  | succ m ih =>
    intro grid en bound node g stack visited r h
    have h' : (if bound < g + heuristic node en then
        some (⟨[], false, some (g + heuristic node en), stack, visited⟩ : IdaInner)
      else if node = en then
        some (⟨[], true, some (g + heuristic node en), stack, visited⟩ : IdaInner)
      else
        idaChildren (idaSearch grid en bound m) g
          (stableSortBy (fun c => heuristic c en) (getNeighbors grid node))
          none stack visited) = some r := h
    by_cases hp : bound < g + heuristic node en
    · rw [if_pos hp] at h'
      have h3 : some (⟨[], false, some (g + heuristic node en), stack, visited⟩ : IdaInner)
          = some r := h'
      cases h3
      exact ⟨List.chain'_nil, listLe_refl _, by simp, by simp⟩
    · rw [if_neg hp] at h'
      by_cases hg : node = en
      · rw [if_pos hg] at h'
        have h3 : some (⟨[], true, some (g + heuristic node en), stack, visited⟩ : IdaInner)
            = some r := h'
        cases h3
        exact ⟨List.chain'_nil, listLe_refl _, by simp, by simp⟩
      · rw [if_neg hg] at h'
        exact idaChildren_facts (idaSearch grid en bound m)
          (fun n g' st vs r' h'' => ih grid en bound n g' st vs r' h'') _ g none
          stack visited r h'

/-- IDA* outer-loop facts: monotone frames, visited growth from the state's
set, and every non-final frame carries a `current` coordinate. -/
lemma idaOuter_facts :
    ∀ (ofuel : Nat) (grid : Grid) (s en : Coordinate) (ifuel bound : Nat)
      (stack visited : List Coordinate) (fs : List Frame),
      idaOuter grid s en ifuel ofuel bound stack visited = some fs →
      List.Chain' frameLe fs ∧ (∀ f ∈ fs, listLe visited f.visited) ∧
      (∀ f ∈ fs.dropLast, f.current.isSome = true) := by
  intro ofuel
  induction ofuel with
  | zero => intro grid s en ifuel bound stack visited fs h; cases h
  | succ m ih =>
    intro grid s en ifuel bound stack visited fs h
    have h' : (match idaSearch grid en bound ifuel s 0 stack visited with
      | none => none
      | some r =>
        if r.found then some (r.frames ++ [(⟨r.visitedKeys, [], r.pathStack, none⟩ : Frame)])
        else
          match r.cost with
          | none => some r.frames
          | some c =>
            (idaOuter grid s en ifuel m c r.pathStack r.visitedKeys).map
              (fun fs => r.frames ++ fs)) = some fs := h
    match hs : idaSearch grid en bound ifuel s 0 stack visited with
    | none => rw [hs] at h'; cases h'
    | some r =>
      rw [hs] at h'
      have h'2 : (if r.found = true then
          some (r.frames ++ [(⟨r.visitedKeys, [], r.pathStack, none⟩ : Frame)])
        else
          match r.cost with
          | none => some r.frames
          | some c =>
            (idaOuter grid s en ifuel m c r.pathStack r.visitedKeys).map
              (fun fs => r.frames ++ fs)) = some fs := h'
      obtain ⟨b1ch, b1vk, b1f, b1cur⟩ := idaSearch_facts ifuel grid en bound s 0
        stack visited r hs
      by_cases hf : r.found = true
      · rw [if_pos hf] at h'2
        have h3 : some (r.frames ++ [(⟨r.visitedKeys, [], r.pathStack, none⟩ : Frame)])
            = some fs := h'2
        cases h3
        refine ⟨?_, ?_, ?_⟩
        · rw [List.chain'_append]
          refine ⟨b1ch, List.chain'_singleton _, ?_⟩
          intro x hx y hy
          have hxm := (b1f x (memGetLast hx)).2
          have hy' : y = (⟨r.visitedKeys, [], r.pathStack, none⟩ : Frame) :=
            (Option.mem_some_iff.mp hy).symm
          subst hy'
          exact hxm
        · intro f hf'
          rcases List.mem_append.mp hf' with hfa | hfb
          · exact (b1f f hfa).1
          · rcases List.mem_singleton.mp hfb with rfl
            exact b1vk
        · intro f hf'
          have : (r.frames ++ [(⟨r.visitedKeys, [], r.pathStack, none⟩ : Frame)]).dropLast
              = r.frames := by simp
          rw [this] at hf'
          exact b1cur f hf'
      · rw [if_neg hf] at h'2
        match hc : r.cost with
        | none =>
          rw [hc] at h'2
          have h3 : some r.frames = some fs := h'2
          cases h3
          exact ⟨b1ch, fun f hf' => (b1f f hf').1,
            fun f hf' => b1cur f (mem_dropLast_self hf')⟩
        | some c =>
          rw [hc] at h'2
          have h'3 : (idaOuter grid s en ifuel m c r.pathStack r.visitedKeys).map
              (fun fs => r.frames ++ fs) = some fs := h'2
          match hrec : idaOuter grid s en ifuel m c r.pathStack r.visitedKeys with
          | none => rw [hrec] at h'3; cases h'3
          | some fs2 =>
            rw [hrec] at h'3
            have h3 : some (r.frames ++ fs2) = some fs := h'3
            cases h3
            obtain ⟨b2ch, b2f, b2cur⟩ := ih grid s en ifuel c r.pathStack
              r.visitedKeys fs2 hrec
            refine ⟨?_, ?_, ?_⟩
            · rw [List.chain'_append]
              refine ⟨b1ch, b2ch, ?_⟩
              intro x hx y hy
              exact listLe_trans (b1f x (memGetLast hx)).2
                (b2f y (List.mem_of_mem_head? hy))
            · intro f hf'
              rcases List.mem_append.mp hf' with hfa | hfb
              · exact (b1f f hfa).1
              · exact listLe_trans b1vk (b2f f hfb)
            · intro f hf'
              rcases mem_dropLast_append hf' with hfa | hfb
              · exact b1cur f hfa
              · exact b2cur f hfb

/-! ## C8: visited sets never shrink across frames -/

/-- **C8** (confirmed).  For every algorithm and every run, the yielded
frames' visited lists are monotone: each frame's visited list contains the
previous frame's and is at least as long.  (Every engine only ever adds to
its visited structures, and each frame snapshots them.) -/
theorem visited_nondecreasing (t : AlgorithmType) (fuel : Nat) (grid : Grid)
    (s en : Coordinate) (fs : List Frame)
    (h : createAlgorithmGenerator t grid s en fuel = some fs) :
    List.Chain' frameLe fs := by
  cases t with
  | BFS => exact (bfsRun_facts fuel grid en ⟨[s], [s], []⟩ fs h).1
  | DFS => exact (dfsRun_facts fuel grid en ⟨[s], [s], []⟩ fs h).1
  | DIJKSTRA =>
    exact (wRun_facts fuel grid en ⟨true, 0⟩ ⟨[⟨s, 0, 0⟩], [(s, 0)], [], []⟩ fs h).1
  | ASTAR =>
    exact (wRun_facts fuel grid en ⟨true, 1⟩ ⟨[⟨s, 0, 0⟩], [(s, 0)], [], []⟩ fs h).1
  | GREEDY =>
    exact (wRun_facts fuel grid en ⟨false, 1⟩ ⟨[⟨s, 0, 0⟩], [(s, 0)], [], []⟩ fs h).1
  | BIDIRECTIONAL =>
    exact (biRun_facts fuel grid ⟨[s], [en], [(s, none)], [(en, none)]⟩ fs h).1
  | IDA_STAR =>
    exact (idaOuter_facts fuel grid s en fuel (heuristic s en) [s] [s] fs h).1

/-- **C8**, witness: the BFS run on the 1×3 corridor, whose three frames'
visited lists grow `1 ≤ 2 ≤ 3`. -/
theorem visited_nondecreasing_witness :
    List.Chain' frameLe
      [⟨[⟨0, 0⟩], [], [], some ⟨0, 0⟩⟩,
       ⟨[⟨0, 0⟩, ⟨1, 0⟩], [], [], some ⟨1, 0⟩⟩,
       ⟨[⟨0, 0⟩, ⟨1, 0⟩, ⟨2, 0⟩], [], [⟨0, 0⟩, ⟨1, 0⟩, ⟨2, 0⟩], none⟩] :=
  visited_nondecreasing AlgorithmType.BFS 5 corridorGrid ⟨0, 0⟩ ⟨2, 0⟩ _ (by decide)

/-! ## C10: the `current` field -/

/-- **C10** (confirmed).  Every frame the bidirectional generator yields —
progress and final alike — has no `current` coordinate, while for each of
the other six algorithms every frame except possibly the last (the only
place a final frame can sit) carries one. -/
theorem bidirectional_frames_lack_current :
    (∀ (fuel : Nat) (grid : Grid) (s en : Coordinate) (fs : List Frame),
      biFrames fuel grid s en = some fs → ∀ f ∈ fs, f.current = none) ∧
    (∀ t, t ≠ AlgorithmType.BIDIRECTIONAL →
      ∀ (fuel : Nat) (grid : Grid) (s en : Coordinate) (fs : List Frame),
        createAlgorithmGenerator t grid s en fuel = some fs →
        ∀ f ∈ fs.dropLast, f.current.isSome = true) := by
  constructor
  · intro fuel grid s en fs h
    exact (biRun_facts fuel grid ⟨[s], [en], [(s, none)], [(en, none)]⟩ fs h).2.2
  · intro t ht fuel grid s en fs h
    cases t with
    | BFS => exact (bfsRun_facts fuel grid en ⟨[s], [s], []⟩ fs h).2.2
    | DFS => exact (dfsRun_facts fuel grid en ⟨[s], [s], []⟩ fs h).2.2
    | DIJKSTRA =>
      exact (wRun_facts fuel grid en ⟨true, 0⟩ ⟨[⟨s, 0, 0⟩], [(s, 0)], [], []⟩ fs h).2.2
    | ASTAR =>
      exact (wRun_facts fuel grid en ⟨true, 1⟩ ⟨[⟨s, 0, 0⟩], [(s, 0)], [], []⟩ fs h).2.2
    | GREEDY =>
      exact (wRun_facts fuel grid en ⟨false, 1⟩ ⟨[⟨s, 0, 0⟩], [(s, 0)], [], []⟩ fs h).2.2
    | BIDIRECTIONAL => exact absurd rfl ht
    | IDA_STAR =>
      exact (idaOuter_facts fuel grid s en fuel (heuristic s en) [s] [s] fs h).2.2

/-- **C10**, witness: on the 1×3 corridor, the bidirectional progress frame
has no `current`, while the first BFS progress frame does. -/
theorem bidirectional_frames_lack_current_witness :
    (⟨[⟨0, 0⟩, ⟨1, 0⟩, ⟨2, 0⟩, ⟨1, 0⟩], [⟨1, 0⟩, ⟨1, 0⟩], [], none⟩ : Frame).current = none ∧
    (⟨[⟨0, 0⟩], [], [], some ⟨0, 0⟩⟩ : Frame).current.isSome = true :=
  ⟨bidirectional_frames_lack_current.1 4 corridorGrid ⟨0, 0⟩ ⟨2, 0⟩
      [⟨[⟨0, 0⟩, ⟨1, 0⟩, ⟨2, 0⟩, ⟨1, 0⟩], [⟨1, 0⟩, ⟨1, 0⟩], [], none⟩,
       ⟨[⟨0, 0⟩, ⟨1, 0⟩, ⟨2, 0⟩, ⟨1, 0⟩], [], [⟨0, 0⟩, ⟨1, 0⟩, ⟨1, 0⟩], none⟩]
      (by decide) _ (by decide),
   bidirectional_frames_lack_current.2 AlgorithmType.BFS (by decide) 5 corridorGrid
      ⟨0, 0⟩ ⟨2, 0⟩
      [⟨[⟨0, 0⟩], [], [], some ⟨0, 0⟩⟩,
       ⟨[⟨0, 0⟩, ⟨1, 0⟩], [], [], some ⟨1, 0⟩⟩,
       ⟨[⟨0, 0⟩, ⟨1, 0⟩, ⟨2, 0⟩], [], [⟨0, 0⟩, ⟨1, 0⟩, ⟨2, 0⟩], none⟩]
      (by decide) _ (by decide)⟩

/-! ## Path and reconstruction lemmas -/

lemma path_singleton (grid : Grid) (s : Coordinate) : IsPath grid s s [s] :=
  ⟨List.cons_ne_nil _ _, rfl, rfl, List.chain'_singleton _⟩

lemma path_length_pos {grid : Grid} {s e : Coordinate} {l : List Coordinate}
    (h : IsPath grid s e l) : 1 ≤ l.length := by
  cases l with
  | nil => exact absurd rfl h.1
  | cons a t => simp

lemma path_snoc {grid : Grid} {s b c : Coordinate} {l : List Coordinate}
    (h : IsPath grid s b l) (hadj : Adj grid b c) : IsPath grid s c (l ++ [c]) := by
  obtain ⟨hne, hhd, hlast, hch⟩ := h
  refine ⟨by simp, ?_, ?_, ?_⟩
  · cases l with
    | nil => exact absurd rfl hne
    | cons a t => exact hhd
  · exact List.getLast?_concat _
  · rw [List.chain'_append]
    refine ⟨hch, List.chain'_singleton _, ?_⟩
    intro x hx y hy
    rw [hlast] at hx
    have hx' : x = b := (Option.mem_some_iff.mp hx).symm
    have hy' : y = c := (Option.mem_some_iff.mp hy).symm
    rw [hx', hy']
    exact hadj

lemma path_cons {grid : Grid} {s c e : Coordinate} {l : List Coordinate}
    (hadj : Adj grid s c) (h : IsPath grid c e l) : IsPath grid s e (s :: l) := by
  obtain ⟨hne, hhd, hlast, hch⟩ := h
  refine ⟨List.cons_ne_nil _ _, rfl, ?_, ?_⟩
  · cases l with
    | nil => exact absurd rfl hne
    | cons a t => rw [List.getLast?_cons_cons]; exact hlast
  · rw [List.chain'_cons']
    refine ⟨?_, hch⟩
    intro y hy
    rw [hhd] at hy
    have : y = c := (Option.mem_some_iff.mp hy).symm
    rw [this]
    exact hadj

/-- Any path from a visited node to an unvisited one crosses the boundary:
there are adjacent `a ∈ vis`, `b ∉ vis` and a path to `a` properly shorter
than the whole path. -/
lemma path_exit {grid : Grid} {s e : Coordinate} {l : List Coordinate}
    (vis : List Coordinate) (h : IsPath grid s e l) (hs : s ∈ vis) (he : e ∉ vis) :
    ∃ a b l1, a ∈ vis ∧ b ∉ vis ∧ Adj grid a b ∧ IsPath grid s a l1 ∧
      l1.length + 1 ≤ l.length := by
  induction l generalizing s with
  | nil => exact absurd rfl h.1
  | cons c t ih =>
    have hc : c = s := by
      have := h.2.1
      exact Option.some_injective _ this.symm |>.symm
    subst hc
    cases t with
    | nil =>
      have : c = e := by
        have := h.2.2.1
        exact Option.some_injective _ this
      rw [this] at hs
      exact absurd hs he
    | cons c2 t2 =>
      have hadj : Adj grid c c2 := by
        have := h.2.2.2
        rw [List.chain'_cons] at this
        exact this.1
      have htail : IsPath grid c2 e (c2 :: t2) := by
        obtain ⟨_, _, hlast, hch⟩ := h
        rw [List.chain'_cons] at hch
        refine ⟨List.cons_ne_nil _ _, rfl, ?_, hch.2⟩
        rw [List.getLast?_cons_cons] at hlast
        exact hlast
      by_cases hc2 : c2 ∈ vis
      · obtain ⟨a, b, l1, ha, hb, hab, hp1, hlen⟩ := ih htail hc2
        have hl1hd : l1.head? = some c2 := hp1.2.1
        refine ⟨a, b, c :: l1, ha, hb, hab, ?_, ?_⟩
        · refine path_cons ?_ hp1
          exact hadj
        · simpa using Nat.succ_le_succ hlen
      · exact ⟨c, c2, [c], hs, hc2, hadj, path_singleton grid c, by simp⟩

lemma pmFind_cons (k : Coordinate) (w : Option Coordinate) (pm : ParentMap)
    (x : Coordinate) :
    pmFind ((k, w) :: pm) x = if k = x then some w else pmFind pm x := by
  unfold pmFind
  rw [List.find?_cons]
  by_cases hk : k = x
  · simp [hk]
  · simp [hk]

lemma reconstructPath_mono {pm : ParentMap} {x : Coordinate} {l : List Coordinate} :
    ∀ {fuel fuel' : Nat}, reconstructPath fuel pm x = some l → fuel ≤ fuel' →
      reconstructPath fuel' pm x = some l := by
  intro fuel
  induction fuel generalizing x l with
  | zero => intro fuel' h; cases h
  | succ m ih =>
    intro fuel' h hle
    match fuel', hle with
    | m' + 1, hle =>
      have hle' : m ≤ m' := Nat.le_of_succ_le_succ hle
      show (match pmFind pm x with
        | some (some p) => (reconstructPath m' pm p).map (fun l => l ++ [x])
        | _ => some [x]) = some l
      have h' : (match pmFind pm x with
        | some (some p) => (reconstructPath m pm p).map (fun l => l ++ [x])
        | _ => some [x]) = some l := h
      match hf : pmFind pm x with
      | some (some p) =>
        rw [hf] at h'
        have h'' : (reconstructPath m pm p).map (fun l => l ++ [x]) = some l := h'
        show (reconstructPath m' pm p).map (fun l => l ++ [x]) = some l
        match hrec : reconstructPath m pm p with
        | none => rw [hrec] at h''; cases h''
        | some lp =>
          rw [hrec] at h''
          rw [ih hrec hle']
          exact h''
      | some none => rw [hf] at h'; exact h'
      | none => rw [hf] at h'; exact h'

lemma reconstructPath_last {pm : ParentMap} :
    ∀ {fuel : Nat} {x : Coordinate} {l : List Coordinate},
      reconstructPath fuel pm x = some l → ∃ l0, l = l0 ++ [x] := by
  intro fuel
  induction fuel with
  | zero => intro x l h; cases h
  | succ m ih =>
    intro x l h
    have h' : (match pmFind pm x with
      | some (some p) => (reconstructPath m pm p).map (fun l => l ++ [x])
      | _ => some [x]) = some l := h
    match hf : pmFind pm x with
    | some (some p) =>
      rw [hf] at h'
      have h'' : (reconstructPath m pm p).map (fun l => l ++ [x]) = some l := h'
      match hrec : reconstructPath m pm p with
      | none => rw [hrec] at h''; cases h''
      | some lp =>
        rw [hrec] at h''
        have : some (lp ++ [x]) = some l := h''
        cases this
        exact ⟨lp, rfl⟩
    | some none =>
      rw [hf] at h'
      have : some [x] = some l := h'
      cases this
      exact ⟨[], rfl⟩
    | none =>
      rw [hf] at h'
      have : some [x] = some l := h'
      cases this
      exact ⟨[], rfl⟩

/-- Reconstruction only consults the bindings of the keys on the returned
chain, so any map agreeing there gives the same chain. -/
lemma reconstructPath_congr {pm pm' : ParentMap} :
    ∀ {fuel : Nat} {x : Coordinate} {l : List Coordinate},
      reconstructPath fuel pm x = some l →
      (∀ y ∈ l, pmFind pm' y = pmFind pm y) →
      reconstructPath fuel pm' x = some l := by
  intro fuel
  induction fuel with
  | zero => intro x l h; cases h
  | succ m ih =>
    intro x l h hagree
    have h' : (match pmFind pm x with
      | some (some p) => (reconstructPath m pm p).map (fun l => l ++ [x])
      | _ => some [x]) = some l := h
    have hxl : x ∈ l := by
      obtain ⟨l0, rfl⟩ := reconstructPath_last h
      simp
    have hx : pmFind pm' x = pmFind pm x := hagree x hxl
    show (match pmFind pm' x with
      | some (some p) => (reconstructPath m pm' p).map (fun l => l ++ [x])
      | _ => some [x]) = some l
    rw [hx]
    match hf : pmFind pm x with
    | some (some p) =>
      rw [hf] at h'
      have h'' : (reconstructPath m pm p).map (fun l => l ++ [x]) = some l := h'
      show (reconstructPath m pm' p).map (fun l => l ++ [x]) = some l
      match hrec : reconstructPath m pm p with
      | none => rw [hrec] at h''; cases h''
      | some lp =>
        rw [hrec] at h''
        have hsub : ∀ y ∈ lp, pmFind pm' y = pmFind pm y := by
          intro y hy
          apply hagree
          have : some (lp ++ [x]) = some l := h''
          cases this
          exact List.mem_append_left _ hy
        rw [ih hrec hsub]
        exact h''
    | some none => rw [hf] at h'; exact h'
    | none => rw [hf] at h'; exact h'

/-- Membership in `getNeighbors`, unfolded. -/
lemma mem_getNeighbors {g : Grid} {c n : Coordinate} :
    n ∈ getNeighbors g c ↔ ∃ d ∈ dirs, n = ⟨c.x + d.x, c.y + d.y⟩ ∧
      0 ≤ n.x ∧ n.x < ((g.headD []).length : Int) ∧ 0 ≤ n.y ∧ n.y < (g.length : Int) ∧
      ((g.getD n.y.toNat []).getD n.x.toNat ⟨CellType.WALL⟩).type ≠ CellType.WALL := by
  unfold getNeighbors
  simp only [List.mem_filterMap]
  constructor
  · rintro ⟨d, hd, hsome⟩
    by_cases h1 : 0 ≤ c.x + d.x ∧ c.x + d.x < ((g.headD []).length : Int) ∧
        0 ≤ c.y + d.y ∧ c.y + d.y < (g.length : Int)
    · rw [if_pos h1] at hsome
      by_cases h2 : ((g.getD (c.y + d.y).toNat []).getD (c.x + d.x).toNat
          ⟨CellType.WALL⟩).type ≠ CellType.WALL
      · rw [if_pos h2] at hsome
        have hn : n = ⟨c.x + d.x, c.y + d.y⟩ := (Option.some_injective _ hsome).symm
        subst hn
        exact ⟨d, hd, rfl, h1.1, h1.2.1, h1.2.2.1, h1.2.2.2, h2⟩
      · rw [if_neg h2] at hsome
        cases hsome
    · rw [if_neg h1] at hsome
      cases hsome
  · rintro ⟨d, hd, hn, hx0, hx1, hy0, hy1, hw⟩
    refine ⟨d, hd, ?_⟩
    have ex : n.x = c.x + d.x := by rw [hn]
    have ey : n.y = c.y + d.y := by rw [hn]
    rw [← ex, ← ey, if_pos ⟨hx0, hx1, hy0, hy1⟩, if_pos hw]

/-- Membership in `openCells`, unfolded. -/
lemma mem_openCells {g : Grid} {n : Coordinate} :
    n ∈ openCells g ↔ 0 ≤ n.x ∧ n.x < ((g.headD []).length : Int) ∧
      0 ≤ n.y ∧ n.y < (g.length : Int) ∧
      ((g.getD n.y.toNat []).getD n.x.toNat ⟨CellType.WALL⟩).type ≠ CellType.WALL := by
  unfold openCells
  simp only [List.mem_flatMap, List.mem_filterMap, List.mem_range]
  constructor
  · rintro ⟨y, hy, x, hx, hsome⟩
    by_cases hw : ((g.getD y []).getD x ⟨CellType.WALL⟩).type ≠ CellType.WALL
    · rw [if_pos hw] at hsome
      have hn : n = ⟨(x : Int), (y : Int)⟩ := (Option.some_injective _ hsome).symm
      have ex : n.x = (x : Int) := by rw [hn]
      have ey : n.y = (y : Int) := by rw [hn]
      refine ⟨?_, ?_, ?_, ?_, ?_⟩
      · rw [ex]; exact Int.ofNat_nonneg x
      · rw [ex]; exact_mod_cast hx
      · rw [ey]; exact Int.ofNat_nonneg y
      · rw [ey]; exact_mod_cast hy
      · rw [ex, ey]; simpa using hw
    · rw [if_neg hw] at hsome
      cases hsome
  · rintro ⟨hx0, hx1, hy0, hy1, hw⟩
    refine ⟨n.y.toNat, ?_, n.x.toNat, ?_, ?_⟩
    · omega
    · omega
    · rw [if_pos hw, Int.toNat_of_nonneg hx0, Int.toNat_of_nonneg hy0]

/-- Every neighbour is an open cell. -/
lemma neighbors_mem_openCells {g : Grid} {c n : Coordinate}
    (h : n ∈ getNeighbors g c) : n ∈ openCells g := by
  obtain ⟨d, _, _, hx0, hx1, hy0, hy1, hw⟩ := mem_getNeighbors.mp h
  exact mem_openCells.mpr ⟨hx0, hx1, hy0, hy1, hw⟩

lemma pairwise_of_all {α : Type} {R : α → α → Prop} :
    ∀ {l : List α}, (∀ a ∈ l, ∀ b ∈ l, R a b) → l.Pairwise R := by
  intro l
  induction l with
  | nil => intro _; exact List.Pairwise.nil
  | cons a t ih =>
    intro h
    refine List.Pairwise.cons ?_ (ih ?_)
    · intro b hb
      exact h a (List.mem_cons_self a t) b (List.mem_cons_of_mem a hb)
    · intro x hx y hy
      exact h x (List.mem_cons_of_mem a hx) y (List.mem_cons_of_mem a hy)

/-- The `bfsExpand` neighbour loop, characterized: starting from a
mid-loop state it appends some batch `new2` of fresh neighbours, and on
exit every processed neighbour is visited. -/
lemma bfsExpand_mid (g : Grid) (s c : Coordinate) (v : List Coordinate)
    (pm : ParentMap) (rest : List Coordinate) :
    ∀ (ns : List Coordinate) (σ' : BfsState) (new : List Coordinate),
      BfsMid g s c v pm rest σ' new → (∀ n ∈ ns, Adj g c n) →
      ∃ new2, BfsMid g s c v pm rest (bfsExpand c σ' ns) (new ++ new2) ∧
        (∀ n ∈ new2, n ∈ ns) ∧ (∀ n ∈ ns, n ∈ (bfsExpand c σ' ns).visitedSet) := by
  intro ns
  induction ns with
  | nil =>
    intro σ' new hmid _
    refine ⟨[], ?_, by simp, by simp⟩
    rw [List.append_nil]
    exact hmid
  | cons n t ih =>
    intro σ' new hmid hadj
    by_cases hn : n ∈ σ'.visitedSet
    · have hrw : bfsExpand c σ' (n :: t) = bfsExpand c σ' t := by
        show (if n ∈ σ'.visitedSet then bfsExpand c σ' t
          else bfsExpand c
            { queue := σ'.queue ++ [n]
              visitedSet := σ'.visitedSet ++ [n]
              parentMap := (n, some c) :: σ'.parentMap } t) = bfsExpand c σ' t
        rw [if_pos hn]
      rw [hrw]
      obtain ⟨new2, hmid2, hsub2, hdone2⟩ := ih σ' new hmid
        (fun m hm => hadj m (List.mem_cons_of_mem _ hm))
      refine ⟨new2, hmid2, fun m hm => List.mem_cons_of_mem _ (hsub2 m hm), ?_⟩
      intro m hm
      rcases List.mem_cons.mp hm with rfl | hm'
      · rw [hmid2.hv]
        rcases List.mem_append.mp (hmid.hv ▸ hn) with h | h
        · exact List.mem_append_left _ h
        · exact List.mem_append_right _ (List.mem_append_left _ h)
      · exact hdone2 m hm'
    · have hnv : n ∉ v := fun hc =>
        hn (hmid.hv ▸ List.mem_append_left _ hc)
      have hnnew : n ∉ new := fun hc =>
        hn (hmid.hv ▸ List.mem_append_right _ hc)
      have hrw : bfsExpand c σ' (n :: t) = bfsExpand c
          ⟨σ'.queue ++ [n], σ'.visitedSet ++ [n], (n, some c) :: σ'.parentMap⟩ t := by
        show (if n ∈ σ'.visitedSet then bfsExpand c σ' t
          else bfsExpand c
            { queue := σ'.queue ++ [n]
              visitedSet := σ'.visitedSet ++ [n]
              parentMap := (n, some c) :: σ'.parentMap } t) = _
        rw [if_neg hn]
      rw [hrw]
      have hmid' : BfsMid g s c v pm rest
          ⟨σ'.queue ++ [n], σ'.visitedSet ++ [n], (n, some c) :: σ'.parentMap⟩
          (new ++ [n]) := by
        refine ⟨?_, ?_, ?_, ?_, ?_, ?_, ?_, ?_⟩
        · show σ'.visitedSet ++ [n] = v ++ (new ++ [n])
          rw [hmid.hv, List.append_assoc]
        · show σ'.queue ++ [n] = rest ++ (new ++ [n])
          rw [hmid.hq, List.append_assoc]
        · intro m hm
          rcases List.mem_append.mp hm with hm' | hm'
          · exact hmid.hfresh m hm'
          · rcases List.mem_singleton.mp hm' with rfl
            exact hnv
        · intro m hm
          rcases List.mem_append.mp hm with hm' | hm'
          · exact hmid.hadj m hm'
          · rcases List.mem_singleton.mp hm' with rfl
            exact hadj m (List.mem_cons_self _ _)
        · rw [List.nodup_append]
          refine ⟨hmid.hnodup, List.nodup_singleton _, ?_⟩
          intro a ha hb
          rcases List.mem_singleton.mp hb with rfl
          exact hnnew ha
        · show ((n, some c) :: σ'.parentMap).length = pm.length + (new ++ [n]).length
          rw [List.length_cons, hmid.hpmlen, List.length_append]
          rfl
        · intro x hx
          have hxn : ¬ (n = x) := by
            intro h
            exact hx (h ▸ List.mem_append_right _ (List.mem_singleton_self n))
          show pmFind ((n, some c) :: σ'.parentMap) x = pmFind pm x
          rw [pmFind_cons, if_neg hxn]
          exact hmid.hpmold x (fun hc => hx (List.mem_append_left _ hc))
        · intro m hm
          show pmFind ((n, some c) :: σ'.parentMap) m = some (some c)
          rcases List.mem_append.mp hm with hm' | hm'
          · have hmn : ¬ (n = m) := fun h => hnnew (h ▸ hm')
            rw [pmFind_cons, if_neg hmn]
            exact hmid.hpmnew m hm'
          · rcases List.mem_singleton.mp hm' with rfl
            rw [pmFind_cons, if_pos rfl]
      obtain ⟨new2, hmid2, hsub2, hdone2⟩ := ih _ (new ++ [n]) hmid'
        (fun m hm => hadj m (List.mem_cons_of_mem _ hm))
      refine ⟨[n] ++ new2, ?_, ?_, ?_⟩
      · rw [show new ++ ([n] ++ new2) = (new ++ [n]) ++ new2 from
          (List.append_assoc _ _ _).symm]
        exact hmid2
      · intro m hm
        rcases List.mem_append.mp hm with hm' | hm'
        · rcases List.mem_singleton.mp hm' with rfl
          exact List.mem_cons_self _ _
        · exact List.mem_cons_of_mem _ (hsub2 m hm')
      · intro m hm
        rcases List.mem_cons.mp hm with rfl | hm'
        · rw [hmid2.hv]
          exact List.mem_append_right _
            (List.mem_append_left _ (List.mem_append_right _ (List.mem_singleton_self m)))
        · exact hdone2 m hm'

/-- One BFS expansion step preserves the invariant, extending the ghost
depth by `D c + 1` on the freshly discovered batch. -/
lemma bfsExpand_step (g : Grid) (s en c : Coordinate) (rest : List Coordinate)
    (v : List Coordinate) (pm : ParentMap) (D : Coordinate → Nat)
    (hInv : BfsInv g s en ⟨c :: rest, v, pm⟩ D) (hcen : c ≠ en) :
    ∃ D' new, BfsInv g s en (bfsExpand c ⟨rest, v, pm⟩ (getNeighbors g c)) D' ∧
      (bfsExpand c ⟨rest, v, pm⟩ (getNeighbors g c)).visitedSet = v ++ new ∧
      (bfsExpand c ⟨rest, v, pm⟩ (getNeighbors g c)).queue = rest ++ new ∧
      (∀ n ∈ new, n ∈ openCells g) := by
  have hmid0 : BfsMid g s c v pm rest ⟨rest, v, pm⟩ [] := by
    refine ⟨?_, ?_, by simp, by simp, List.nodup_nil, by simp, fun x _ => rfl, by simp⟩
    · show v = v ++ []
      rw [List.append_nil]
    · show rest = rest ++ []
      rw [List.append_nil]
  obtain ⟨new, hmid, hnsub, hdone⟩ := bfsExpand_mid g s c v pm rest (getNeighbors g c)
    ⟨rest, v, pm⟩ [] hmid0 (fun n hn => hn)
  rw [List.nil_append] at hmid
  have e3c : c ∈ v := hInv.qSub c (List.mem_cons_self _ _)
  have e3rest : ∀ x ∈ rest, x ∈ v := fun x hx => hInv.qSub x (List.mem_cons_of_mem _ hx)
  have e4 : c ∉ rest ∧ rest.Nodup := by
    have := hInv.qNodup
    rw [List.nodup_cons] at this
    exact this
  have e8 := hInv.qSorted
  rw [List.pairwise_cons] at e8
  refine ⟨fun x => if x ∈ new then D c + 1 else D x, new, ?_, hmid.hv, hmid.hq,
    fun n hn => neighbors_mem_openCells (hmid.hadj n hn)⟩
  refine ⟨?_, ?_, ?_, ?_, ?_, ?_, ?_, ?_, ?_, ?_, ?_⟩
  · rw [hmid.hv]
    exact List.mem_append_left _ hInv.sVis
  · rw [hmid.hv, List.nodup_append]
    exact ⟨hInv.vNodup, hmid.hnodup, fun a ha hb => hmid.hfresh a hb ha⟩
  · intro x hx
    rw [hmid.hq] at hx
    rw [hmid.hv]
    rcases List.mem_append.mp hx with h | h
    · exact List.mem_append_left _ (e3rest x h)
    · exact List.mem_append_right _ h
  · rw [hmid.hq, List.nodup_append]
    exact ⟨e4.2, hmid.hnodup, fun a ha hb => hmid.hfresh a hb (e3rest a ha)⟩
  · intro x
    by_cases hxn : x ∈ new
    · constructor
      · intro _
        refine ⟨?_, ?_⟩
        · rw [hmid.hv]
          exact List.mem_append_right _ hxn
        · intro hxs
          exact hmid.hfresh x hxn (hxs ▸ hInv.sVis)
      · intro _
        rw [hmid.hpmnew x hxn]
        rfl
    · rw [hmid.hpmold x hxn, hInv.pmKeys x]
      constructor
      · rintro ⟨h1, h2⟩
        refine ⟨?_, h2⟩
        rw [hmid.hv]
        exact List.mem_append_left _ h1
      · rintro ⟨h1, h2⟩
        rw [hmid.hv] at h1
        rcases List.mem_append.mp h1 with h | h
        · exact ⟨h, h2⟩
        · exact absurd h hxn
  · intro x hx
    rw [hmid.hv] at hx
    rcases List.mem_append.mp hx with hxv | hxnew'
    · obtain ⟨l, hrec, hpath, hlen, hsubv⟩ := hInv.recon x hxv
      have hxnew : x ∉ new := fun hc => hmid.hfresh x hc hxv
      have hrec1 : reconstructPath (pm.length + 1) (bfsExpand c ⟨rest, v, pm⟩
          (getNeighbors g c)).parentMap x = some l :=
        reconstructPath_congr hrec
          (fun y hy => hmid.hpmold y (fun hyc => hmid.hfresh y hyc (hsubv y hy)))
      have hrec2 : reconstructPath ((bfsExpand c ⟨rest, v, pm⟩
          (getNeighbors g c)).parentMap.length + 1) (bfsExpand c ⟨rest, v, pm⟩
          (getNeighbors g c)).parentMap x = some l :=
        reconstructPath_mono hrec1 (by rw [hmid.hpmlen]; omega)
      refine ⟨l, hrec2, hpath, ?_, ?_⟩
      · rw [if_neg hxnew]
        exact hlen
      · intro y hy
        rw [hmid.hv]
        exact List.mem_append_left _ (hsubv y hy)
    · obtain ⟨lc, hrecc, hpathc, hlenc, hsubc⟩ := hInv.recon c e3c
      have hrecc1 : reconstructPath (pm.length + 1) (bfsExpand c ⟨rest, v, pm⟩
          (getNeighbors g c)).parentMap c = some lc :=
        reconstructPath_congr hrecc
          (fun y hy => hmid.hpmold y (fun hyc => hmid.hfresh y hyc (hsubc y hy)))
      have hnlen : 1 ≤ new.length :=
        List.length_pos.mpr (List.ne_nil_of_mem hxnew')
      have hrecc2 : reconstructPath (pm.length + new.length) (bfsExpand c ⟨rest, v, pm⟩
          (getNeighbors g c)).parentMap c = some lc :=
        reconstructPath_mono hrecc1 (by omega)
      refine ⟨lc ++ [x], ?_, path_snoc hpathc (hmid.hadj x hxnew'), ?_, ?_⟩
      · rw [hmid.hpmlen]
        show (match pmFind (bfsExpand c ⟨rest, v, pm⟩
            (getNeighbors g c)).parentMap x with
          | some (some p) => (reconstructPath (pm.length + new.length)
              (bfsExpand c ⟨rest, v, pm⟩ (getNeighbors g c)).parentMap p).map
              (fun l => l ++ [x])
          | _ => some [x]) = some (lc ++ [x])
        rw [hmid.hpmnew x hxnew']
        show (reconstructPath (pm.length + new.length) (bfsExpand c ⟨rest, v, pm⟩
            (getNeighbors g c)).parentMap c).map (fun l => l ++ [x]) = some (lc ++ [x])
        rw [hrecc2]
        rfl
      · rw [if_pos hxnew', List.length_append, hlenc]
        rfl
      · intro y hy
        rcases List.mem_append.mp hy with hy' | hy'
        · rw [hmid.hv]
          exact List.mem_append_left _ (hsubc y hy')
        · rcases List.mem_singleton.mp hy' with rfl
          rw [hmid.hv]
          exact List.mem_append_right _ hxnew'
  · intro x hx
    rw [hmid.hv] at hx
    rcases List.mem_append.mp hx with hxv | hxnew'
    · have hxnew : x ∉ new := fun hc => hmid.hfresh x hc hxv
      intro l hl
      rw [if_neg hxnew]
      exact hInv.minD x hxv l hl
    · have hxv : x ∉ v := hmid.hfresh x hxnew'
      intro l hl
      rw [if_pos hxnew']
      obtain ⟨a, b, l1, ha, hb, hab, hl1, hlen1⟩ := path_exit v hl hInv.sVis hxv
      have hDca : D c ≤ D a := by
        by_cases haq : a ∈ c :: rest
        · rcases List.mem_cons.mp haq with rfl | haq'
          · exact Nat.le_refl _
          · exact (e8.1 a haq').1
        · exact absurd (hInv.processed a ha haq b hab) hb
      have hmina := hInv.minD a ha l1 hl1
      omega
  · rw [hmid.hq, List.pairwise_append]
    refine ⟨?_, ?_, ?_⟩
    · refine List.Pairwise.imp_of_mem ?_ e8.2
      intro a b ha hb hab
      have hna : a ∉ new := fun hc => hmid.hfresh a hc (e3rest a ha)
      have hnb : b ∉ new := fun hc => hmid.hfresh b hc (e3rest b hb)
      rw [if_neg hna, if_neg hnb]
      exact hab
    · refine pairwise_of_all ?_
      intro a ha b hb
      rw [if_pos ha, if_pos hb]
      exact ⟨Nat.le_refl _, Nat.le_succ _⟩
    · intro a ha b hb
      have hna : a ∉ new := fun hc => hmid.hfresh a hc (e3rest a ha)
      rw [if_neg hna, if_pos hb]
      have h8 := e8.1 a ha
      exact ⟨h8.2, Nat.succ_le_succ h8.1⟩
  · intro x hx hxq n hn
    rw [hmid.hv] at hx ⊢
    rw [hmid.hq] at hxq
    have hxnew : x ∉ new := fun hc => hxq (List.mem_append_right _ hc)
    have hxv : x ∈ v := by
      rcases List.mem_append.mp hx with h | h
      · exact h
      · exact absurd h hxnew
    by_cases hxc : x = c
    · subst hxc
      have hd := hdone n hn
      rw [hmid.hv] at hd
      exact hd
    · have hxq' : x ∉ c :: rest := by
        intro hc
        rcases List.mem_cons.mp hc with h | h
        · exact hxc h
        · exact hxq (List.mem_append_left _ h)
      exact List.mem_append_left _ (hInv.processed x hxv hxq' n hn)
  · intro hen
    rw [hmid.hv] at hen
    rw [hmid.hq]
    rcases List.mem_append.mp hen with h | h
    · have := hInv.enQueue h
      rcases List.mem_cons.mp this with h' | h'
      · exact absurd h'.symm hcen
      · exact List.mem_append_left _ h'
    · exact List.mem_append_right _ h
  · intro x hx
    rw [hmid.hv] at hx
    rcases List.mem_append.mp hx with h | h
    · exact hInv.vOpen x h
    · exact Or.inr (neighbors_mem_openCells (hmid.hadj x h))

/-- The invariant holds at BFS's seeded initial state, with ghost depth 0. -/
lemma bfsInv_init (g : Grid) (s en : Coordinate) :
    BfsInv g s en ⟨[s], [s], []⟩ (fun _ => 0) := by
  refine ⟨List.mem_singleton_self s, List.nodup_singleton _, fun c hc => hc,
    List.nodup_singleton _, ?_, ?_, ?_, List.pairwise_singleton _ _, ?_, ?_, ?_⟩
  · intro x
    constructor
    · intro h
      cases h
    · rintro ⟨h1, h2⟩
      rcases List.mem_singleton.mp h1 with rfl
      exact absurd rfl h2
  · intro x hx
    rcases List.mem_singleton.mp hx with rfl
    exact ⟨[x], rfl, path_singleton g x, rfl, fun c hc => hc⟩
  · intro x hx
    rcases List.mem_singleton.mp hx with rfl
    intro l hl
    have := path_length_pos hl
    omega
  · intro x hx hxq
    rcases List.mem_singleton.mp hx with rfl
    exact absurd (List.mem_singleton_self x) hxq
  · exact fun h => h
  · intro x hx
    rcases List.mem_singleton.mp hx with rfl
    exact Or.inl rfl

/-- The BFS main loop: from any invariant state, if the goal is reachable,
enough fuel produces a run whose last frame holds a shortest path. -/
lemma bfs_loop (g : Grid) (s en : Coordinate) :
    ∀ (fuel : Nat) (σ : BfsState) (D : Coordinate → Nat),
      BfsInv g s en σ D → Reachable g s en → bfsMeasure g σ < fuel →
      ∃ fs f, bfsRun fuel g en σ = some fs ∧ fs.getLast? = some f ∧
        IsPath g s en f.path ∧ (∀ l, IsPath g s en l → f.path.length ≤ l.length) := by
  intro fuel
  induction fuel with
  | zero =>
    intro σ D hInv hre hM
    omega
  | succ m ih =>
    intro σ D hInv hre hM
    obtain ⟨q, v, pm⟩ := σ
    match q with
    | [] =>
      exfalso
      obtain ⟨l, hl⟩ := hre
      have henv : en ∉ v := by
        intro h
        exact absurd (hInv.enQueue h) (List.not_mem_nil en)
      obtain ⟨a, b, l1, ha, hb, hab, _, _⟩ := path_exit v hl hInv.sVis henv
      exact hb (hInv.processed a ha (List.not_mem_nil a) b hab)
    | c :: rest =>
      by_cases hc : c = en
      · have hcv : c ∈ v := hInv.qSub c (List.mem_cons_self _ _)
        obtain ⟨l, hrec, hpath, hlen, _⟩ := hInv.recon c hcv
        have hfin : bfsRun (m + 1) g en ⟨c :: rest, v, pm⟩ =
            some [⟨v, [], l, none⟩] := by
          show (if c = en then
              (reconstructPath (pm.length + 1) pm c).map
                (fun p => ([⟨v, [], p, none⟩] : List Frame))
            else
              (bfsRun m g en (bfsExpand c ⟨rest, v, pm⟩ (getNeighbors g c))).map
                (fun fs => (⟨v, rest, [], some c⟩ : Frame) :: fs)) = _
          rw [if_pos hc, hrec]
          rfl
        refine ⟨[⟨v, [], l, none⟩], ⟨v, [], l, none⟩, hfin, rfl, ?_, ?_⟩
        · show IsPath g s en l
          rw [← hc]
          exact hpath
        · intro l' hl'
          have hl'' : IsPath g s c l' := by
            rw [hc]
            exact hl'
          have := hInv.minD c hcv l' hl''
          show l.length ≤ l'.length
          omega
      · obtain ⟨D', new, hInv', hv', hq', hopen⟩ :=
          bfsExpand_step g s en c rest v pm D hInv hc
        have hlen_v : v.length + new.length ≤ (openCells g).length + 1 := by
          have hsub : v ++ new ⊆ s :: openCells g := by
            intro x hx
            rcases hInv'.vOpen x (by rw [hv']; exact hx) with h | h
            · rw [h]
              exact List.mem_cons_self _ _
            · exact List.mem_cons_of_mem _ h
          have hnd : (v ++ new).Nodup := by
            rw [← hv']
            exact hInv'.vNodup
          have hle := (List.Nodup.subperm hnd hsub).length_le
          rw [List.length_append] at hle
          simpa using hle
        have hM' : bfsMeasure g (bfsExpand c ⟨rest, v, pm⟩ (getNeighbors g c)) <
            bfsMeasure g ⟨c :: rest, v, pm⟩ := by
          unfold bfsMeasure
          rw [hv', hq']
          simp only [List.length_append, List.length_cons]
          omega
        obtain ⟨fs', f, hrun, hlast, hp1, hp2⟩ := ih _ D' hInv' hre (by
          have : bfsMeasure g ⟨c :: rest, v, pm⟩ < m + 1 := hM
          omega)
        have hstep : bfsRun (m + 1) g en ⟨c :: rest, v, pm⟩ =
            some ((⟨v, rest, [], some c⟩ : Frame) :: fs') := by
          show (if c = en then
              (reconstructPath (pm.length + 1) pm c).map
                (fun p => ([⟨v, [], p, none⟩] : List Frame))
            else
              (bfsRun m g en (bfsExpand c ⟨rest, v, pm⟩ (getNeighbors g c))).map
                (fun fs => (⟨v, rest, [], some c⟩ : Frame) :: fs)) = _
          rw [if_neg hc, hrun]
          rfl
        refine ⟨_, f, hstep, ?_, hp1, hp2⟩
        cases fs' with
        | nil => cases hlast
        | cons a t =>
          rw [List.getLast?_cons_cons]
          exact hlast

/-- **C5** (confirmed).  On every rectangular grid where the goal is
reachable from the start, BFS terminates and its final frame's path is a
genuine path from start to goal of minimum length — its edge count is the
true shortest-path distance over the 4-connected open cells. -/
theorem bfs_shortest_path (g : Grid) (s en : Coordinate) (_hrect : Rect g)
    (hre : Reachable g s en) :
    ∃ fuel fs f, bfsFrames fuel g s en = some fs ∧ fs.getLast? = some f ∧
      IsPath g s en f.path ∧ ∀ l, IsPath g s en l → f.path.length ≤ l.length := by
  have hInv0 := bfsInv_init g s en
  obtain ⟨fs, f, h1, h2, h3, h4⟩ := bfs_loop g s en
    (bfsMeasure g ⟨[s], [s], []⟩ + 1) ⟨[s], [s], []⟩ _ hInv0 hre (Nat.lt_succ_self _)
  exact ⟨_, fs, f, h1, h2, h3, h4⟩

/-- **C5**, witness: BFS on the 1×3 corridor, with the explicit length-3
shortest path. -/
theorem bfs_shortest_path_witness :
    (Rect corridorGrid ∧ IsPath corridorGrid ⟨0, 0⟩ ⟨2, 0⟩ [⟨0, 0⟩, ⟨1, 0⟩, ⟨2, 0⟩]) ∧
    (∃ fuel fs f, bfsFrames fuel corridorGrid ⟨0, 0⟩ ⟨2, 0⟩ = some fs ∧
      fs.getLast? = some f ∧ IsPath corridorGrid ⟨0, 0⟩ ⟨2, 0⟩ f.path ∧
      ∀ l, IsPath corridorGrid ⟨0, 0⟩ ⟨2, 0⟩ l → f.path.length ≤ l.length) :=
  ⟨⟨by decide, by decide⟩,
    bfs_shortest_path corridorGrid ⟨0, 0⟩ ⟨2, 0⟩ (by decide)
      ⟨[⟨0, 0⟩, ⟨1, 0⟩, ⟨2, 0⟩], by decide⟩⟩

lemma le_foldr_max : ∀ (l : List Nat), ∀ x ∈ l, x ≤ l.foldr max 0 := by
  intro l
  induction l with
  | nil => intro x hx; cases hx
  | cons a t ih =>
    intro x hx
    rcases List.mem_cons.mp hx with rfl | hx'
    · exact Nat.le_max_left _ _
    · exact Nat.le_trans (ih x hx') (Nat.le_max_right _ _)

lemma stableInsert_mem {α : Type} (key : α → Nat) (a x : α) :
    ∀ l : List α, x ∈ stableInsert key a l ↔ x = a ∨ x ∈ l := by
  intro l
  induction l with
  | nil =>
    show x ∈ [a] ↔ x = a ∨ x ∈ ([] : List α)
    simp
  | cons b t ih =>
    show x ∈ (if key b ≤ key a then b :: stableInsert key a t else a :: b :: t) ↔ _
    by_cases h : key b ≤ key a
    · rw [if_pos h]
      simp only [List.mem_cons, ih]
      tauto
    · rw [if_neg h]
      simp only [List.mem_cons]

lemma stableInsert_length {α : Type} (key : α → Nat) (a : α) :
    ∀ l : List α, (stableInsert key a l).length = l.length + 1 := by
  intro l
  induction l with
  | nil => rfl
  | cons b t ih =>
    show (if key b ≤ key a then b :: stableInsert key a t else a :: b :: t).length = _
    by_cases h : key b ≤ key a
    · rw [if_pos h]
      simp [ih]
    · rw [if_neg h]
      rfl

lemma stableSortBy_mem {α : Type} (key : α → Nat) (x : α) :
    ∀ l : List α, x ∈ stableSortBy key l ↔ x ∈ l := by
  intro l
  induction l with
  | nil => exact Iff.rfl
  | cons a t ih =>
    show x ∈ stableInsert key a (stableSortBy key t) ↔ _
    rw [stableInsert_mem, ih]
    simp

lemma stableSortBy_length {α : Type} (key : α → Nat) :
    ∀ l : List α, (stableSortBy key l).length = l.length := by
  intro l
  induction l with
  | nil => rfl
  | cons a t ih =>
    show (stableInsert key a (stableSortBy key t)).length = _
    rw [stableInsert_length, ih]
    rfl

lemma getNeighbors_length_le (g : Grid) (c : Coordinate) :
    (getNeighbors g c).length ≤ 4 := by
  have := List.length_filterMap_le (fun d : Coordinate =>
    let nx := c.x + d.x
    let ny := c.y + d.y
    if 0 ≤ nx ∧ nx < ((g.headD []).length : Int) ∧ 0 ≤ ny ∧ ny < (g.length : Int) then
      if ((g.getD ny.toNat []).getD nx.toNat ⟨CellType.WALL⟩).type ≠ CellType.WALL then
        some (⟨nx, ny⟩ : Coordinate)
      else none
    else none) dirs
  exact this

lemma pmFind_append (pm1 pm2 : ParentMap) (k : Coordinate) :
    pmFind (pm1 ++ pm2) k = match pmFind pm1 k with
      | some w => some w
      | none => pmFind pm2 k := by
  induction pm1 with
  | nil => rfl
  | cons e t ih =>
    obtain ⟨k', w⟩ := e
    rw [List.cons_append, pmFind_cons, pmFind_cons]
    by_cases h : k' = k
    · rw [if_pos h, if_pos h]
    · rw [if_neg h, if_neg h]
      exact ih

lemma pmFind_isSome_iff_keys (k : Coordinate) :
    ∀ pm : ParentMap, (pmFind pm k).isSome = true ↔ k ∈ biKeys pm := by
  intro pm
  induction pm with
  | nil =>
    constructor
    · intro h; cases h
    · intro h; cases h
  | cons e t ih =>
    obtain ⟨k', w⟩ := e
    rw [pmFind_cons]
    show (if k' = k then some w else pmFind t k).isSome = true ↔ k ∈ k' :: biKeys t
    by_cases h : k' = k
    · rw [if_pos h]
      simp [h]
    · rw [if_neg h]
      rw [List.mem_cons, ih]
      constructor
      · exact Or.inr
      · rintro (rfl | hm)
        · exact absurd rfl h
        · exact hm

lemma costMin_cases {a b : Option Nat} {c : Nat} (h : costMin a b = some c) :
    a = some c ∨ b = some c := by
  match a, b with
  | none, _ =>
    right
    exact h
  | some x, none =>
    left
    exact h
  | some x, some m =>
    have h' : (if x < m then some x else some m) = some c := h
    by_cases hxm : x < m
    · rw [if_pos hxm] at h'
      exact Or.inl h'
    · rw [if_neg hxm] at h'
      exact Or.inr h'

lemma path_mem_open {g : Grid} :
    ∀ {l : List Coordinate} {a b : Coordinate}, IsPath g a b l →
      ∀ c ∈ l, c = a ∨ c ∈ openCells g := by
  intro l
  induction l with
  | nil => intro a b h; exact fun c hc => absurd hc (List.not_mem_nil c)
  | cons c0 t ih =>
    intro a b h x hx
    have hc0 : c0 = a := Option.some_injective _ h.2.1
    cases t with
    | nil =>
      rcases List.mem_singleton.mp hx with rfl
      exact Or.inl hc0
    | cons c2 t2 =>
      have hadj : Adj g c0 c2 := (List.chain'_cons.mp h.2.2.2).1
      have htail : IsPath g c2 b (c2 :: t2) := by
        refine ⟨List.cons_ne_nil _ _, rfl, ?_, (List.chain'_cons.mp h.2.2.2).2⟩
        have := h.2.2.1
        rw [List.getLast?_cons_cons] at this
        exact this
      rcases List.mem_cons.mp hx with rfl | hx'
      · exact Or.inl hc0
      · rcases ih htail x hx' with rfl | ho
        · exact Or.inr (neighbors_mem_openCells hadj)
        · exact Or.inr ho

lemma path_trans : ∀ {l2 : List Coordinate} {g : Grid} {a b c : Coordinate}
    {l1 : List Coordinate}, IsPath g a b l1 → IsPath g b c l2 →
    IsPath g a c (l1 ++ l2.tail) := by
  intro l2
  induction l2 with
  | nil => intro g a b c l1 _ h2; exact absurd rfl h2.1
  | cons b' t ih =>
    intro g a b c l1 h1 h2
    have hb : b' = b := Option.some_injective _ h2.2.1
    subst hb
    cases t with
    | nil =>
      have hbc : b' = c := Option.some_injective _ h2.2.2.1
      subst hbc
      show IsPath g a b' (l1 ++ [])
      rw [List.append_nil]
      exact h1
    | cons c2 t2 =>
      have hadj : Adj g b' c2 := (List.chain'_cons.mp h2.2.2.2).1
      have htail : IsPath g c2 c (c2 :: t2) := by
        refine ⟨List.cons_ne_nil _ _, rfl, ?_, (List.chain'_cons.mp h2.2.2.2).2⟩
        have := h2.2.2.1
        rw [List.getLast?_cons_cons] at this
        exact this
      have h1' := path_snoc h1 hadj
      have hfin := ih h1' htail
      show IsPath g a c (l1 ++ (c2 :: t2))
      rw [show l1 ++ (c2 :: t2) = (l1 ++ [c2]) ++ t2 by
        rw [List.append_assoc]; rfl]
      exact hfin

lemma adj_symm {g : Grid} {a b : Coordinate} (h : Adj g a b)
    (ha : a ∈ openCells g) : Adj g b a := by
  obtain ⟨d, hd, hb, _, _, _, _, _⟩ := mem_getNeighbors.mp h
  obtain ⟨hx0, hx1, hy0, hy1, hw⟩ := mem_openCells.mp ha
  refine mem_getNeighbors.mpr ⟨⟨-d.x, -d.y⟩, ?_, ?_, hx0, hx1, hy0, hy1, hw⟩
  · have : d = ⟨0, -1⟩ ∨ d = ⟨0, 1⟩ ∨ d = ⟨-1, 0⟩ ∨ d = ⟨1, 0⟩ := by
      rcases List.mem_cons.mp hd with h1 | h1
      · exact Or.inl h1
      rcases List.mem_cons.mp h1 with h2 | h2
      · exact Or.inr (Or.inl h2)
      rcases List.mem_cons.mp h2 with h3 | h3
      · exact Or.inr (Or.inr (Or.inl h3))
      rcases List.mem_cons.mp h3 with h4 | h4
      · exact Or.inr (Or.inr (Or.inr h4))
      · cases h4
    rcases this with rfl | rfl | rfl | rfl
    · show (⟨0, 1⟩ : Coordinate) ∈ dirs
      decide
    · show (⟨0, -1⟩ : Coordinate) ∈ dirs
      decide
    · show (⟨1, 0⟩ : Coordinate) ∈ dirs
      decide
    · show (⟨-1, 0⟩ : Coordinate) ∈ dirs
      decide
  · have ebx : b.x = a.x + d.x := by rw [hb]
    have eby : b.y = a.y + d.y := by rw [hb]
    obtain ⟨ax, ay⟩ := a
    show Coordinate.mk ax ay = ⟨b.x + -d.x, b.y + -d.y⟩
    rw [ebx, eby]
    show Coordinate.mk ax ay = ⟨ax + d.x + -d.x, ay + d.y + -d.y⟩
    have e1 : ax + d.x + -d.x = ax := by omega
    have e2 : ay + d.y + -d.y = ay := by omega
    rw [e1, e2]

lemma path_reverse {g : Grid} :
    ∀ {l : List Coordinate} {a b : Coordinate}, IsPath g a b l →
      a ∈ openCells g → IsPath g b a l.reverse := by
  intro l
  induction l with
  | nil => intro a b h _; exact absurd rfl h.1
  | cons c0 t ih =>
    intro a b h ha
    have hc0 : c0 = a := Option.some_injective _ h.2.1
    subst hc0
    cases t with
    | nil =>
      have hab : c0 = b := Option.some_injective _ h.2.2.1
      show IsPath g b c0 [c0]
      rw [← hab]
      exact path_singleton g c0
    | cons c2 t2 =>
      have hadj : Adj g c0 c2 := (List.chain'_cons.mp h.2.2.2).1
      have hc2o : c2 ∈ openCells g := neighbors_mem_openCells hadj
      have htail : IsPath g c2 b (c2 :: t2) := by
        refine ⟨List.cons_ne_nil _ _, rfl, ?_, (List.chain'_cons.mp h.2.2.2).2⟩
        have := h.2.2.1
        rw [List.getLast?_cons_cons] at this
        exact this
      have hrev := ih htail hc2o
      have hback : Adj g c2 c0 := adj_symm hadj ha
      have := path_snoc hrev hback
      show IsPath g b c0 ((c0 :: c2 :: t2).reverse)
      rw [List.reverse_cons]
      exact this

/-- `dfsExpand` computes the same fields as `bfsExpand` (the two neighbour
loops differ only in the field name of the work list). -/
lemma dfs_bfs_expand (c : Coordinate) :
    ∀ (ns q v : List Coordinate) (pm : ParentMap),
      dfsExpand c ⟨q, v, pm⟩ ns =
        ⟨(bfsExpand c ⟨q, v, pm⟩ ns).queue, (bfsExpand c ⟨q, v, pm⟩ ns).visitedSet,
          (bfsExpand c ⟨q, v, pm⟩ ns).parentMap⟩ := by
  intro ns
  induction ns with
  | nil => intro q v pm; rfl
  | cons n t ih =>
    intro q v pm
    show (if n ∈ v then dfsExpand c ⟨q, v, pm⟩ t
      else dfsExpand c ⟨q ++ [n], v ++ [n], (n, some c) :: pm⟩ t) = _
    by_cases hn : n ∈ v
    · rw [if_pos hn]
      have hb : bfsExpand c ⟨q, v, pm⟩ (n :: t) = bfsExpand c ⟨q, v, pm⟩ t := by
        show (if n ∈ v then bfsExpand c ⟨q, v, pm⟩ t
          else bfsExpand c ⟨q ++ [n], v ++ [n], (n, some c) :: pm⟩ t) = _
        rw [if_pos hn]
      rw [hb]
      exact ih q v pm
    · rw [if_neg hn]
      have hb : bfsExpand c ⟨q, v, pm⟩ (n :: t) =
          bfsExpand c ⟨q ++ [n], v ++ [n], (n, some c) :: pm⟩ t := by
        show (if n ∈ v then bfsExpand c ⟨q, v, pm⟩ t
          else bfsExpand c ⟨q ++ [n], v ++ [n], (n, some c) :: pm⟩ t) = _
        rw [if_neg hn]
      rw [hb]
      exact ih _ _ _

/-- One DFS expansion step preserves the invariant data. -/
lemma dfsExpand_step (g : Grid) (s c : Coordinate) (rest v : List Coordinate)
    (pm : ParentMap)
    (hsv : s ∈ v) (hvnd : v.Nodup) (hrsub : ∀ x ∈ rest, x ∈ v)
    (hrecon : ∀ x ∈ v, ∃ l, reconstructPath (pm.length + 1) pm x = some l ∧
      IsPath g s x l ∧ ∀ d ∈ l, d ∈ v)
    (hvopen : ∀ x ∈ v, x = s ∨ x ∈ openCells g)
    (hcv : c ∈ v)
    (ns : List Coordinate) (hadj : ∀ n ∈ ns, Adj g c n) :
    ∃ new, DfsInv g s (dfsExpand c ⟨rest, v, pm⟩ ns) ∧
      (dfsExpand c ⟨rest, v, pm⟩ ns).visitedSet = v ++ new ∧
      (dfsExpand c ⟨rest, v, pm⟩ ns).stack = rest ++ new ∧
      ∀ n ∈ new, n ∈ openCells g := by
  have hmid0 : BfsMid g s c v pm rest ⟨rest, v, pm⟩ [] := by
    refine ⟨?_, ?_, by simp, by simp, List.nodup_nil, by simp, fun x _ => rfl, by simp⟩
    · show v = v ++ []
      rw [List.append_nil]
    · show rest = rest ++ []
      rw [List.append_nil]
  obtain ⟨new, hmid, _, _⟩ := bfsExpand_mid g s c v pm rest ns ⟨rest, v, pm⟩ [] hmid0 hadj
  rw [List.nil_append] at hmid
  rw [dfs_bfs_expand]
  refine ⟨new, ⟨?_, ?_, ?_, ?_, ?_⟩, hmid.hv, hmid.hq,
    fun n hn => neighbors_mem_openCells (hmid.hadj n hn)⟩
  · show s ∈ (bfsExpand c ⟨rest, v, pm⟩ ns).visitedSet
    rw [hmid.hv]
    exact List.mem_append_left _ hsv
  · show (bfsExpand c ⟨rest, v, pm⟩ ns).visitedSet.Nodup
    rw [hmid.hv, List.nodup_append]
    exact ⟨hvnd, hmid.hnodup, fun a ha hb => hmid.hfresh a hb ha⟩
  · intro x hx
    show x ∈ (bfsExpand c ⟨rest, v, pm⟩ ns).visitedSet
    have hx' : x ∈ (bfsExpand c ⟨rest, v, pm⟩ ns).queue := hx
    rw [hmid.hq] at hx'
    rw [hmid.hv]
    rcases List.mem_append.mp hx' with h | h
    · exact List.mem_append_left _ (hrsub x h)
    · exact List.mem_append_right _ h
  · intro x hx
    have hx' : x ∈ (bfsExpand c ⟨rest, v, pm⟩ ns).visitedSet := hx
    rw [hmid.hv] at hx'
    rcases List.mem_append.mp hx' with hxv | hxnew'
    · obtain ⟨l, hrec, hpath, hsubv⟩ := hrecon x hxv
      have hrec1 : reconstructPath (pm.length + 1) (bfsExpand c ⟨rest, v, pm⟩
          ns).parentMap x = some l :=
        reconstructPath_congr hrec
          (fun y hy => hmid.hpmold y (fun hyc => hmid.hfresh y hyc (hsubv y hy)))
      have hrec2 : reconstructPath ((bfsExpand c ⟨rest, v, pm⟩
          ns).parentMap.length + 1) (bfsExpand c ⟨rest, v, pm⟩
          ns).parentMap x = some l :=
        reconstructPath_mono hrec1 (by rw [hmid.hpmlen]; omega)
      refine ⟨l, hrec2, hpath, ?_⟩
      intro y hy
      show y ∈ (bfsExpand c ⟨rest, v, pm⟩ ns).visitedSet
      rw [hmid.hv]
      exact List.mem_append_left _ (hsubv y hy)
    · obtain ⟨lc, hrecc, hpathc, hsubc⟩ := hrecon c hcv
      have hrecc1 : reconstructPath (pm.length + 1) (bfsExpand c ⟨rest, v, pm⟩
          ns).parentMap c = some lc :=
        reconstructPath_congr hrecc
          (fun y hy => hmid.hpmold y (fun hyc => hmid.hfresh y hyc (hsubc y hy)))
      have hnlen : 1 ≤ new.length :=
        List.length_pos.mpr (List.ne_nil_of_mem hxnew')
      have hrecc2 : reconstructPath (pm.length + new.length) (bfsExpand c ⟨rest, v, pm⟩
          ns).parentMap c = some lc :=
        reconstructPath_mono hrecc1 (by omega)
      refine ⟨lc ++ [x], ?_, path_snoc hpathc (hmid.hadj x hxnew'), ?_⟩
      · rw [hmid.hpmlen]
        show (match pmFind (bfsExpand c ⟨rest, v, pm⟩ ns).parentMap x with
          | some (some p) => (reconstructPath (pm.length + new.length)
              (bfsExpand c ⟨rest, v, pm⟩ ns).parentMap p).map
              (fun l => l ++ [x])
          | _ => some [x]) = some (lc ++ [x])
        rw [hmid.hpmnew x hxnew']
        show (reconstructPath (pm.length + new.length) (bfsExpand c ⟨rest, v, pm⟩
            ns).parentMap c).map (fun l => l ++ [x]) = some (lc ++ [x])
        rw [hrecc2]
        rfl
      · intro y hy
        show y ∈ (bfsExpand c ⟨rest, v, pm⟩ ns).visitedSet
        rw [hmid.hv]
        rcases List.mem_append.mp hy with hy' | hy'
        · exact List.mem_append_left _ (hsubc y hy')
        · rcases List.mem_singleton.mp hy' with rfl
          exact List.mem_append_right _ hxnew'
  · intro x hx
    have hx' : x ∈ (bfsExpand c ⟨rest, v, pm⟩ ns).visitedSet := hx
    rw [hmid.hv] at hx'
    rcases List.mem_append.mp hx' with h | h
    · exact hvopen x h
    · exact Or.inr (neighbors_mem_openCells (hmid.hadj x h))

/-- The DFS invariant holds at the seeded initial state. -/
lemma dfsInv_init (g : Grid) (s : Coordinate) : DfsInv g s ⟨[s], [s], []⟩ := by
  refine ⟨List.mem_singleton_self s, List.nodup_singleton _, fun c hc => hc, ?_, ?_⟩
  · intro x hx
    rcases List.mem_singleton.mp hx with rfl
    exact ⟨[x], rfl, path_singleton g x, fun c hc => hc⟩
  · intro x hx
    rcases List.mem_singleton.mp hx with rfl
    exact Or.inl rfl

/-- When the goal is unreachable, DFS terminates from any invariant state,
and no yielded branch path ends at the goal. -/
lemma dfs_unreach_run (g : Grid) (s en : Coordinate) (hnr : ¬ Reachable g s en) :
    ∀ (fuel : Nat) (σ : DfsState), DfsInv g s σ → dfsMeasure g σ < fuel →
      ∃ fs, dfsRun fuel g en σ = some fs ∧
        ∀ f ∈ fs, f.path.getLast? ≠ some en := by
  intro fuel
  induction fuel with
  | zero =>
    intro σ _ hM
    omega
  | succ m ih =>
    intro σ hInv hM
    obtain ⟨stack, v, pm⟩ := σ
    cases hg : stack.getLast? with
    | none =>
      refine ⟨[], ?_, by simp⟩
      show (match stack.getLast? with
        | none => some ([] : List Frame)
        | some current =>
          if current = en then
            (reconstructPath (pm.length + 1) pm current).map
              (fun p => [⟨v, [], p, none⟩])
          else
            match reconstructPath (pm.length + 1) pm current with
            | none => none
            | some branch =>
              (dfsRun m g en (dfsExpand current ⟨stack.dropLast, v, pm⟩
                (getNeighbors g current).reverse)).map
                (fun fs => ⟨v, stack.dropLast, branch, some current⟩ :: fs)) = some []
      rw [hg]
    | some c =>
      have hcv : c ∈ v := hInv.stackSub c (memGetLast hg)
      obtain ⟨lc, hrecc, hpathc, hsubc⟩ := hInv.recon c hcv
      have hcen : c ≠ en := fun h => hnr ⟨lc, h ▸ hpathc⟩
      have hadj : ∀ n ∈ (getNeighbors g c).reverse, Adj g c n := by
        intro n hn
        exact List.mem_reverse.mp hn
      obtain ⟨new, hInv', hv', hq', hopen⟩ := dfsExpand_step g s c stack.dropLast v pm
        hInv.sVis hInv.vNodup
        (fun x hx => hInv.stackSub x ((List.dropLast_sublist stack).subset hx))
        hInv.recon hInv.vOpen hcv (getNeighbors g c).reverse hadj
      have hne : stack ≠ [] := by
        intro h
        rw [h] at hg
        cases hg
      have hlen_v : v.length + new.length ≤ (openCells g).length + 1 := by
        have hsub : v ++ new ⊆ s :: openCells g := by
          intro x hx
          rcases hInv'.vOpen x (by rw [hv']; exact hx) with h | h
          · rw [h]
            exact List.mem_cons_self _ _
          · exact List.mem_cons_of_mem _ h
        have hnd : (v ++ new).Nodup := by
          rw [← hv']
          exact hInv'.vNodup
        have hle := (List.Nodup.subperm hnd hsub).length_le
        rw [List.length_append] at hle
        simpa using hle
      have hM' : dfsMeasure g (dfsExpand c ⟨stack.dropLast, v, pm⟩
          (getNeighbors g c).reverse) < dfsMeasure g ⟨stack, v, pm⟩ := by
        unfold dfsMeasure
        rw [hv', hq']
        simp only [List.length_append, List.length_dropLast]
        have hsl : 1 ≤ stack.length := by
          cases stack with
          | nil => exact absurd rfl hne
          | cons a t => simp
        omega
      obtain ⟨fs', hrun', hfs'⟩ := ih _ hInv' (by
        have : dfsMeasure g ⟨stack, v, pm⟩ < m + 1 := hM
        omega)
      have hrecc' : reconstructPath (pm.length + 1) pm c = some lc := hrecc
      refine ⟨⟨v, stack.dropLast, lc, some c⟩ :: fs', ?_, ?_⟩
      · have step1 : dfsRun (m + 1) g en ⟨stack, v, pm⟩ =
            match reconstructPath (pm.length + 1) pm c with
            | none => none
            | some branch =>
              (dfsRun m g en (dfsExpand c ⟨stack.dropLast, v, pm⟩
                (getNeighbors g c).reverse)).map
                (fun fs => ⟨v, stack.dropLast, branch, some c⟩ :: fs) := by
          show (match stack.getLast? with
            | none => some ([] : List Frame)
            | some current =>
              if current = en then
                (reconstructPath (pm.length + 1) pm current).map
                  (fun p => [⟨v, [], p, none⟩])
              else
                match reconstructPath (pm.length + 1) pm current with
                | none => none
                | some branch =>
                  (dfsRun m g en (dfsExpand current ⟨stack.dropLast, v, pm⟩
                    (getNeighbors g current).reverse)).map
                    (fun fs => ⟨v, stack.dropLast, branch, some current⟩ :: fs)) = _
          rw [hg]
          show (if c = en then
              (reconstructPath (pm.length + 1) pm c).map
                (fun p => [⟨v, [], p, none⟩])
            else
              match reconstructPath (pm.length + 1) pm c with
              | none => none
              | some branch =>
                (dfsRun m g en (dfsExpand c ⟨stack.dropLast, v, pm⟩
                  (getNeighbors g c).reverse)).map
                  (fun fs => ⟨v, stack.dropLast, branch, some c⟩ :: fs)) = _
          rw [if_neg hcen]
        rw [step1, hrecc']
        show (dfsRun m g en (dfsExpand c ⟨stack.dropLast, v, pm⟩
          (getNeighbors g c).reverse)).map
          (fun fs => ⟨v, stack.dropLast, lc, some c⟩ :: fs) = _
        rw [hrun']
        rfl
      · intro f hf
        rcases List.mem_cons.mp hf with rfl | hf'
        · show lc.getLast? ≠ some en
          obtain ⟨l0, rfl⟩ := reconstructPath_last hrecc
          rw [List.getLast?_concat]
          intro h
          exact hcen (Option.some_injective _ h)
        · exact hfs' f hf'

/-- When the goal is unreachable, BFS terminates from any invariant state
and every yielded frame's path is empty. -/
lemma bfs_unreach_run (g : Grid) (s en : Coordinate) (hnr : ¬ Reachable g s en) :
    ∀ (fuel : Nat) (σ : BfsState) (D : Coordinate → Nat), BfsInv g s en σ D →
      bfsMeasure g σ < fuel →
      ∃ fs, bfsRun fuel g en σ = some fs ∧ ∀ f ∈ fs, f.path = [] := by
  intro fuel
  induction fuel with
  | zero =>
    intro σ D _ hM
    omega
  | succ m ih =>
    intro σ D hInv hM
    obtain ⟨q, v, pm⟩ := σ
    match q with
    | [] => exact ⟨[], rfl, by simp⟩
    | c :: rest =>
      have hcv : c ∈ v := hInv.qSub c (List.mem_cons_self _ _)
      obtain ⟨lc, _, hpathc, _, _⟩ := hInv.recon c hcv
      have hcen : c ≠ en := fun h => hnr ⟨lc, h ▸ hpathc⟩
      obtain ⟨D', new, hInv', hv', hq', hopen⟩ :=
        bfsExpand_step g s en c rest v pm D hInv hcen
      have hlen_v : v.length + new.length ≤ (openCells g).length + 1 := by
        have hsub : v ++ new ⊆ s :: openCells g := by
          intro x hx
          rcases hInv'.vOpen x (by rw [hv']; exact hx) with h | h
          · rw [h]
            exact List.mem_cons_self _ _
          · exact List.mem_cons_of_mem _ h
        have hnd : (v ++ new).Nodup := by
          rw [← hv']
          exact hInv'.vNodup
        have hle := (List.Nodup.subperm hnd hsub).length_le
        rw [List.length_append] at hle
        simpa using hle
      obtain ⟨fs', hrun', hfs'⟩ := ih _ D' hInv' (by
        have h1 : bfsMeasure g ⟨c :: rest, v, pm⟩ < m + 1 := hM
        unfold bfsMeasure at h1 ⊢
        rw [hv', hq']
        simp only [List.length_append, List.length_cons] at h1 ⊢
        omega)
      refine ⟨⟨v, rest, [], some c⟩ :: fs', ?_, ?_⟩
      · show (if c = en then
            (reconstructPath (pm.length + 1) pm c).map
              (fun p => ([⟨v, [], p, none⟩] : List Frame))
          else
            (bfsRun m g en (bfsExpand c ⟨rest, v, pm⟩ (getNeighbors g c))).map
              (fun fs => (⟨v, rest, [], some c⟩ : Frame) :: fs)) = _
        rw [if_neg hcen, hrun']
        rfl
      · intro f hf
        rcases List.mem_cons.mp hf with rfl | hf'
        · rfl
        · exact hfs' f hf'

/-- The relaxation loop appends at most one entry per neighbour to the
priority queue, each entry's coordinate drawn from the neighbour list. -/
lemma wRelax_pq (g : Grid) (en : Coordinate) (config : WeightedConfig)
    (c : Coordinate) (cg : Nat) :
    ∀ (ns : List Coordinate) (σ : WState),
      ∃ pushed, (wRelax g en config c cg σ ns).pq = σ.pq ++ pushed ∧
        pushed.length ≤ ns.length ∧ ∀ e ∈ pushed, e.coord ∈ ns := by
  intro ns
  induction ns with
  | nil =>
    intro σ
    exact ⟨[], (List.append_nil _).symm, by simp, by simp⟩
  | cons n t ih =>
    intro σ
    show ∃ pushed, (if n ∈ σ.visitedSet then wRelax g en config c cg σ t
      else if (match distFind σ.distMap n with
          | none => true
          | some existingG => decide (cg + 1 < existingG)) = true then
        wRelax g en config c cg
          { σ with
            distMap := (n, cg + 1) :: σ.distMap
            parentMap := (n, some c) :: σ.parentMap
            pq := σ.pq ++ [⟨n, (if config.usePathCost then cg + 1 else 0) +
              config.heuristicWeight * heuristic n en, cg + 1⟩] } t
      else wRelax g en config c cg σ t).pq = σ.pq ++ pushed ∧
        pushed.length ≤ (n :: t).length ∧ ∀ e ∈ pushed, e.coord ∈ n :: t
    by_cases hn : n ∈ σ.visitedSet
    · rw [if_pos hn]
      obtain ⟨p, h1, h2, h3⟩ := ih σ
      exact ⟨p, h1, Nat.le_succ_of_le h2,
        fun e he => List.mem_cons_of_mem _ (h3 e he)⟩
    · rw [if_neg hn]
      by_cases him : (match distFind σ.distMap n with
        | none => true
        | some existingG => decide (cg + 1 < existingG)) = true
      · rw [if_pos him]
        obtain ⟨p, h1, h2, h3⟩ := ih
          { σ with
            distMap := (n, cg + 1) :: σ.distMap
            parentMap := (n, some c) :: σ.parentMap
            pq := σ.pq ++ [⟨n, (if config.usePathCost then cg + 1 else 0) +
              config.heuristicWeight * heuristic n en, cg + 1⟩] }
        refine ⟨⟨n, (if config.usePathCost then cg + 1 else 0) +
          config.heuristicWeight * heuristic n en, cg + 1⟩ :: p, ?_, ?_, ?_⟩
        · rw [h1]
          show (σ.pq ++ [⟨n, (if config.usePathCost then cg + 1 else 0) +
            config.heuristicWeight * heuristic n en, cg + 1⟩]) ++ p = _
          rw [List.append_assoc]
          rfl
        · show p.length + 1 ≤ t.length + 1
          omega
        · intro e he
          rcases List.mem_cons.mp he with rfl | he'
          · exact List.mem_cons_self _ _
          · exact List.mem_cons_of_mem _ (h3 e he')
      · rw [if_neg him]
        obtain ⟨p, h1, h2, h3⟩ := ih σ
        exact ⟨p, h1, Nat.le_succ_of_le h2,
          fun e he => List.mem_cons_of_mem _ (h3 e he)⟩

/-- When the goal is unreachable, the weighted search (any configuration)
terminates from any invariant state and yields only empty paths. -/
lemma w_unreach_run (g : Grid) (s en : Coordinate) (config : WeightedConfig)
    (hnr : ¬ Reachable g s en) :
    ∀ (fuel : Nat) (σ : WState), WInv g s σ → wMeasure g σ < fuel →
      ∃ fs, wRun fuel g en config σ = some fs ∧ ∀ f ∈ fs, f.path = [] := by
  intro fuel
  induction fuel with
  | zero =>
    intro σ _ hM
    omega
  | succ m ih =>
    intro σ hInv hM
    obtain ⟨pq, dm, pm, v⟩ := σ
    cases hsort : stableSortBy (fun e => e.priority) pq with
    | nil =>
      refine ⟨[], ?_, by simp⟩
      show (match stableSortBy (fun e => e.priority) pq with
        | [] => some ([] : List Frame)
        | top :: rest =>
          if top.coord ∈ v then wRun m g en config ⟨rest, dm, pm, v⟩
          else
            if top.coord = en then
              (reconstructPath (pm.length + 1) pm top.coord).map
                (fun p => [⟨v ++ [top.coord], [], p, none⟩])
            else
              (wRun m g en config (wRelax g en config top.coord top.g
                ⟨rest, dm, pm, v ++ [top.coord]⟩ (getNeighbors g top.coord))).map
                (fun fs => ⟨v ++ [top.coord], rest.map (fun e => e.coord), [],
                  some top.coord⟩ :: fs)) = some []
      rw [hsort]
    | cons top rest =>
      have htop : top ∈ pq := (stableSortBy_mem _ _ _).mp
        (by rw [hsort]; exact List.mem_cons_self _ _)
      have hrest : ∀ e ∈ rest, e ∈ pq := fun e he => (stableSortBy_mem _ _ _).mp
        (by rw [hsort]; exact List.mem_cons_of_mem _ he)
      have hlen : rest.length + 1 = pq.length := by
        have := stableSortBy_length (fun e : PQEntry => e.priority) pq
        rw [hsort] at this
        simpa using this
      have step1 : wRun (m + 1) g en config ⟨pq, dm, pm, v⟩ =
          (if top.coord ∈ v then wRun m g en config ⟨rest, dm, pm, v⟩
          else
            if top.coord = en then
              (reconstructPath (pm.length + 1) pm top.coord).map
                (fun p => [⟨v ++ [top.coord], [], p, none⟩])
            else
              (wRun m g en config (wRelax g en config top.coord top.g
                ⟨rest, dm, pm, v ++ [top.coord]⟩ (getNeighbors g top.coord))).map
                (fun fs => ⟨v ++ [top.coord], rest.map (fun e => e.coord), [],
                  some top.coord⟩ :: fs)) := by
        show (match stableSortBy (fun e => e.priority) pq with
          | [] => some ([] : List Frame)
          | top :: rest =>
            if top.coord ∈ v then wRun m g en config ⟨rest, dm, pm, v⟩
            else
              if top.coord = en then
                (reconstructPath (pm.length + 1) pm top.coord).map
                  (fun p => [⟨v ++ [top.coord], [], p, none⟩])
              else
                (wRun m g en config (wRelax g en config top.coord top.g
                  ⟨rest, dm, pm, v ++ [top.coord]⟩ (getNeighbors g top.coord))).map
                  (fun fs => ⟨v ++ [top.coord],
                    rest.map (fun e : PQEntry => e.coord), [],
                    some top.coord⟩ :: fs)) = _
        rw [hsort]
      by_cases hv : top.coord ∈ v
      · have hInv' : WInv g s ⟨rest, dm, pm, v⟩ :=
          ⟨hInv.vNodup, hInv.vOpen, fun e he => hInv.pqOpen e (hrest e he),
            fun e he => hInv.pqReach e (hrest e he)⟩
        obtain ⟨fs, hrun, hfs⟩ := ih _ hInv' (by
          have h1 : wMeasure g ⟨pq, dm, pm, v⟩ < m + 1 := hM
          have h2 : wMeasure g ⟨pq, dm, pm, v⟩ =
              pq.length + 5 * ((openCells g).length + 1 - v.length) := rfl
          have h3 : wMeasure g ⟨rest, dm, pm, v⟩ =
              rest.length + 5 * ((openCells g).length + 1 - v.length) := rfl
          rw [h2] at h1
          rw [h3]
          omega)
        refine ⟨fs, ?_, hfs⟩
        rw [step1, if_pos hv]
        exact hrun
      · have hten : top.coord ≠ en := fun h => hnr (h ▸ hInv.pqReach top htop)
        obtain ⟨pushed, hpq2, hplen, hpc⟩ := wRelax_pq g en config top.coord top.g
          (getNeighbors g top.coord) ⟨rest, dm, pm, v ++ [top.coord]⟩
        have hvis2 : (wRelax g en config top.coord top.g
            ⟨rest, dm, pm, v ++ [top.coord]⟩ (getNeighbors g top.coord)).visitedSet =
            v ++ [top.coord] :=
          wRelax_visited g en config top.coord top.g (getNeighbors g top.coord) _
      
        have hvnd2 : (v ++ [top.coord]).Nodup := by
          rw [List.nodup_append]
          refine ⟨hInv.vNodup, List.nodup_singleton _, ?_⟩
          intro a ha hb
          rcases List.mem_singleton.mp hb with rfl
          exact hv ha
        have hvopen2 : ∀ x ∈ v ++ [top.coord], x = s ∨ x ∈ openCells g := by
          intro x hx
          rcases List.mem_append.mp hx with h | h
          · exact hInv.vOpen x h
          · rcases List.mem_singleton.mp h with rfl
            exact hInv.pqOpen top htop
        have hInv2 : WInv g s (wRelax g en config top.coord top.g
            ⟨rest, dm, pm, v ++ [top.coord]⟩ (getNeighbors g top.coord)) := by
          refine ⟨?_, ?_, ?_, ?_⟩
          · rw [hvis2]
            exact hvnd2
          · rw [hvis2]
            exact hvopen2
          · intro e he
            rw [hpq2] at he
            rcases List.mem_append.mp he with h | h
            · exact hInv.pqOpen e (hrest e h)
            · exact Or.inr (neighbors_mem_openCells (hpc e h))
          · intro e he
            rw [hpq2] at he
            rcases List.mem_append.mp he with h | h
            · exact hInv.pqReach e (hrest e h)
            · obtain ⟨lt, hlt⟩ := hInv.pqReach top htop
              exact ⟨lt ++ [e.coord], path_snoc hlt (hpc e h)⟩
        have hlen_v : v.length + 1 ≤ (openCells g).length + 1 := by
          have hsub : v ++ [top.coord] ⊆ s :: openCells g := by
            intro x hx
            rcases hvopen2 x hx with h | h
            · rw [h]
              exact List.mem_cons_self _ _
            · exact List.mem_cons_of_mem _ h
          have hle := (List.Nodup.subperm hvnd2 hsub).length_le
          rw [List.length_append] at hle
          simpa using hle
        have hnb := getNeighbors_length_le g top.coord
        obtain ⟨fs, hrun, hfs⟩ := ih _ hInv2 (by
          have h1 : wMeasure g ⟨pq, dm, pm, v⟩ < m + 1 := hM
          have h2 : wMeasure g ⟨pq, dm, pm, v⟩ =
              pq.length + 5 * ((openCells g).length + 1 - v.length) := rfl
          have h3 : wMeasure g (wRelax g en config top.coord top.g
              ⟨rest, dm, pm, v ++ [top.coord]⟩ (getNeighbors g top.coord)) =
              (wRelax g en config top.coord top.g
                ⟨rest, dm, pm, v ++ [top.coord]⟩ (getNeighbors g top.coord)).pq.length +
              5 * ((openCells g).length + 1 - (wRelax g en config top.coord top.g
                ⟨rest, dm, pm, v ++ [top.coord]⟩
                (getNeighbors g top.coord)).visitedSet.length) := rfl
          rw [h2] at h1
          rw [h3, hpq2, hvis2]
          have h4 : (rest ++ pushed).length = rest.length + pushed.length :=
            List.length_append _ _
          have h5 : (v ++ [top.coord]).length = v.length + 1 := by
            rw [List.length_append]
            rfl
          rw [h4, h5]
          omega)
        refine ⟨⟨v ++ [top.coord], rest.map (fun e => e.coord), [],
          some top.coord⟩ :: fs, ?_, ?_⟩
        · rw [step1, if_neg hv, if_neg hten, hrun]
          rfl
        · intro f hf
          rcases List.mem_cons.mp hf with rfl | hf'
          · rfl
          · exact hfs f hf'

/-- The bidirectional expansion loop, characterized: it appends to the map
the batch of previously unknown neighbours (keyed to the expanded node)
and the same batch to the queue. -/
lemma biExpand_mid (c : Coordinate) :
    ∀ (ns : List Coordinate) (vis : ParentMap) (q : List Coordinate),
      ∃ new, biExpand c vis q ns = (vis ++ new.map (fun n => (n, some c)), q ++ new) ∧
        new.Nodup ∧ ∀ n ∈ new, n ∈ ns ∧ pmFind vis n = none := by
  intro ns
  induction ns with
  | nil =>
    intro vis q
    refine ⟨[], ?_, List.nodup_nil, by simp⟩
    show (vis, q) = (vis ++ [], q ++ [])
    rw [List.append_nil, List.append_nil]
  | cons n t ih =>
    intro vis q
    show ∃ new, (if (pmFind vis n).isSome then biExpand c vis q t
      else biExpand c (vis ++ [(n, some c)]) (q ++ [n]) t) =
        (vis ++ new.map (fun x => (x, some c)), q ++ new) ∧
      new.Nodup ∧ ∀ x ∈ new, x ∈ n :: t ∧ pmFind vis x = none
    by_cases hn : (pmFind vis n).isSome = true
    · rw [if_pos hn]
      obtain ⟨new, h1, h2, h3⟩ := ih vis q
      exact ⟨new, h1, h2,
        fun m hm => ⟨List.mem_cons_of_mem _ (h3 m hm).1, (h3 m hm).2⟩⟩
    · rw [if_neg hn]
      have hnone : pmFind vis n = none := by
        cases hfind : pmFind vis n with
        | none => rfl
        | some w =>
          rw [hfind] at hn
          exact absurd rfl hn
      obtain ⟨new, h1, h2, h3⟩ := ih (vis ++ [(n, some c)]) (q ++ [n])
      refine ⟨n :: new, ?_, ?_, ?_⟩
      · rw [h1]
        show ((vis ++ [(n, some c)]) ++ new.map (fun x => (x, some c)),
          (q ++ [n]) ++ new) = _
        rw [List.append_assoc, List.append_assoc]
        rfl
      · rw [List.nodup_cons]
        refine ⟨?_, h2⟩
        intro hmem
        have hf := (h3 n hmem).2
        rw [pmFind_append] at hf
        have hf2 : pmFind [(n, some c)] n = none := by
          rw [hnone] at hf
          exact hf
        rw [pmFind_cons, if_pos rfl] at hf2
        cases hf2
      · intro m hm
        rcases List.mem_cons.mp hm with rfl | hm'
        · exact ⟨List.mem_cons_self _ _, hnone⟩
        · obtain ⟨hmt, hmf⟩ := h3 m hm'
          refine ⟨List.mem_cons_of_mem _ hmt, ?_⟩
          rw [pmFind_append] at hmf
          cases hvm : pmFind vis m with
          | none => rfl
          | some w =>
            rw [hvm] at hmf
            have h' : (some w : Option (Option Coordinate)) = none := hmf
            cases h'

/-- The keys of a batch of fresh bindings are the batch itself. -/
lemma biKeys_map_self (new : List Coordinate) (c : Coordinate) :
    biKeys (new.map (fun n => (n, some c))) = new := by
  induction new with
  | nil => rfl
  | cons n t ih =>
    show (n, some c).1 :: biKeys (t.map (fun n => (n, some c))) = n :: t
    rw [ih]

/-- A node both reachable from the start and the endpoint of a path from
an in-bounds open goal would witness reachability of the goal. -/
lemma no_meet {g : Grid} {s en k : Coordinate} (hen : en ∈ openCells g)
    (hnr : ¬ Reachable g s en) (h1 : Reachable g s k)
    (h2 : ∃ l, IsPath g en k l) : False := by
  obtain ⟨l1, hl1⟩ := h1
  obtain ⟨l2, hl2⟩ := h2
  have hrev := path_reverse hl2 hen
  exact hnr ⟨l1 ++ l2.reverse.tail, path_trans hl1 hrev⟩

/-- When the goal is an in-bounds open cell unreachable from the start, the
two frontiers can never meet, so the bidirectional loop runs until a queue
empties; every yielded frame's path is empty. -/
lemma bi_unreach_run (g : Grid) (s en : Coordinate) (hen : en ∈ openCells g)
    (hnr : ¬ Reachable g s en) :
    ∀ (fuel : Nat) (σ : BiState), BiInv g s en σ → biMeasure g σ < fuel →
      ∃ fs, biRun fuel g σ = some fs ∧ ∀ f ∈ fs, f.path = [] := by
  intro fuel
  induction fuel with
  | zero =>
    intro σ _ hM
    omega
  | succ m ih =>
    intro σ hInv hM
    obtain ⟨sq, eq, sv, ev⟩ := σ
    cases sq with
    | nil =>
      refine ⟨[], ?_, by simp⟩
      cases eq with
      | nil => rfl
      | cons a b => rfl
    | cons currStart sRest =>
      cases eq with
      | nil => exact ⟨[], rfl, by simp⟩
      | cons currEnd eRest =>
        have hsv0 : (pmFind sv currStart).isSome = true :=
          hInv.sqVis currStart (List.mem_cons_self _ _)
        have hev0 : (pmFind ev currEnd).isSome = true :=
          hInv.eqVis currEnd (List.mem_cons_self _ _)
        have hreachS : Reachable g s currStart := hInv.svReach currStart hsv0
        have hpathE : ∃ l, IsPath g en currEnd l := hInv.evPath currEnd hev0
        have c1 : ¬ ((pmFind ev currStart).isSome = true) := by
          intro hx
          exact no_meet hen hnr hreachS (hInv.evPath currStart hx)
        obtain ⟨new1, heq1, hnd1, hpr1⟩ :=
          biExpand_mid currStart (getNeighbors g currStart) sv sRest
        have keys1 : biKeys (sv ++ new1.map (fun n => (n, some currStart))) =
            biKeys sv ++ new1 := by
          rw [biKeys_append, biKeys_map_self]
        have reach1 : ∀ k, (pmFind (sv ++ new1.map (fun n => (n, some currStart)))
            k).isSome = true → Reachable g s k := by
          intro k hk
          rw [pmFind_isSome_iff_keys, keys1] at hk
          rcases List.mem_append.mp hk with h | h
          · exact hInv.svReach k ((pmFind_isSome_iff_keys k sv).mpr h)
          · obtain ⟨l, hl⟩ := hreachS
            exact ⟨l ++ [k], path_snoc hl ((hpr1 k h).1 : Adj g currStart k)⟩
        have hm2 : (pmFind (sv ++ new1.map (fun n => (n, some currStart)))
            currEnd).isSome = false := by
          cases hx : (pmFind (sv ++ new1.map (fun n => (n, some currStart)))
              currEnd).isSome with
          | false => rfl
          | true => exact (no_meet hen hnr (reach1 currEnd hx) hpathE).elim
        have c2 : ¬ ((pmFind (biExpand currStart sv sRest
            (getNeighbors g currStart)).1 currEnd).isSome = true) := by
          rw [heq1]
          show ¬ ((pmFind (sv ++ new1.map (fun n => (n, some currStart)))
            currEnd).isSome = true)
          rw [hm2]
          exact Bool.false_ne_true
        obtain ⟨new2, heq2, hnd2, hpr2⟩ :=
          biExpand_mid currEnd (getNeighbors g currEnd) ev eRest
        have keys2 : biKeys (ev ++ new2.map (fun n => (n, some currEnd))) =
            biKeys ev ++ new2 := by
          rw [biKeys_append, biKeys_map_self]
        have epath2 : ∀ k, (pmFind (ev ++ new2.map (fun n => (n, some currEnd)))
            k).isSome = true → ∃ l, IsPath g en k l := by
          intro k hk
          rw [pmFind_isSome_iff_keys, keys2] at hk
          rcases List.mem_append.mp hk with h | h
          · exact hInv.evPath k ((pmFind_isSome_iff_keys k ev).mpr h)
          · obtain ⟨l, hl⟩ := hpathE
            exact ⟨l ++ [k], path_snoc hl ((hpr2 k h).1 : Adj g currEnd k)⟩
        have hsub1 : biKeys sv ++ new1 ⊆ s :: openCells g := by
          intro x hx
          rcases List.mem_append.mp hx with h | h
          · rcases hInv.svOpen x h with h' | h'
            · rw [h']
              exact List.mem_cons_self _ _
            · exact List.mem_cons_of_mem _ h'
          · exact List.mem_cons_of_mem _
              (neighbors_mem_openCells ((hpr1 x h).1 : Adj g currStart x))
        have hnodup1 : (biKeys sv ++ new1).Nodup := by
          rw [List.nodup_append]
          refine ⟨hInv.svNodup, hnd1, ?_⟩
          intro a ha hb
          have hnone := (hpr1 a hb).2
          have hs := (pmFind_isSome_iff_keys a sv).mpr ha
          rw [hnone] at hs
          cases hs
        have hsub2 : biKeys ev ++ new2 ⊆ en :: openCells g := by
          intro x hx
          rcases List.mem_append.mp hx with h | h
          · rcases hInv.evOpen x h with h' | h'
            · rw [h']
              exact List.mem_cons_self _ _
            · exact List.mem_cons_of_mem _ h'
          · exact List.mem_cons_of_mem _
              (neighbors_mem_openCells ((hpr2 x h).1 : Adj g currEnd x))
        have hnodup2 : (biKeys ev ++ new2).Nodup := by
          rw [List.nodup_append]
          refine ⟨hInv.evNodup, hnd2, ?_⟩
          intro a ha hb
          have hnone := (hpr2 a hb).2
          have hs := (pmFind_isSome_iff_keys a ev).mpr ha
          rw [hnone] at hs
          cases hs
        have hb1 : (biKeys sv).length + new1.length ≤ (openCells g).length + 1 := by
          have hle := (List.Nodup.subperm hnodup1 hsub1).length_le
          rw [List.length_append] at hle
          simpa using hle
        have hb2 : (biKeys ev).length + new2.length ≤ (openCells g).length + 1 := by
          have hle := (List.Nodup.subperm hnodup2 hsub2).length_le
          rw [List.length_append] at hle
          simpa using hle
        have hInv' : BiInv g s en ⟨sRest ++ new1, eRest ++ new2,
            sv ++ new1.map (fun n => (n, some currStart)),
            ev ++ new2.map (fun n => (n, some currEnd))⟩ := by
          refine ⟨?_, ?_, reach1, epath2, ?_, ?_, ?_, ?_⟩
          · intro c hc
            have hc' : c ∈ sRest ++ new1 := hc
            show (pmFind (sv ++ new1.map (fun n => (n, some currStart))) c).isSome = true
            rw [pmFind_isSome_iff_keys, keys1]
            rcases List.mem_append.mp hc' with h | h
            · exact List.mem_append_left _ ((pmFind_isSome_iff_keys c sv).mp
                (hInv.sqVis c (List.mem_cons_of_mem _ h)))
            · exact List.mem_append_right _ h
          · intro c hc
            have hc' : c ∈ eRest ++ new2 := hc
            show (pmFind (ev ++ new2.map (fun n => (n, some currEnd))) c).isSome = true
            rw [pmFind_isSome_iff_keys, keys2]
            rcases List.mem_append.mp hc' with h | h
            · exact List.mem_append_left _ ((pmFind_isSome_iff_keys c ev).mp
                (hInv.eqVis c (List.mem_cons_of_mem _ h)))
            · exact List.mem_append_right _ h
          · show (biKeys (sv ++ new1.map (fun n => (n, some currStart)))).Nodup
            rw [keys1]
            exact hnodup1
          · show (biKeys (ev ++ new2.map (fun n => (n, some currEnd)))).Nodup
            rw [keys2]
            exact hnodup2
          · intro k hk
            have hk' : k ∈ biKeys sv ++ new1 := by
              rw [← keys1]
              exact hk
            rcases List.mem_append.mp hk' with h | h
            · exact hInv.svOpen k h
            · exact Or.inr (neighbors_mem_openCells ((hpr1 k h).1 : Adj g currStart k))
          · intro k hk
            have hk' : k ∈ biKeys ev ++ new2 := by
              rw [← keys2]
              exact hk
            rcases List.mem_append.mp hk' with h | h
            · exact hInv.evOpen k h
            · exact Or.inr (neighbors_mem_openCells ((hpr2 k h).1 : Adj g currEnd k))
        have hmeas : biMeasure g ⟨sRest ++ new1, eRest ++ new2,
            sv ++ new1.map (fun n => (n, some currStart)),
            ev ++ new2.map (fun n => (n, some currEnd))⟩ < m := by
          have h1 : biMeasure g ⟨currStart :: sRest, currEnd :: eRest, sv, ev⟩ <
              m + 1 := hM
          have h2 : biMeasure g ⟨currStart :: sRest, currEnd :: eRest, sv, ev⟩ =
              (currStart :: sRest).length + (currEnd :: eRest).length +
                2 * (((openCells g).length + 1 - (biKeys sv).length) +
                  ((openCells g).length + 1 - (biKeys ev).length)) := rfl
          have h3 : biMeasure g ⟨sRest ++ new1, eRest ++ new2,
              sv ++ new1.map (fun n => (n, some currStart)),
              ev ++ new2.map (fun n => (n, some currEnd))⟩ =
              (sRest ++ new1).length + (eRest ++ new2).length +
                2 * (((openCells g).length + 1 -
                  (biKeys (sv ++ new1.map (fun n => (n, some currStart)))).length) +
                  ((openCells g).length + 1 -
                  (biKeys (ev ++ new2.map (fun n => (n, some currEnd)))).length)) := rfl
          rw [h2] at h1
          rw [h3, keys1, keys2]
          simp only [List.length_append, List.length_cons] at h1 ⊢
          omega
        obtain ⟨fs, hrun, hfs⟩ := ih _ hInv' hmeas
        refine ⟨⟨biKeys (sv ++ new1.map (fun n => (n, some currStart))) ++
          biKeys (ev ++ new2.map (fun n => (n, some currEnd))),
          (sRest ++ new1) ++ (eRest ++ new2), [], none⟩ :: fs, ?_, ?_⟩
        · show (if (pmFind ev currStart).isSome then
              (biMeetFrame sv ev currStart).map (fun f => [f])
            else
              if (pmFind (biExpand currStart sv sRest (getNeighbors g currStart)).1
                  currEnd).isSome then
                (biMeetFrame (biExpand currStart sv sRest (getNeighbors g currStart)).1
                  ev currEnd).map (fun f => [f])
              else
                (biRun m g ⟨(biExpand currStart sv sRest (getNeighbors g currStart)).2,
                  (biExpand currEnd ev eRest (getNeighbors g currEnd)).2,
                  (biExpand currStart sv sRest (getNeighbors g currStart)).1,
                  (biExpand currEnd ev eRest (getNeighbors g currEnd)).1⟩).map
                  (fun fs => (⟨biKeys (biExpand currStart sv sRest
                      (getNeighbors g currStart)).1 ++
                    biKeys (biExpand currEnd ev eRest (getNeighbors g currEnd)).1,
                    (biExpand currStart sv sRest (getNeighbors g currStart)).2 ++
                    (biExpand currEnd ev eRest (getNeighbors g currEnd)).2, [],
                    none⟩ : Frame) :: fs)) = _
          rw [if_neg c1, if_neg c2, heq1, heq2]
          show (biRun m g ⟨sRest ++ new1, eRest ++ new2,
            sv ++ new1.map (fun n => (n, some currStart)),
            ev ++ new2.map (fun n => (n, some currEnd))⟩).map
            (fun fs => (⟨biKeys (sv ++ new1.map (fun n => (n, some currStart))) ++
              biKeys (ev ++ new2.map (fun n => (n, some currEnd))),
              (sRest ++ new1) ++ (eRest ++ new2), [], none⟩ : Frame) :: fs) = _
          rw [hrun]
          rfl
        · intro f hf
          rcases List.mem_cons.mp hf with rfl | hf'
          · rfl
          · exact hfs f hf'

/-- The IDA* neighbour loop, assuming the recursive call meets its spec on
every fresh child: the loop never succeeds, restores the stack, keeps all
returned costs strictly above the bound yet within the absolute bound `B`,
and yields only frames whose path ends at a reachable node. -/
lemma idaChildren_unreach (g : Grid) (s : Coordinate) (bound B : Nat)
    (searchF : Coordinate → Nat → List Coordinate → List Coordinate → Option IdaInner)
    (node : Coordinate) (gg : Nat) (stack0 : List Coordinate)
    (hpath : IsPath g s node stack0)
    (hsf : ∀ n visited', n ∉ stack0 → Adj g node n →
      ∃ r, searchF n (gg + 1) (stack0 ++ [n]) visited' = some r ∧
        r.found = false ∧ r.pathStack = stack0 ++ [n] ∧
        (∀ c, r.cost = some c → bound < c ∧ c ≤ B) ∧
        (∀ f ∈ r.frames, ∃ x, f.path.getLast? = some x ∧ Reachable g s x)) :
    ∀ (ns : List Coordinate) (minv : Option Nat) (visited : List Coordinate),
      (∀ n ∈ ns, Adj g node n) →
      (∀ c, minv = some c → bound < c ∧ c ≤ B) →
      ∃ r, idaChildren searchF gg ns minv stack0 visited = some r ∧
        r.found = false ∧ r.pathStack = stack0 ∧
        (∀ c, r.cost = some c → bound < c ∧ c ≤ B) ∧
        (∀ f ∈ r.frames, ∃ x, f.path.getLast? = some x ∧ Reachable g s x) := by
  intro ns
  induction ns with
  | nil =>
    intro minv visited _ hminv
    exact ⟨⟨[], false, minv, stack0, visited⟩, rfl, rfl, rfl, hminv, by simp⟩
  | cons n t ih =>
    intro minv visited hadj hminv
    by_cases hn : n ∈ stack0
    · have hred : idaChildren searchF gg (n :: t) minv stack0 visited =
          idaChildren searchF gg t minv stack0 visited := by
        show (if n ∈ stack0 then idaChildren searchF gg t minv stack0 visited
          else
            match searchF n (gg + 1) (stack0 ++ [n]) (setAdd visited n) with
            | none => none
            | some r =>
              if r.found then
                some ⟨(⟨setAdd visited n, [n], stack0 ++ [n], some n⟩ : Frame) ::
                  r.frames, true, r.cost, r.pathStack, r.visitedKeys⟩
              else
                match idaChildren searchF gg t (costMin r.cost minv)
                    r.pathStack.dropLast r.visitedKeys with
                | none => none
                | some r2 =>
                  some ⟨(⟨setAdd visited n, [n], stack0 ++ [n], some n⟩ : Frame) ::
                    r.frames ++ r2.frames, r2.found, r2.cost,
                    r2.pathStack, r2.visitedKeys⟩) = _
        rw [if_pos hn]
      rw [hred]
      exact ih minv visited (fun m hm => hadj m (List.mem_cons_of_mem _ hm)) hminv
    · obtain ⟨r, hr, hrf, hrst, hrc, hrfr⟩ :=
        hsf n (setAdd visited n) hn (hadj n (List.mem_cons_self _ _))
      have hdrop : r.pathStack.dropLast = stack0 := by
        rw [hrst]
        exact List.dropLast_concat
      obtain ⟨r2, hr2, hr2f, hr2st, hr2c, hr2fr⟩ := ih (costMin r.cost minv)
        r.visitedKeys
        (fun m hm => hadj m (List.mem_cons_of_mem _ hm))
        (fun c hc => by
          rcases costMin_cases hc with h | h
          · exact hrc c h
          · exact hminv c h)
      refine ⟨⟨(⟨setAdd visited n, [n], stack0 ++ [n], some n⟩ : Frame) ::
        r.frames ++ r2.frames, r2.found, r2.cost, r2.pathStack, r2.visitedKeys⟩,
        ?_, hr2f, hr2st, hr2c, ?_⟩
      · show (if n ∈ stack0 then idaChildren searchF gg t minv stack0 visited
          else
            match searchF n (gg + 1) (stack0 ++ [n]) (setAdd visited n) with
            | none => none
            | some r =>
              if r.found then
                some ⟨(⟨setAdd visited n, [n], stack0 ++ [n], some n⟩ : Frame) ::
                  r.frames, true, r.cost, r.pathStack, r.visitedKeys⟩
              else
                match idaChildren searchF gg t (costMin r.cost minv)
                    r.pathStack.dropLast r.visitedKeys with
                | none => none
                | some r2 =>
                  some ⟨(⟨setAdd visited n, [n], stack0 ++ [n], some n⟩ : Frame) ::
                    r.frames ++ r2.frames, r2.found, r2.cost,
                    r2.pathStack, r2.visitedKeys⟩) = _
        rw [if_neg hn, hr]
        show (if r.found then
            some (⟨(⟨setAdd visited n, [n], stack0 ++ [n], some n⟩ : Frame) ::
              r.frames, true, r.cost, r.pathStack, r.visitedKeys⟩ : IdaInner)
          else
            match idaChildren searchF gg t (costMin r.cost minv)
                r.pathStack.dropLast r.visitedKeys with
            | none => none
            | some r2 =>
              some ⟨(⟨setAdd visited n, [n], stack0 ++ [n], some n⟩ : Frame) ::
                r.frames ++ r2.frames, r2.found, r2.cost,
                r2.pathStack, r2.visitedKeys⟩) = _
        have hcond : ¬ (r.found = true) := by
          rw [hrf]
          exact Bool.false_ne_true
        rw [if_neg hcond, hdrop, hr2]
      · intro f hf
        rcases List.mem_append.mp hf with h | h
        · rcases List.mem_cons.mp h with rfl | h'
          · refine ⟨n, ?_, ?_⟩
            · show (stack0 ++ [n]).getLast? = some n
              exact List.getLast?_concat _
            · exact ⟨stack0 ++ [n], path_snoc hpath (hadj n (List.mem_cons_self _ _))⟩
          · exact hrfr f h'
        · exact hr2fr f h

/-- The bounded IDA* search from a reachable stack never finds the
unreachable goal, never exhausts the recursion fuel (the stack is a simple
path, so its length is capped), returns costs strictly above the bound but
within the absolute bound, and yields only frames ending at reachable
nodes. -/
lemma idaSearch_unreach (g : Grid) (s en : Coordinate) (hnr : ¬ Reachable g s en)
    (bound : Nat) :
    ∀ (fuel : Nat) (node : Coordinate) (gg : Nat) (stack visited : List Coordinate),
      IsPath g s node stack → stack.Nodup → gg + 1 = stack.length →
      (openCells g).length + 2 ≤ fuel + stack.length →
      ∃ r, idaSearch g en bound fuel node gg stack visited = some r ∧
        r.found = false ∧ r.pathStack = stack ∧
        (∀ c, r.cost = some c → bound < c ∧
          c ≤ (openCells g).length + hBound g s en) ∧
        (∀ f ∈ r.frames, ∃ x, f.path.getLast? = some x ∧ Reachable g s x) := by
  intro fuel
  induction fuel with
  | zero =>
    intro node gg stack visited hpath hnd hgg hfuel
    exfalso
    have hsub : stack ⊆ s :: openCells g := by
      intro x hx
      rcases path_mem_open hpath x hx with h | h
      · rw [h]
        exact List.mem_cons_self _ _
      · exact List.mem_cons_of_mem _ h
    have hle := (List.Nodup.subperm hnd hsub).length_le
    simp only [List.length_cons] at hle
    omega
  | succ m ih =>
    intro node gg stack visited hpath hnd hgg hfuel
    have hnodeStack : node ∈ stack := memGetLast hpath.2.2.1
    have hnode_sopen : node = s ∨ node ∈ openCells g :=
      path_mem_open hpath node hnodeStack
    have hh : heuristic node en ≤ hBound g s en := by
      apply le_foldr_max
      apply List.mem_map.mpr
      refine ⟨node, ?_, rfl⟩
      rcases hnode_sopen with h | h
      · rw [h]
        exact List.mem_cons_self _ _
      · exact List.mem_cons_of_mem _ h
    have hgle : gg ≤ (openCells g).length := by
      have hsub : stack ⊆ s :: openCells g := by
        intro x hx
        rcases path_mem_open hpath x hx with h | h
        · rw [h]
          exact List.mem_cons_self _ _
        · exact List.mem_cons_of_mem _ h
      have hle := (List.Nodup.subperm hnd hsub).length_le
      simp only [List.length_cons] at hle
      omega
    by_cases hpr : bound < gg + heuristic node en
    · refine ⟨⟨[], false, some (gg + heuristic node en), stack, visited⟩,
        ?_, rfl, rfl, ?_, by simp⟩
      · show (if bound < gg + heuristic node en then
            some (⟨[], false, some (gg + heuristic node en), stack, visited⟩ : IdaInner)
          else if node = en then
            some ⟨[], true, some (gg + heuristic node en), stack, visited⟩
          else
            idaChildren (idaSearch g en bound m) gg
              (stableSortBy (fun c => heuristic c en) (getNeighbors g node))
              none stack visited) = _
        rw [if_pos hpr]
      · intro c hc
        have hc' : some (gg + heuristic node en) = some c := hc
        have hceq := Option.some_injective _ hc'
        constructor
        · omega
        · omega
    · have hne : node ≠ en := by
        intro h
        exact hnr ⟨stack, h ▸ hpath⟩
      have hsf : ∀ n visited', n ∉ stack → Adj g node n →
          ∃ r, idaSearch g en bound m n (gg + 1) (stack ++ [n]) visited' = some r ∧
            r.found = false ∧ r.pathStack = stack ++ [n] ∧
            (∀ c, r.cost = some c → bound < c ∧
              c ≤ (openCells g).length + hBound g s en) ∧
            (∀ f ∈ r.frames, ∃ x, f.path.getLast? = some x ∧ Reachable g s x) := by
        intro n visited' hn hadj
        apply ih n (gg + 1) (stack ++ [n]) visited'
        · exact path_snoc hpath hadj
        · rw [List.nodup_append]
          refine ⟨hnd, List.nodup_singleton _, ?_⟩
          intro a ha hb
          rcases List.mem_singleton.mp hb with rfl
          exact hn ha
        · rw [List.length_append]
          simp only [List.length_singleton]
          omega
        · rw [List.length_append]
          simp only [List.length_singleton]
          omega
      obtain ⟨r, hr, hrf, hrst, hrc, hrfr⟩ := idaChildren_unreach g s bound
        ((openCells g).length + hBound g s en) (idaSearch g en bound m) node gg stack
        hpath hsf
        (stableSortBy (fun c => heuristic c en) (getNeighbors g node)) none visited
        (fun n hn => ((stableSortBy_mem _ _ _).mp hn : Adj g node n))
        (fun c hc => by cases hc)
      refine ⟨r, ?_, hrf, hrst, hrc, hrfr⟩
      show (if bound < gg + heuristic node en then
          some (⟨[], false, some (gg + heuristic node en), stack, visited⟩ : IdaInner)
        else if node = en then
          some ⟨[], true, some (gg + heuristic node en), stack, visited⟩
        else
          idaChildren (idaSearch g en bound m) gg
            (stableSortBy (fun c => heuristic c en) (getNeighbors g node))
            none stack visited) = _
      rw [if_neg hpr, if_neg hne]
      exact hr

/-- The outer IDA* loop on an unreachable goal: every pass fails with a
strictly larger pruned cost capped by the absolute bound, so once the bound
passes the cap the search reports no pruned cost and the loop stops. -/
lemma idaOuter_unreach (g : Grid) (s en : Coordinate) (hnr : ¬ Reachable g s en)
    (innerFuel : Nat) (hif : (openCells g).length + 1 ≤ innerFuel) :
    ∀ (ofuel bound : Nat) (visited : List Coordinate),
      (openCells g).length + hBound g s en + 1 - bound < ofuel →
      ∃ fs, idaOuter g s en innerFuel ofuel bound [s] visited = some fs ∧
        ∀ f ∈ fs, ∃ x, f.path.getLast? = some x ∧ Reachable g s x := by
  intro ofuel
  induction ofuel with
  | zero =>
    intro bound visited hof
    omega
  | succ m ih =>
    intro bound visited hof
    obtain ⟨r, hr, hrf, hrst, hrc, hrfr⟩ := idaSearch_unreach g s en hnr bound
      innerFuel s 0 [s] visited (path_singleton g s) (List.nodup_singleton _) rfl
      (by
        have h1 : ([s] : List Coordinate).length = 1 := rfl
        omega)
    have hcond : ¬ (r.found = true) := by
      rw [hrf]
      exact Bool.false_ne_true
    cases hc : r.cost with
    | none =>
      refine ⟨r.frames, ?_, hrfr⟩
      show (match idaSearch g en bound innerFuel s 0 [s] visited with
        | none => none
        | some r =>
          if r.found then some (r.frames ++ [(⟨r.visitedKeys, [], r.pathStack, none⟩ : Frame)])
          else
            match r.cost with
            | none => some r.frames
            | some c =>
              (idaOuter g s en innerFuel m c r.pathStack r.visitedKeys).map
                (fun fs => r.frames ++ fs)) = _
      rw [hr]
      show (if r.found then some (r.frames ++ [(⟨r.visitedKeys, [], r.pathStack, none⟩ : Frame)])
        else
          match r.cost with
          | none => some r.frames
          | some c =>
            (idaOuter g s en innerFuel m c r.pathStack r.visitedKeys).map
              (fun fs => r.frames ++ fs)) = _
      rw [if_neg hcond, hc]
    | some c =>
      obtain ⟨hbc, hcB⟩ := hrc c hc
      obtain ⟨fs2, hrun2, hfr2⟩ := ih c r.visitedKeys (by omega)
      refine ⟨r.frames ++ fs2, ?_, ?_⟩
      · show (match idaSearch g en bound innerFuel s 0 [s] visited with
          | none => none
          | some r =>
            if r.found then some (r.frames ++ [(⟨r.visitedKeys, [], r.pathStack, none⟩ : Frame)])
            else
              match r.cost with
              | none => some r.frames
              | some c =>
                (idaOuter g s en innerFuel m c r.pathStack r.visitedKeys).map
                  (fun fs => r.frames ++ fs)) = _
        rw [hr]
        show (if r.found then some (r.frames ++ [(⟨r.visitedKeys, [], r.pathStack, none⟩ : Frame)])
          else
            match r.cost with
            | none => some r.frames
            | some c =>
              (idaOuter g s en innerFuel m c r.pathStack r.visitedKeys).map
                (fun fs => r.frames ++ fs)) = _
        rw [if_neg hcond, hc]
        show (idaOuter g s en innerFuel m c r.pathStack r.visitedKeys).map
          (fun fs => r.frames ++ fs) = _
        rw [hrst, hrun2]
        rfl
      · intro f hf
        rcases List.mem_append.mp hf with h | h
        · exact hrfr f h
        · exact hfr2 f h

/-- The weighted-search invariant holds at the seeded initial state. -/
lemma wInv_init (g : Grid) (s : Coordinate) :
    WInv g s ⟨[⟨s, 0, 0⟩], [(s, 0)], [], []⟩ := by
  refine ⟨List.nodup_nil, ?_, ?_, ?_⟩
  · intro x hx
    exact absurd hx (List.not_mem_nil x)
  · intro e he
    rcases List.mem_singleton.mp he with rfl
    exact Or.inl rfl
  · intro e he
    rcases List.mem_singleton.mp he with rfl
    exact ⟨[s], path_singleton g s⟩

/-- The bidirectional invariant holds at the seeded initial state. -/
lemma biInv_init (g : Grid) (s en : Coordinate) :
    BiInv g s en ⟨[s], [en], [(s, none)], [(en, none)]⟩ := by
  refine ⟨?_, ?_, ?_, ?_, List.nodup_singleton _, List.nodup_singleton _, ?_, ?_⟩
  · intro c hc
    rcases List.mem_singleton.mp hc with rfl
    show (pmFind [(c, none)] c).isSome = true
    rw [pmFind_cons, if_pos rfl]
    rfl
  · intro c hc
    rcases List.mem_singleton.mp hc with rfl
    show (pmFind [(c, none)] c).isSome = true
    rw [pmFind_cons, if_pos rfl]
    rfl
  · intro k hk
    rw [pmFind_cons] at hk
    by_cases hsk : s = k
    · rw [← hsk]
      exact ⟨[s], path_singleton g s⟩
    · rw [if_neg hsk] at hk
      cases hk
  · intro k hk
    rw [pmFind_cons] at hk
    by_cases hek : en = k
    · rw [← hek]
      exact ⟨[en], path_singleton g en⟩
    · rw [if_neg hek] at hk
      cases hk
  · intro k hk
    rcases List.mem_singleton.mp hk with rfl
    exact Or.inl rfl
  · intro k hk
    rcases List.mem_singleton.mp hk with rfl
    exact Or.inl rfl

/-- On the split corridor the right part is cut off from `(0,0)`: the
start has no neighbours at all. -/
lemma splitGrid_unreachable : ¬ Reachable splitGrid ⟨0, 0⟩ ⟨2, 0⟩ := by
  rintro ⟨l, hl⟩
  obtain ⟨hne, hhd, hlast, hch⟩ := hl
  cases l with
  | nil => exact hne rfl
  | cons c t =>
    have hc : c = ⟨0, 0⟩ := Option.some_injective _ hhd
    subst hc
    cases t with
    | nil =>
      have h20 : (⟨0, 0⟩ : Coordinate) = ⟨2, 0⟩ := Option.some_injective _ hlast
      exact absurd h20 (by decide)
    | cons c2 t2 =>
      have hadj : Adj splitGrid ⟨0, 0⟩ c2 := (List.chain'_cons.mp hch).1
      have hmem : c2 ∈ getNeighbors splitGrid ⟨0, 0⟩ := hadj
      have hn : getNeighbors splitGrid ⟨0, 0⟩ = [] := by decide
      rw [hn] at hmem
      exact absurd hmem (List.not_mem_nil c2)

/-- **C7** (corrected).  On every rectangular grid whose goal cell is in
bounds and open but unreachable from the start, each of the seven
algorithms terminates: its fuelled run completes with a finite frame
sequence (after which every advance reports done with no value), no
yielded frame's path ever ends at the goal, and BFS, Dijkstra, A*, Greedy
and bidirectional yield only empty paths.  The claim's "never yields a
non-empty path" does not hold for DFS and IDA*, whose progress frames
carry the current branch as their path; IDA*'s outer loop terminates
because every pruned f-value is capped by the grid's open-cell count plus
the maximal heuristic, and the bound strictly increases past that cap. -/
theorem unreachable_all_terminate (g : Grid) (s en : Coordinate)
    (_hrect : Rect g) (hen : en ∈ openCells g) (hnr : ¬ Reachable g s en)
    (t : AlgorithmType) :
    ∃ fuel fs, createAlgorithmGenerator t g s en fuel = some fs ∧
      ∀ f ∈ fs, f.path.getLast? ≠ some en ∧
        (t = AlgorithmType.DFS ∨ t = AlgorithmType.IDA_STAR ∨ f.path = []) := by
  cases t with
  | BFS =>
    obtain ⟨fs, hrun, hfs⟩ := bfs_unreach_run g s en hnr
      (bfsMeasure g ⟨[s], [s], []⟩ + 1) ⟨[s], [s], []⟩ _ (bfsInv_init g s en)
      (Nat.lt_succ_self _)
    refine ⟨bfsMeasure g ⟨[s], [s], []⟩ + 1, fs, hrun, ?_⟩
    intro f hf
    have hp := hfs f hf
    refine ⟨?_, Or.inr (Or.inr hp)⟩
    rw [hp]
    simp
  | DFS =>
    obtain ⟨fs, hrun, hfs⟩ := dfs_unreach_run g s en hnr
      (dfsMeasure g ⟨[s], [s], []⟩ + 1) ⟨[s], [s], []⟩ (dfsInv_init g s)
      (Nat.lt_succ_self _)
    exact ⟨dfsMeasure g ⟨[s], [s], []⟩ + 1, fs, hrun,
      fun f hf => ⟨hfs f hf, Or.inl rfl⟩⟩
  | DIJKSTRA =>
    obtain ⟨fs, hrun, hfs⟩ := w_unreach_run g s en ⟨true, 0⟩ hnr
      (wMeasure g ⟨[⟨s, 0, 0⟩], [(s, 0)], [], []⟩ + 1)
      ⟨[⟨s, 0, 0⟩], [(s, 0)], [], []⟩ (wInv_init g s) (Nat.lt_succ_self _)
    refine ⟨wMeasure g ⟨[⟨s, 0, 0⟩], [(s, 0)], [], []⟩ + 1, fs, hrun, ?_⟩
    intro f hf
    have hp := hfs f hf
    refine ⟨?_, Or.inr (Or.inr hp)⟩
    rw [hp]
    simp
  | ASTAR =>
    obtain ⟨fs, hrun, hfs⟩ := w_unreach_run g s en ⟨true, 1⟩ hnr
      (wMeasure g ⟨[⟨s, 0, 0⟩], [(s, 0)], [], []⟩ + 1)
      ⟨[⟨s, 0, 0⟩], [(s, 0)], [], []⟩ (wInv_init g s) (Nat.lt_succ_self _)
    refine ⟨wMeasure g ⟨[⟨s, 0, 0⟩], [(s, 0)], [], []⟩ + 1, fs, hrun, ?_⟩
    intro f hf
    have hp := hfs f hf
    refine ⟨?_, Or.inr (Or.inr hp)⟩
    rw [hp]
    simp
  | GREEDY =>
    obtain ⟨fs, hrun, hfs⟩ := w_unreach_run g s en ⟨false, 1⟩ hnr
      (wMeasure g ⟨[⟨s, 0, 0⟩], [(s, 0)], [], []⟩ + 1)
      ⟨[⟨s, 0, 0⟩], [(s, 0)], [], []⟩ (wInv_init g s) (Nat.lt_succ_self _)
    refine ⟨wMeasure g ⟨[⟨s, 0, 0⟩], [(s, 0)], [], []⟩ + 1, fs, hrun, ?_⟩
    intro f hf
    have hp := hfs f hf
    refine ⟨?_, Or.inr (Or.inr hp)⟩
    rw [hp]
    simp
  | BIDIRECTIONAL =>
    obtain ⟨fs, hrun, hfs⟩ := bi_unreach_run g s en hen hnr
      (biMeasure g ⟨[s], [en], [(s, none)], [(en, none)]⟩ + 1)
      ⟨[s], [en], [(s, none)], [(en, none)]⟩ (biInv_init g s en)
      (Nat.lt_succ_self _)
    refine ⟨biMeasure g ⟨[s], [en], [(s, none)], [(en, none)]⟩ + 1, fs, hrun, ?_⟩
    intro f hf
    have hp := hfs f hf
    refine ⟨?_, Or.inr (Or.inr hp)⟩
    rw [hp]
    simp
  | IDA_STAR =>
    obtain ⟨fs, hrun, hfr⟩ := idaOuter_unreach g s en hnr
      ((openCells g).length + hBound g s en + (openCells g).length + 2)
      (by omega)
      ((openCells g).length + hBound g s en + (openCells g).length + 2)
      (heuristic s en) [s] (by omega)
    refine ⟨(openCells g).length + hBound g s en + (openCells g).length + 2,
      fs, hrun, ?_⟩
    intro f hf
    obtain ⟨x, hx, hrx⟩ := hfr f hf
    refine ⟨?_, Or.inr (Or.inl rfl)⟩
    rw [hx]
    intro h
    have hxe : x = en := Option.some_injective _ h
    exact hnr (hxe ▸ hrx)

/-- **C7**, counterexample to the claim as stated: with the goal walled
off, DFS's very first progress frame already carries the non-empty branch
path `[(0,0)]` — progress frames of DFS (and IDA*) show the current
branch, so "it never yields a non-empty path" is false. -/
theorem dfs_unreachable_yields_nonempty_path :
    ¬ Reachable splitGrid ⟨0, 0⟩ ⟨2, 0⟩ ∧
    ∃ fs f, dfsFrames 2 splitGrid ⟨0, 0⟩ ⟨2, 0⟩ = some fs ∧ f ∈ fs ∧
      f.path ≠ [] := by
  refine ⟨splitGrid_unreachable,
    [⟨[⟨0, 0⟩], [], [⟨0, 0⟩], some ⟨0, 0⟩⟩],
    ⟨[⟨0, 0⟩], [], [⟨0, 0⟩], some ⟨0, 0⟩⟩, by decide, ?_, by decide⟩
  exact List.mem_singleton_self _

/-- **C7**, witness: the bidirectional search on the split corridor with
the unreachable open goal `(2,0)`. -/
theorem unreachable_all_terminate_witness :
    (Rect splitGrid ∧ (⟨2, 0⟩ : Coordinate) ∈ openCells splitGrid ∧
      ¬ Reachable splitGrid ⟨0, 0⟩ ⟨2, 0⟩) ∧
    (∃ fuel fs, createAlgorithmGenerator AlgorithmType.BIDIRECTIONAL splitGrid
        ⟨0, 0⟩ ⟨2, 0⟩ fuel = some fs ∧
      ∀ f ∈ fs, f.path.getLast? ≠ some ⟨2, 0⟩ ∧
        (AlgorithmType.BIDIRECTIONAL = AlgorithmType.DFS ∨
          AlgorithmType.BIDIRECTIONAL = AlgorithmType.IDA_STAR ∨ f.path = [])) :=
  ⟨⟨by decide, by decide, splitGrid_unreachable⟩,
    unreachable_all_terminate splitGrid ⟨0, 0⟩ ⟨2, 0⟩ (by decide) (by decide)
      splitGrid_unreachable AlgorithmType.BIDIRECTIONAL⟩

lemma distFind_cons (k : Coordinate) (v : Nat) (dm : List (Coordinate × Nat))
    (x : Coordinate) :
    distFind ((k, v) :: dm) x = if k = x then some v else distFind dm x := by
  unfold distFind
  rw [List.find?_cons]
  by_cases hk : k = x
  · simp [hk]
  · simp [hk]

/-- The head of a stably sorted list has a minimal key. -/
lemma stableSortBy_min {α : Type} (key : α → Nat) :
    ∀ (l : List α) (a : α) (rest : List α), stableSortBy key l = a :: rest →
      ∀ b ∈ stableSortBy key l, key a ≤ key b := by
  intro l
  induction l with
  | nil => intro a rest h; cases h
  | cons x t ih =>
    intro a rest h b hb
    show key a ≤ key b
    cases hs : stableSortBy key t with
    | nil =>
      have h1 : stableSortBy key (x :: t) = [x] := by
        show stableInsert key x (stableSortBy key t) = [x]
        rw [hs]
        rfl
      rw [h1] at h hb
      rcases List.mem_singleton.mp hb with rfl
      have : a = b := by
        have := h
        injection this with h2 h3
        exact h2.symm
      rw [this]
    | cons c ct =>
      have h1 : stableSortBy key (x :: t) =
          (if key c ≤ key x then c :: stableInsert key x ct else x :: c :: ct) := by
        show stableInsert key x (stableSortBy key t) = _
        rw [hs]
        rfl
      by_cases hc : key c ≤ key x
      · rw [h1, if_pos hc] at h hb
        have ha : a = c := by
          injection h with h2 h3
          exact h2.symm
        subst ha
        rcases List.mem_cons.mp hb with rfl | hb'
        · exact Nat.le_refl _
        · rcases (stableInsert_mem key x b ct).mp hb' with rfl | hb''
          · exact hc
          · exact ih a ct hs b (by rw [hs]; exact List.mem_cons_of_mem _ hb'')
      · rw [h1, if_neg hc] at h hb
        have ha : a = x := by
          injection h with h2 h3
          exact h2.symm
        subst ha
        have hxc : key a ≤ key c := Nat.le_of_lt (Nat.lt_of_not_le hc)
        rcases List.mem_cons.mp hb with rfl | hb'
        · exact Nat.le_refl _
        · rcases List.mem_cons.mp hb' with rfl | hb''
          · exact hxc
          · exact Nat.le_trans hxc
              (ih c ct hs b (by rw [hs]; exact List.mem_cons_of_mem _ hb''))

/-- One legal move changes the Manhattan heuristic by at most one. -/
lemma heuristic_adj {g : Grid} {a b en : Coordinate} (h : Adj g a b) :
    heuristic a en ≤ heuristic b en + 1 := by
  obtain ⟨d, hd, hb, _, _, _, _, _⟩ := mem_getNeighbors.mp h
  have hd4 : d = ⟨0, -1⟩ ∨ d = ⟨0, 1⟩ ∨ d = ⟨-1, 0⟩ ∨ d = ⟨1, 0⟩ := by
    rcases List.mem_cons.mp hd with h1 | h1
    · exact Or.inl h1
    rcases List.mem_cons.mp h1 with h2 | h2
    · exact Or.inr (Or.inl h2)
    rcases List.mem_cons.mp h2 with h3 | h3
    · exact Or.inr (Or.inr (Or.inl h3))
    rcases List.mem_cons.mp h3 with h4 | h4
    · exact Or.inr (Or.inr (Or.inr h4))
    · cases h4
  have ebx : b.x = a.x + d.x := by rw [hb]
  have eby : b.y = a.y + d.y := by rw [hb]
  show (a.x - en.x).natAbs + (a.y - en.y).natAbs ≤
    (b.x - en.x).natAbs + (b.y - en.y).natAbs + 1
  rw [ebx, eby]
  rcases hd4 with rfl | rfl | rfl | rfl
  · show _ ≤ (a.x + 0 - en.x).natAbs + (a.y + -1 - en.y).natAbs + 1
    omega
  · show _ ≤ (a.x + 0 - en.x).natAbs + (a.y + 1 - en.y).natAbs + 1
    omega
  · show _ ≤ (a.x + -1 - en.x).natAbs + (a.y + 0 - en.y).natAbs + 1
    omega
  · show _ ≤ (a.x + 1 - en.x).natAbs + (a.y + 0 - en.y).natAbs + 1
    omega

/-- Telescoped consistency: along any path the weighted heuristic drops by
at most one per edge (for weight at most one). -/
lemma heuristic_telescope {g : Grid} {en : Coordinate} {w : Nat} (hw : w ≤ 1) :
    ∀ {l : List Coordinate} {a b : Coordinate}, IsPath g a b l →
      w * heuristic a en ≤ (l.length - 1) + w * heuristic b en := by
  intro l
  induction l with
  | nil => intro a b h; exact absurd rfl h.1
  | cons c0 t ih =>
    intro a b h
    have hc0 : c0 = a := Option.some_injective _ h.2.1
    subst hc0
    cases t with
    | nil =>
      have hab : c0 = b := Option.some_injective _ h.2.2.1
      rw [hab]
      simp
    | cons c2 t2 =>
      have hadj : Adj g c0 c2 := (List.chain'_cons.mp h.2.2.2).1
      have htail : IsPath g c2 b (c2 :: t2) := by
        refine ⟨List.cons_ne_nil _ _, rfl, ?_, (List.chain'_cons.mp h.2.2.2).2⟩
        have := h.2.2.1
        rw [List.getLast?_cons_cons] at this
        exact this
      have hstep : w * heuristic c0 en ≤ w * heuristic c2 en + 1 := by
        have h1 : heuristic c0 en ≤ heuristic c2 en + 1 := heuristic_adj hadj
        have h2 : w * heuristic c0 en ≤ w * (heuristic c2 en + 1) :=
          Nat.mul_le_mul_left w h1
        have h3 : w * (heuristic c2 en + 1) = w * heuristic c2 en + w :=
          Nat.mul_succ w _
        omega
      have h4 := ih htail
      have h5 : ((c2 :: t2).length : Nat) - 1 = t2.length := by simp
      have h6 : ((c0 :: c2 :: t2).length : Nat) - 1 = t2.length + 1 := by simp
      omega

/-- Any path from a visited node to an unvisited one crosses the boundary,
keeping both the entry prefix and the exit suffix. -/
lemma path_exit2 {grid : Grid} {s e : Coordinate} {l : List Coordinate}
    (vis : List Coordinate) (h : IsPath grid s e l) (hs : s ∈ vis)
    (he : e ∉ vis) :
    ∃ a b l1 l2, a ∈ vis ∧ b ∉ vis ∧ Adj grid a b ∧ IsPath grid s a l1 ∧
      IsPath grid b e l2 ∧ l1.length + l2.length ≤ l.length := by
  induction l generalizing s with
  | nil => exact absurd rfl h.1
  | cons c t ih =>
    have hc : c = s := Option.some_injective _ h.2.1
    subst hc
    cases t with
    | nil =>
      have : c = e := Option.some_injective _ h.2.2.1
      rw [this] at hs
      exact absurd hs he
    | cons c2 t2 =>
      have hadj : Adj grid c c2 := (List.chain'_cons.mp h.2.2.2).1
      have htail : IsPath grid c2 e (c2 :: t2) := by
        refine ⟨List.cons_ne_nil _ _, rfl, ?_, (List.chain'_cons.mp h.2.2.2).2⟩
        have := h.2.2.1
        rw [List.getLast?_cons_cons] at this
        exact this
      by_cases hc2 : c2 ∈ vis
      · obtain ⟨a, b, l1, l2, ha, hb, hab, hp1, hp2, hlen⟩ := ih htail hc2
        refine ⟨a, b, c :: l1, l2, ha, hb, hab, path_cons hadj hp1, hp2, ?_⟩
        simp only [List.length_cons] at hlen ⊢
        omega
      · refine ⟨c, c2, [c], c2 :: t2, hs, hc2, hadj, path_singleton grid c,
          htail, ?_⟩
        simp only [List.length_singleton, List.length_cons, List.length_nil]
        omega

/-- The relaxation loop of a just-closed node `x` (with exact cost `gx` and
optimal closed reconstruction `lx`) preserves the optimality core and
completes frontier domination over the processed neighbours. -/
lemma wRelax_opt (g : Grid) (s en : Coordinate) (w : Nat) (x : Coordinate)
    (gx : Nat) (lx : List Coordinate) :
    ∀ (ns : List Coordinate) (σ : WState),
      (∀ n ∈ ns, n ∈ getNeighbors g x) →
      x ∈ σ.visitedSet →
      distFind σ.distMap x = some gx →
      reconstructPath (σ.parentMap.length + 1) σ.parentMap x = some lx →
      IsPath g s x lx → lx.length = gx + 1 →
      (∀ c ∈ lx, c ∈ σ.visitedSet) →
      WOCore g s en w σ →
      (∀ x' ∈ σ.visitedSet, ∀ y ∈ getNeighbors g x', (x' = x → y ∉ ns) →
        ∃ gy gx', distFind σ.distMap y = some gy ∧
          distFind σ.distMap x' = some gx' ∧ gy ≤ gx' + 1) →
      WOCore g s en w (wRelax g en ⟨true, w⟩ x gx σ ns) ∧
        WDom g (wRelax g en ⟨true, w⟩ x gx σ ns) := by
  intro ns
  induction ns with
  | nil =>
    intro σ _ _ _ _ _ _ _ hcore hdom
    refine ⟨hcore, ?_⟩
    intro x' hx' y hy
    exact hdom x' hx' y hy (fun _ => List.not_mem_nil y)
  | cons n t ih =>
    intro σ hns hxv hxdm hxrec hlxp hlxlen hlxsub hcore hdom
    by_cases hn : n ∈ σ.visitedSet
    · have hred : wRelax g en ⟨true, w⟩ x gx σ (n :: t) =
          wRelax g en ⟨true, w⟩ x gx σ t := by
        show (if n ∈ σ.visitedSet then wRelax g en ⟨true, w⟩ x gx σ t
          else if (match distFind σ.distMap n with
              | none => true
              | some existingG => decide (gx + 1 < existingG)) = true then
            wRelax g en ⟨true, w⟩ x gx
              { σ with
                distMap := (n, gx + 1) :: σ.distMap
                parentMap := (n, some x) :: σ.parentMap
                pq := σ.pq ++ [⟨n, (gx + 1) + w * heuristic n en, gx + 1⟩] } t
          else wRelax g en ⟨true, w⟩ x gx σ t) = _
        rw [if_pos hn]
      rw [hred]
      refine ih σ (fun m hm => hns m (List.mem_cons_of_mem _ hm)) hxv hxdm hxrec
        hlxp hlxlen hlxsub hcore ?_
      intro x' hx' y hy hcond
      by_cases hcase : x' = x ∧ y = n
      · obtain ⟨h1, h2⟩ := hcase
        subst h1
        subst h2
        obtain ⟨gn, hgn, hmin⟩ := hcore.closedMin y hn
        have hach : IsPath g s y (lx ++ [y]) :=
          path_snoc hlxp (hns y (List.mem_cons_self _ _))
        have := hmin (lx ++ [y]) hach
        rw [List.length_append, hlxlen] at this
        refine ⟨gn, gx, hgn, hxdm, ?_⟩
        simp only [List.length_singleton] at this
        omega
      · refine hdom x' hx' y hy ?_
        intro hx'x hmem
        rcases List.mem_cons.mp hmem with rfl | hmem'
        · exact hcase ⟨hx'x, rfl⟩
        · exact hcond hx'x hmem'
    · by_cases him : (match distFind σ.distMap n with
        | none => true
        | some existingG => decide (gx + 1 < existingG)) = true
      · -- the improving write
        have hnx : n ≠ x := fun h => hn (h ▸ hxv)
        have himfact : distFind σ.distMap n = none ∨
            ∃ eg, distFind σ.distMap n = some eg ∧ gx + 1 < eg := by
          cases hfind : distFind σ.distMap n with
          | none => exact Or.inl rfl
          | some eg =>
            right
            refine ⟨eg, rfl, ?_⟩
            have h3 := him
            rw [hfind] at h3
            exact of_decide_eq_true h3
        have hno_s : n ≠ s := by
          intro h
          have h3 := him
          rw [h, hcore.dmS] at h3
          have h4 : decide (gx + 1 < 0) = true := h3
          have := of_decide_eq_true h4
          omega
        have hred : wRelax g en ⟨true, w⟩ x gx σ (n :: t) =
            wRelax g en ⟨true, w⟩ x gx
              { σ with
                distMap := (n, gx + 1) :: σ.distMap
                parentMap := (n, some x) :: σ.parentMap
                pq := σ.pq ++ [⟨n, (gx + 1) + w * heuristic n en, gx + 1⟩] } t := by
          show (if n ∈ σ.visitedSet then wRelax g en ⟨true, w⟩ x gx σ t
            else if (match distFind σ.distMap n with
                | none => true
                | some existingG => decide (gx + 1 < existingG)) = true then
              wRelax g en ⟨true, w⟩ x gx
                { σ with
                  distMap := (n, gx + 1) :: σ.distMap
                  parentMap := (n, some x) :: σ.parentMap
                  pq := σ.pq ++ [⟨n, (gx + 1) + w * heuristic n en, gx + 1⟩] } t
            else wRelax g en ⟨true, w⟩ x gx σ t) = _
          rw [if_neg hn, if_pos him]
        rw [hred]
        have hpmagree : ∀ c ∈ lx, pmFind ((n, some x) :: σ.parentMap) c =
            pmFind σ.parentMap c := by
          intro c hc
          have hnc : ¬ (n = c) := fun h => hn (h ▸ hlxsub c hc)
          rw [pmFind_cons, if_neg hnc]
        have hxrec1 : reconstructPath (σ.parentMap.length + 1)
            ((n, some x) :: σ.parentMap) x = some lx :=
          reconstructPath_congr hxrec hpmagree
        have hxrec2 : reconstructPath (σ.parentMap.length + 1 + 1)
            ((n, some x) :: σ.parentMap) x = some lx :=
          reconstructPath_mono hxrec1 (Nat.le_succ _)
        have hreconn : reconstructPath (σ.parentMap.length + 1 + 1)
            ((n, some x) :: σ.parentMap) n = some (lx ++ [n]) := by
          show (match pmFind ((n, some x) :: σ.parentMap) n with
            | some (some p) => (reconstructPath (σ.parentMap.length + 1)
                ((n, some x) :: σ.parentMap) p).map (fun l => l ++ [n])
            | _ => some [n]) = some (lx ++ [n])
          rw [pmFind_cons, if_pos rfl]
          show (reconstructPath (σ.parentMap.length + 1)
            ((n, some x) :: σ.parentMap) x).map (fun l => l ++ [n]) = some (lx ++ [n])
          rw [hxrec1]
          rfl
        refine ih _ (fun m hm => hns m (List.mem_cons_of_mem _ hm)) hxv ?_ ?_
          hlxp hlxlen hlxsub ?_ ?_
        · show distFind ((n, gx + 1) :: σ.distMap) x = some gx
          rw [distFind_cons, if_neg hnx]
          exact hxdm
        · show reconstructPath (((n, some x) :: σ.parentMap).length + 1)
            ((n, some x) :: σ.parentMap) x = some lx
          exact hxrec2
        · -- the core at the updated state
          refine ⟨hcore.vNodup, hcore.vOpen, hcore.enV, ?_, ?_, ?_, ?_, ?_, ?_, ?_⟩
          · intro e he
            rcases List.mem_append.mp he with h | h
            · exact hcore.pqPrio e h
            · rcases List.mem_singleton.mp h with rfl
              rfl
          · intro e he
            rcases List.mem_append.mp he with h | h
            · exact hcore.pqOpen e h
            · rcases List.mem_singleton.mp h with rfl
              exact Or.inr (neighbors_mem_openCells
                ((hns n (List.mem_cons_self _ _)) : Adj g x n))
          · intro e he
            rcases List.mem_append.mp he with h | h
            · obtain ⟨ge, hge, hgele⟩ := hcore.dmLB e h
              by_cases hen' : n = e.coord
              · refine ⟨gx + 1, ?_, ?_⟩
                · show distFind ((n, gx + 1) :: σ.distMap) e.coord = some (gx + 1)
                  rw [distFind_cons, if_pos hen']
                · rcases himfact with hnone | ⟨eg, heg, hlt⟩
                  · rw [← hen'] at hge
                    rw [hnone] at hge
                    cases hge
                  · rw [← hen'] at hge
                    rw [heg] at hge
                    have : eg = ge := Option.some_injective _ hge
                    omega
              · refine ⟨ge, ?_, hgele⟩
                show distFind ((n, gx + 1) :: σ.distMap) e.coord = some ge
                rw [distFind_cons, if_neg hen']
                exact hge
            · rcases List.mem_singleton.mp h with rfl
              refine ⟨gx + 1, ?_, Nat.le_refl _⟩
              show distFind ((n, gx + 1) :: σ.distMap) n = some (gx + 1)
              rw [distFind_cons, if_pos rfl]
          · intro y gy hy
            have hy' : (if n = y then some (gx + 1) else distFind σ.distMap y) =
                some gy := by
              rw [← distFind_cons]
              exact hy
            by_cases hny : n = y
            · rw [if_pos hny] at hy'
              have hgy : gx + 1 = gy := Option.some_injective _ hy'
              subst hny
              refine ⟨lx ++ [n], ?_, path_snoc hlxp
                ((hns n (List.mem_cons_self _ _)) : Adj g x n), ?_, ?_⟩
              · exact hreconn
              · rw [List.length_append, hlxlen]
                simp only [List.length_singleton]
                omega
              · rw [List.dropLast_concat]
                exact hlxsub
            · rw [if_neg hny] at hy'
              obtain ⟨l, hl, hlp, hll, hld⟩ := hcore.dmRecon y gy hy'
              obtain ⟨l0, rfl⟩ := reconstructPath_last hl
              rw [List.dropLast_concat] at hld
              have hagree : ∀ c ∈ l0 ++ [y],
                  pmFind ((n, some x) :: σ.parentMap) c = pmFind σ.parentMap c := by
                intro c hc
                rcases List.mem_append.mp hc with h | h
                · have hnc : ¬ (n = c) := fun he => hn (he ▸ hld c h)
                  rw [pmFind_cons, if_neg hnc]
                · rcases List.mem_singleton.mp h with rfl
                  rw [pmFind_cons, if_neg hny]
              have hl1 := reconstructPath_congr hl hagree
              have hl2 : reconstructPath (((n, some x) :: σ.parentMap).length + 1)
                  ((n, some x) :: σ.parentMap) y = some (l0 ++ [y]) :=
                reconstructPath_mono hl1 (by
                  simp only [List.length_cons]
                  omega)
              refine ⟨l0 ++ [y], hl2, hlp, hll, ?_⟩
              rw [List.dropLast_concat]
              exact hld
          · intro x' hx'
            obtain ⟨gx', hgx', hmin⟩ := hcore.closedMin x' hx'
            refine ⟨gx', ?_, hmin⟩
            show distFind ((n, gx + 1) :: σ.distMap) x' = some gx'
            have hne0 : ¬ (n = x') := fun h => hn (h ▸ hx')
            rw [distFind_cons, if_neg hne0]
            exact hgx'
          · intro y gy hy hyv
            have hy' : (if n = y then some (gx + 1) else distFind σ.distMap y) =
                some gy := by
              rw [← distFind_cons]
              exact hy
            by_cases hny : n = y
            · rw [if_pos hny] at hy'
              have hgy : gx + 1 = gy := Option.some_injective _ hy'
              subst hny
              refine ⟨⟨n, (gx + 1) + w * heuristic n en, gx + 1⟩, ?_, rfl, ?_⟩
              · exact List.mem_append_right _ (List.mem_singleton_self _)
              · exact hgy
            · rw [if_neg hny] at hy'
              obtain ⟨e, he, hec, heg⟩ := hcore.dmEntry y gy hy' hyv
              exact ⟨e, List.mem_append_left _ he, hec, heg⟩
          · show distFind ((n, gx + 1) :: σ.distMap) s = some 0
            rw [distFind_cons, if_neg hno_s]
            exact hcore.dmS
        · -- the conditional domination at the updated state
          intro x' hx' y hy hcond
          by_cases hyn : y = n
          · subst hyn
            by_cases hx'x : x' = x
            · subst hx'x
              refine ⟨gx + 1, gx, ?_, ?_, Nat.le_refl _⟩
              · show distFind ((y, gx + 1) :: σ.distMap) y = some (gx + 1)
                rw [distFind_cons, if_pos rfl]
              · show distFind ((y, gx + 1) :: σ.distMap) x' = some gx
                have hne0 : ¬ (y = x') := fun h => hn (by rw [h]; exact hxv)
                rw [distFind_cons, if_neg hne0]
                exact hxdm
            · obtain ⟨gyv, gx', hgyv, hgx', hle⟩ :=
                hdom x' hx' y hy (fun h => absurd h hx'x)
              rcases himfact with hnone | ⟨eg, heg, hlt⟩
              · rw [hnone] at hgyv
                cases hgyv
              · rw [heg] at hgyv
                have hegv : eg = gyv := Option.some_injective _ hgyv
                refine ⟨gx + 1, gx', ?_, ?_, ?_⟩
                · show distFind ((y, gx + 1) :: σ.distMap) y = some (gx + 1)
                  rw [distFind_cons, if_pos rfl]
                · show distFind ((y, gx + 1) :: σ.distMap) x' = some gx'
                  have hne0 : ¬ (y = x') := fun h => hn (by rw [h]; exact hx')
                  rw [distFind_cons, if_neg hne0]
                  exact hgx'
                · omega
          · obtain ⟨gyv, gx', hgyv, hgx', hle⟩ := hdom x' hx' y hy (by
              intro hx'x hmem
              rcases List.mem_cons.mp hmem with h | h
              · exact hyn h
              · exact hcond hx'x h)
            refine ⟨gyv, gx', ?_, ?_, hle⟩
            · show distFind ((n, gx + 1) :: σ.distMap) y = some gyv
              have hne0 : ¬ (n = y) := fun h => hyn h.symm
              rw [distFind_cons, if_neg hne0]
              exact hgyv
            · show distFind ((n, gx + 1) :: σ.distMap) x' = some gx'
              have hne0 : ¬ (n = x') := fun h => hn (h ▸ hx')
              rw [distFind_cons, if_neg hne0]
              exact hgx'
      · -- no improvement: the stored cost already dominates
        have hnotimp : ∃ eg, distFind σ.distMap n = some eg ∧ eg ≤ gx + 1 := by
          cases hfind : distFind σ.distMap n with
          | none =>
            exfalso
            apply him
            rw [hfind]
          | some eg =>
            refine ⟨eg, rfl, ?_⟩
            by_contra hgt
            apply him
            rw [hfind]
            show decide (gx + 1 < eg) = true
            exact decide_eq_true (by omega)
        have hred : wRelax g en ⟨true, w⟩ x gx σ (n :: t) =
            wRelax g en ⟨true, w⟩ x gx σ t := by
          show (if n ∈ σ.visitedSet then wRelax g en ⟨true, w⟩ x gx σ t
            else if (match distFind σ.distMap n with
                | none => true
                | some existingG => decide (gx + 1 < existingG)) = true then
              wRelax g en ⟨true, w⟩ x gx
                { σ with
                  distMap := (n, gx + 1) :: σ.distMap
                  parentMap := (n, some x) :: σ.parentMap
                  pq := σ.pq ++ [⟨n, (gx + 1) + w * heuristic n en, gx + 1⟩] } t
            else wRelax g en ⟨true, w⟩ x gx σ t) = _
          rw [if_neg hn, if_neg him]
        rw [hred]
        refine ih σ (fun m hm => hns m (List.mem_cons_of_mem _ hm)) hxv hxdm hxrec
          hlxp hlxlen hlxsub hcore ?_
        intro x' hx' y hy hcond
        by_cases hcase : x' = x ∧ y = n
        · obtain ⟨h1, h2⟩ := hcase
          subst h1
          subst h2
          obtain ⟨eg, heg, hegle⟩ := hnotimp
          exact ⟨eg, gx, heg, hxdm, hegle⟩
        · refine hdom x' hx' y hy ?_
          intro hx'x hmem
          rcases List.mem_cons.mp hmem with rfl | hmem'
          · exact hcase ⟨hx'x, rfl⟩
          · exact hcond hx'x hmem'

/-- The weighted-search main loop with `usePathCost` and a consistent
(weight ≤ 1) heuristic: from any invariant state with the goal reachable,
the run terminates and its final frame holds a shortest path. -/
lemma w_opt_loop (g : Grid) (s en : Coordinate) (w : Nat) (hw : w ≤ 1)
    (hre : Reachable g s en) :
    ∀ (fuel : Nat) (σ : WState), WOCore g s en w σ → WDom g σ →
      wMeasure g σ < fuel →
      ∃ fs f, wRun fuel g en ⟨true, w⟩ σ = some fs ∧ fs.getLast? = some f ∧
        IsPath g s en f.path ∧ ∀ l, IsPath g s en l → f.path.length ≤ l.length := by
  intro fuel
  induction fuel with
  | zero =>
    intro σ _ _ hM
    omega
  | succ m ih =>
    intro σ hcore hdom hM
    obtain ⟨pq, dm, pm, v⟩ := σ
    cases hsort : stableSortBy (fun e => e.priority) pq with
    | nil =>
      exfalso
      have hpqnil : pq = [] := by
        have hle := stableSortBy_length (fun e : PQEntry => e.priority) pq
        rw [hsort] at hle
        have : pq.length = 0 := by simpa using hle.symm
        exact List.length_eq_zero.mp this
      obtain ⟨P, hP⟩ := hre
      have henv : en ∉ v := hcore.enV
      by_cases hs : s ∈ v
      · obtain ⟨a, b, l1, l2, ha, hb, hab, hp1, hp2, _⟩ :=
          path_exit2 v hP hs henv
        obtain ⟨gyv, ga, hgyv, hga, _⟩ := hdom a ha b hab
        obtain ⟨e, he, _, _⟩ := hcore.dmEntry b gyv hgyv hb
        rw [hpqnil] at he
        exact absurd he (List.not_mem_nil e)
      · obtain ⟨e, he, _, _⟩ := hcore.dmEntry s 0 hcore.dmS hs
        rw [hpqnil] at he
        exact absurd he (List.not_mem_nil e)
    | cons top rest =>
      have htop : top ∈ pq := (stableSortBy_mem _ _ _).mp
        (by rw [hsort]; exact List.mem_cons_self _ _)
      have hrest : ∀ e ∈ rest, e ∈ pq := fun e he => (stableSortBy_mem _ _ _).mp
        (by rw [hsort]; exact List.mem_cons_of_mem _ he)
      have hlen : rest.length + 1 = pq.length := by
        have := stableSortBy_length (fun e : PQEntry => e.priority) pq
        rw [hsort] at this
        simpa using this
      have hmin : ∀ b ∈ pq, top.priority ≤ b.priority := by
        intro b hb
        exact stableSortBy_min (fun e => e.priority) pq top rest hsort b
          ((stableSortBy_mem _ _ _).mpr hb)
      have step1 : wRun (m + 1) g en ⟨true, w⟩ ⟨pq, dm, pm, v⟩ =
          (if top.coord ∈ v then wRun m g en ⟨true, w⟩ ⟨rest, dm, pm, v⟩
          else
            if top.coord = en then
              (reconstructPath (pm.length + 1) pm top.coord).map
                (fun p => [⟨v ++ [top.coord], [], p, none⟩])
            else
              (wRun m g en ⟨true, w⟩ (wRelax g en ⟨true, w⟩ top.coord top.g
                ⟨rest, dm, pm, v ++ [top.coord]⟩ (getNeighbors g top.coord))).map
                (fun fs => ⟨v ++ [top.coord],
                  rest.map (fun e : PQEntry => e.coord), [],
                  some top.coord⟩ :: fs)) := by
        show (match stableSortBy (fun e => e.priority) pq with
          | [] => some ([] : List Frame)
          | top :: rest =>
            if top.coord ∈ v then wRun m g en ⟨true, w⟩ ⟨rest, dm, pm, v⟩
            else
              if top.coord = en then
                (reconstructPath (pm.length + 1) pm top.coord).map
                  (fun p => [⟨v ++ [top.coord], [], p, none⟩])
              else
                (wRun m g en ⟨true, w⟩ (wRelax g en ⟨true, w⟩ top.coord top.g
                  ⟨rest, dm, pm, v ++ [top.coord]⟩ (getNeighbors g top.coord))).map
                  (fun fs => ⟨v ++ [top.coord],
                    rest.map (fun e : PQEntry => e.coord), [],
                    some top.coord⟩ :: fs)) = _
        rw [hsort]
      by_cases hv : top.coord ∈ v
      · have hcore' : WOCore g s en w ⟨rest, dm, pm, v⟩ := by
          refine ⟨hcore.vNodup, hcore.vOpen, hcore.enV,
            fun e he => hcore.pqPrio e (hrest e he),
            fun e he => hcore.pqOpen e (hrest e he),
            fun e he => hcore.dmLB e (hrest e he),
            hcore.dmRecon, hcore.closedMin, ?_, hcore.dmS⟩
          intro y gy hy hyv
          obtain ⟨e, he, hec, heg⟩ := hcore.dmEntry y gy hy hyv
          have hmem : e ∈ top :: rest := by
            rw [← hsort]
            exact (stableSortBy_mem _ _ _).mpr he
          rcases List.mem_cons.mp hmem with rfl | h
          · exact absurd (hec ▸ hv) hyv
          · exact ⟨e, h, hec, heg⟩
        obtain ⟨fs, f, hrun, hlast, hp, hminl⟩ := ih ⟨rest, dm, pm, v⟩ hcore' hdom (by
          have h1 : wMeasure g ⟨pq, dm, pm, v⟩ < m + 1 := hM
          have h2 : wMeasure g ⟨pq, dm, pm, v⟩ =
              pq.length + 5 * ((openCells g).length + 1 - v.length) := rfl
          have h3 : wMeasure g ⟨rest, dm, pm, v⟩ =
              rest.length + 5 * ((openCells g).length + 1 - v.length) := rfl
          rw [h2] at h1
          rw [h3]
          omega)
        refine ⟨fs, f, ?_, hlast, hp, hminl⟩
        rw [step1, if_pos hv]
        exact hrun
      · obtain ⟨gz, hgz0, hgzle⟩ := hcore.dmLB top htop
        have hgz : distFind dm top.coord = some gz := hgz0
        obtain ⟨ez, hez, hezc, hezg⟩ := hcore.dmEntry top.coord gz hgz hv
        have htopg : top.g = gz := by
          have h1 := hmin ez hez
          have h2 := hcore.pqPrio top htop
          have h3 := hcore.pqPrio ez hez
          rw [h2, h3, hezc, hezg] at h1
          omega
        have hminP : ∀ P, IsPath g s top.coord P → top.g + 1 ≤ P.length := by
          intro P hP
          by_cases hs : s ∈ v
          · obtain ⟨a, b, l1, l2, ha, hb, hab, hp1, hp2, hlen12⟩ :=
              path_exit2 v hP hs hv
            obtain ⟨gb, ga, hgb, hga, hba⟩ := hdom a ha b hab
            obtain ⟨ga', hga', hamin⟩ := hcore.closedMin a ha
            have hgaeq : ga = ga' := by
              rw [hga] at hga'
              exact Option.some_injective _ hga'
            have hminl1 := hamin l1 hp1
            obtain ⟨eb, heb, hebc, hebg⟩ := hcore.dmEntry b gb hgb hb
            have h1 := hmin eb heb
            rw [hcore.pqPrio top htop, hcore.pqPrio eb heb, hebc, hebg] at h1
            have htel : w * heuristic b en ≤ (l2.length - 1) +
                w * heuristic top.coord en := heuristic_telescope hw hp2
            have hl2pos : 1 ≤ l2.length := path_length_pos hp2
            have hl1pos : 1 ≤ l1.length := path_length_pos hp1
            omega
          · obtain ⟨es, hes, hesc, hesg⟩ := hcore.dmEntry s 0 hcore.dmS hs
            have h1 := hmin es hes
            rw [hcore.pqPrio top htop, hcore.pqPrio es hes, hesc, hesg] at h1
            have htel : w * heuristic s en ≤ (P.length - 1) +
                w * heuristic top.coord en := heuristic_telescope hw hP
            have hPpos : 1 ≤ P.length := path_length_pos hP
            omega
        obtain ⟨lz, hlz0, hlzp, hlzlen, hlzsub⟩ := hcore.dmRecon top.coord gz hgz
        have hlz : reconstructPath (pm.length + 1) pm top.coord = some lz := hlz0
        by_cases hze : top.coord = en
        · refine ⟨[⟨v ++ [top.coord], [], lz, none⟩],
            ⟨v ++ [top.coord], [], lz, none⟩, ?_, rfl, ?_, ?_⟩
          · rw [step1, if_neg hv, if_pos hze, hlz]
            rfl
          · show IsPath g s en lz
            rw [← hze]
            exact hlzp
          · intro l hl
            show lz.length ≤ l.length
            have hl' : IsPath g s top.coord l := by
              rw [hze]
              exact hl
            have := hminP l hl'
            omega
        · have hvnd1 : (v ++ [top.coord]).Nodup := by
            rw [List.nodup_append]
            refine ⟨hcore.vNodup, List.nodup_singleton _, ?_⟩
            intro a ha hb
            rcases List.mem_singleton.mp hb with rfl
            exact hv ha
          have hvopen1 : ∀ x ∈ v ++ [top.coord], x = s ∨ x ∈ openCells g := by
            intro x hx
            rcases List.mem_append.mp hx with h | h
            · exact hcore.vOpen x h
            · rcases List.mem_singleton.mp h with rfl
              exact hcore.pqOpen top htop
          have hcore1 : WOCore g s en w ⟨rest, dm, pm, v ++ [top.coord]⟩ := by
            refine ⟨hvnd1, hvopen1, ?_,
              fun e he => hcore.pqPrio e (hrest e he),
              fun e he => hcore.pqOpen e (hrest e he),
              fun e he => hcore.dmLB e (hrest e he), ?_, ?_, ?_, hcore.dmS⟩
            · intro hmem
              rcases List.mem_append.mp hmem with h | h
              · exact hcore.enV h
              · rcases List.mem_singleton.mp h with h'
                exact hze h'.symm
            · intro y gy hy
              obtain ⟨l, hl, hlp, hll, hld⟩ := hcore.dmRecon y gy hy
              exact ⟨l, hl, hlp, hll,
                fun c hc => List.mem_append_left _ (hld c hc)⟩
            · intro x hx
              rcases List.mem_append.mp hx with h | h
              · exact hcore.closedMin x h
              · rcases List.mem_singleton.mp h with rfl
                refine ⟨gz, hgz, ?_⟩
                intro l hl
                have := hminP l hl
                omega
            · intro y gy hy hyv
              have hyv' : y ∉ v := fun h => hyv (List.mem_append_left _ h)
              have hyz : y ≠ top.coord := fun h =>
                hyv (h ▸ List.mem_append_right _ (List.mem_singleton_self _))
              obtain ⟨e, he, hec, heg⟩ := hcore.dmEntry y gy hy hyv'
              have hmem : e ∈ top :: rest := by
                rw [← hsort]
                exact (stableSortBy_mem _ _ _).mpr he
              rcases List.mem_cons.mp hmem with rfl | h
              · exact absurd hec.symm hyz
              · exact ⟨e, h, hec, heg⟩
          have hdom1 : ∀ x' ∈ (⟨rest, dm, pm, v ++ [top.coord]⟩ : WState).visitedSet,
              ∀ y ∈ getNeighbors g x', (x' = top.coord → y ∉ getNeighbors g top.coord) →
              ∃ gy gx', distFind dm y = some gy ∧ distFind dm x' = some gx' ∧
                gy ≤ gx' + 1 := by
            intro x' hx' y hy hcond
            have hx'' : x' ∈ v ++ [top.coord] := hx'
            rcases List.mem_append.mp hx'' with h | h
            · exact hdom x' h y hy
            · rcases List.mem_singleton.mp h with rfl
              exact absurd hy (hcond rfl)
          have hzg : distFind dm top.coord = some top.g := by
            rw [htopg]
            exact hgz
          have hlzlen' : lz.length = top.g + 1 := by
            rw [htopg]
            exact hlzlen
          have hlzsub1 : ∀ c ∈ lz, c ∈ v ++ [top.coord] := by
            obtain ⟨l0, hl0⟩ := reconstructPath_last hlz
            subst hl0
            rw [List.dropLast_concat] at hlzsub
            intro c hc
            rcases List.mem_append.mp hc with h | h
            · exact List.mem_append_left _ (hlzsub c h)
            · rcases List.mem_singleton.mp h with rfl
              exact List.mem_append_right _ (List.mem_singleton_self _)
          obtain ⟨hcore2, hdom2⟩ := wRelax_opt g s en w top.coord top.g lz
            (getNeighbors g top.coord) ⟨rest, dm, pm, v ++ [top.coord]⟩
            (fun n hn => hn)
            (List.mem_append_right _ (List.mem_singleton_self _))
            hzg hlz hlzp hlzlen' hlzsub1 hcore1 hdom1
          obtain ⟨pushed, hpq2, hplen, _⟩ := wRelax_pq g en ⟨true, w⟩ top.coord top.g
            (getNeighbors g top.coord) ⟨rest, dm, pm, v ++ [top.coord]⟩
          have hvis2 : (wRelax g en ⟨true, w⟩ top.coord top.g
              ⟨rest, dm, pm, v ++ [top.coord]⟩
              (getNeighbors g top.coord)).visitedSet = v ++ [top.coord] :=
            wRelax_visited g en ⟨true, w⟩ top.coord top.g (getNeighbors g top.coord) _
          have hlen_v : v.length + 1 ≤ (openCells g).length + 1 := by
            have hsub : v ++ [top.coord] ⊆ s :: openCells g := by
              intro x hx
              rcases hvopen1 x hx with h | h
              · rw [h]
                exact List.mem_cons_self _ _
              · exact List.mem_cons_of_mem _ h
            have hle := (List.Nodup.subperm hvnd1 hsub).length_le
            rw [List.length_append] at hle
            simpa using hle
          have hnb := getNeighbors_length_le g top.coord
          obtain ⟨fs, f, hrun, hlast, hp, hminl⟩ := ih _ hcore2 hdom2 (by
            have h1 : wMeasure g ⟨pq, dm, pm, v⟩ < m + 1 := hM
            have h2 : wMeasure g ⟨pq, dm, pm, v⟩ =
                pq.length + 5 * ((openCells g).length + 1 - v.length) := rfl
            have h3 : wMeasure g (wRelax g en ⟨true, w⟩ top.coord top.g
                ⟨rest, dm, pm, v ++ [top.coord]⟩ (getNeighbors g top.coord)) =
                (wRelax g en ⟨true, w⟩ top.coord top.g
                  ⟨rest, dm, pm, v ++ [top.coord]⟩
                  (getNeighbors g top.coord)).pq.length +
                5 * ((openCells g).length + 1 - (wRelax g en ⟨true, w⟩ top.coord top.g
                  ⟨rest, dm, pm, v ++ [top.coord]⟩
                  (getNeighbors g top.coord)).visitedSet.length) := rfl
            rw [h2] at h1
            rw [h3, hpq2, hvis2]
            have h4 : (rest ++ pushed).length = rest.length + pushed.length :=
              List.length_append _ _
            have h5 : (v ++ [top.coord]).length = v.length + 1 := by
              rw [List.length_append]
              rfl
            rw [h4, h5]
            omega)
          refine ⟨⟨v ++ [top.coord], rest.map (fun e : PQEntry => e.coord), [],
            some top.coord⟩ :: fs, f, ?_, ?_, hp, hminl⟩
          · rw [step1, if_neg hv, if_neg hze, hrun]
            rfl
          · cases fs with
            | nil => cases hlast
            | cons a t =>
              rw [List.getLast?_cons_cons]
              exact hlast

/-- The weighted search with `usePathCost` and heuristic weight at most one
finds a shortest path whenever the goal is reachable (the seeded entry has
priority 0, so the start closes first; the invariant then carries). -/
lemma w_opt_start (g : Grid) (s en : Coordinate) (w : Nat) (hw : w ≤ 1)
    (hre : Reachable g s en) :
    ∃ fuel fs f, weightedFrames fuel g s en ⟨true, w⟩ = some fs ∧
      fs.getLast? = some f ∧ IsPath g s en f.path ∧
      ∀ l, IsPath g s en l → f.path.length ≤ l.length := by
  by_cases hse : s = en
  · refine ⟨1, [⟨[s], [], [s], none⟩], ⟨[s], [], [s], none⟩, ?_, rfl, ?_, ?_⟩
    · show (if s ∈ ([] : List Coordinate) then
          wRun 0 g en ⟨true, w⟩ ⟨[], [(s, 0)], [], []⟩
        else
          if s = en then
            (reconstructPath (([] : ParentMap).length + 1) ([] : ParentMap) s).map
              (fun p => [⟨[s], [], p, none⟩])
          else
            (wRun 0 g en ⟨true, w⟩ (wRelax g en ⟨true, w⟩ s 0
              ⟨[], [(s, 0)], [], [s]⟩ (getNeighbors g s))).map
              (fun fs => ⟨[s], [], [], some s⟩ :: fs)) = _
      rw [if_neg (List.not_mem_nil s), if_pos hse]
      rfl
    · show IsPath g s en [s]
      rw [← hse]
      exact path_singleton g s
    · intro l hl
      show ([s] : List Coordinate).length ≤ l.length
      have := path_length_pos hl
      simpa using this
  · have hcore1 : WOCore g s en w ⟨[], [(s, 0)], [], [s]⟩ := by
      refine ⟨List.nodup_singleton _, ?_, ?_, ?_, ?_, ?_, ?_, ?_, ?_, ?_⟩
      · intro x hx
        rcases List.mem_singleton.mp hx with rfl
        exact Or.inl rfl
      · intro hmem
        rcases List.mem_singleton.mp hmem with h
        exact hse h.symm
      · intro e he
        cases he
      · intro e he
        cases he
      · intro e he
        cases he
      · intro y gy hy
        have hy' : (if s = y then some 0 else distFind ([] : List (Coordinate × Nat)) y)
            = some gy := by
          rw [← distFind_cons]
          exact hy
        by_cases hsy : s = y
        · rw [if_pos hsy] at hy'
          have h0 : (0 : Nat) = gy := Option.some_injective _ hy'
          subst hsy
          refine ⟨[s], rfl, path_singleton g s, ?_, by simp⟩
          rw [← h0]
          rfl
        · rw [if_neg hsy] at hy'
          cases hy'
      · intro x hx
        rcases List.mem_singleton.mp hx with rfl
        refine ⟨0, ?_, ?_⟩
        · show distFind [(x, 0)] x = some 0
          rw [distFind_cons, if_pos rfl]
        · intro l hl
          have := path_length_pos hl
          omega
      · intro y gy hy hyv
        exfalso
        have hy' : (if s = y then some 0 else distFind ([] : List (Coordinate × Nat)) y)
            = some gy := by
          rw [← distFind_cons]
          exact hy
        by_cases hsy : s = y
        · exact hyv (hsy ▸ List.mem_singleton_self s)
        · rw [if_neg hsy] at hy'
          cases hy'
      · show distFind [(s, 0)] s = some 0
        rw [distFind_cons, if_pos rfl]
    have hdom1 : ∀ x' ∈ (⟨[], [(s, 0)], [], [s]⟩ : WState).visitedSet,
        ∀ y ∈ getNeighbors g x', (x' = s → y ∉ getNeighbors g s) →
        ∃ gy gx', distFind [(s, 0)] y = some gy ∧
          distFind [(s, 0)] x' = some gx' ∧ gy ≤ gx' + 1 := by
      intro x' hx' y hy hcond
      have hx'' : x' ∈ [s] := hx'
      rcases List.mem_singleton.mp hx'' with rfl
      exact absurd hy (hcond rfl)
    obtain ⟨hcore2, hdom2⟩ := wRelax_opt g s en w s 0 [s] (getNeighbors g s)
      ⟨[], [(s, 0)], [], [s]⟩ (fun n hn => hn) (List.mem_singleton_self s)
      (by show distFind [(s, 0)] s = some 0; rw [distFind_cons, if_pos rfl])
      rfl (path_singleton g s) rfl (fun c hc => hc) hcore1 hdom1
    obtain ⟨fs, f, hrun, hlast, hp, hminl⟩ := w_opt_loop g s en w hw hre
      (wMeasure g (wRelax g en ⟨true, w⟩ s 0 ⟨[], [(s, 0)], [], [s]⟩
        (getNeighbors g s)) + 1) _ hcore2 hdom2 (Nat.lt_succ_self _)
    refine ⟨wMeasure g (wRelax g en ⟨true, w⟩ s 0 ⟨[], [(s, 0)], [], [s]⟩
      (getNeighbors g s)) + 1 + 1, ⟨[s], [], [], some s⟩ :: fs, f, ?_, ?_, hp, hminl⟩
    · show (if s ∈ ([] : List Coordinate) then
          wRun (wMeasure g (wRelax g en ⟨true, w⟩ s 0 ⟨[], [(s, 0)], [], [s]⟩
            (getNeighbors g s)) + 1) g en ⟨true, w⟩ ⟨[], [(s, 0)], [], []⟩
        else
          if s = en then
            (reconstructPath (([] : ParentMap).length + 1) ([] : ParentMap) s).map
              (fun p => [⟨[s], [], p, none⟩])
          else
            (wRun (wMeasure g (wRelax g en ⟨true, w⟩ s 0 ⟨[], [(s, 0)], [], [s]⟩
              (getNeighbors g s)) + 1) g en ⟨true, w⟩ (wRelax g en ⟨true, w⟩ s 0
              ⟨[], [(s, 0)], [], [s]⟩ (getNeighbors g s))).map
              (fun fs => ⟨[s], [], [], some s⟩ :: fs)) = _
      rw [if_neg (List.not_mem_nil s), if_neg hse, hrun]
      rfl
    · cases fs with
      | nil => cases hlast
      | cons a t =>
        rw [List.getLast?_cons_cons]
        exact hlast

/-- **C6** (confirmed).  On every rectangular grid with the goal reachable,
the weighted engine as instantiated by the factory for Dijkstra
(`usePathCost = true`, weight 0) and for A* (`usePathCost = true`,
weight 1) terminates with a final frame whose path is a genuine
start-to-goal path of the same length as BFS's final path — both are
shortest, the weighted engines because a heuristic weight ≤ 1 keeps the
weighted Manhattan heuristic consistent. -/
theorem dijkstra_astar_match_bfs (g : Grid) (s en : Coordinate) (_hrect : Rect g)
    (hre : Reachable g s en) (t : AlgorithmType)
    (ht : t = AlgorithmType.DIJKSTRA ∨ t = AlgorithmType.ASTAR) :
    ∃ fuelW fsW fW fuelB fsB fB,
      createAlgorithmGenerator t g s en fuelW = some fsW ∧
      fsW.getLast? = some fW ∧
      createAlgorithmGenerator AlgorithmType.BFS g s en fuelB = some fsB ∧
      fsB.getLast? = some fB ∧
      IsPath g s en fW.path ∧ IsPath g s en fB.path ∧
      fW.path.length = fB.path.length := by
  obtain ⟨fsB, fB, hB1, hB2, hB3, hB4⟩ := bfs_loop g s en
    (bfsMeasure g ⟨[s], [s], []⟩ + 1) ⟨[s], [s], []⟩ (fun _ => 0)
    (bfsInv_init g s en) hre (Nat.lt_succ_self _)
  rcases ht with rfl | rfl
  · obtain ⟨fuelW, fsW, fW, hW1, hW2, hW3, hW4⟩ :=
      w_opt_start g s en 0 (by omega) hre
    refine ⟨fuelW, fsW, fW, bfsMeasure g ⟨[s], [s], []⟩ + 1, fsB, fB,
      hW1, hW2, hB1, hB2, hW3, hB3, ?_⟩
    exact Nat.le_antisymm (hW4 fB.path hB3) (hB4 fW.path hW3)
  · obtain ⟨fuelW, fsW, fW, hW1, hW2, hW3, hW4⟩ :=
      w_opt_start g s en 1 (Nat.le_refl 1) hre
    refine ⟨fuelW, fsW, fW, bfsMeasure g ⟨[s], [s], []⟩ + 1, fsB, fB,
      hW1, hW2, hB1, hB2, hW3, hB3, ?_⟩
    exact Nat.le_antisymm (hW4 fB.path hB3) (hB4 fW.path hW3)

/-- **C6**, witness: Dijkstra against BFS on the 1×3 corridor. -/
theorem dijkstra_astar_match_bfs_witness :
    (Rect corridorGrid ∧
      IsPath corridorGrid ⟨0, 0⟩ ⟨2, 0⟩ [⟨0, 0⟩, ⟨1, 0⟩, ⟨2, 0⟩] ∧
      (AlgorithmType.DIJKSTRA = AlgorithmType.DIJKSTRA ∨
        AlgorithmType.DIJKSTRA = AlgorithmType.ASTAR)) ∧
    (∃ fuelW fsW fW fuelB fsB fB,
      createAlgorithmGenerator AlgorithmType.DIJKSTRA corridorGrid ⟨0, 0⟩ ⟨2, 0⟩
        fuelW = some fsW ∧
      fsW.getLast? = some fW ∧
      createAlgorithmGenerator AlgorithmType.BFS corridorGrid ⟨0, 0⟩ ⟨2, 0⟩
        fuelB = some fsB ∧
      fsB.getLast? = some fB ∧
      IsPath corridorGrid ⟨0, 0⟩ ⟨2, 0⟩ fW.path ∧
      IsPath corridorGrid ⟨0, 0⟩ ⟨2, 0⟩ fB.path ∧
      fW.path.length = fB.path.length) :=
  ⟨⟨by decide, by decide, Or.inl rfl⟩,
    dijkstra_astar_match_bfs corridorGrid ⟨0, 0⟩ ⟨2, 0⟩ (by decide)
      ⟨[⟨0, 0⟩, ⟨1, 0⟩, ⟨2, 0⟩], by decide⟩ AlgorithmType.DIJKSTRA (Or.inl rfl)⟩
